import Mathlib

/-!
# Lookahead limiter worklet (`limiter-worklet.js`)

A shallow embedding of the `LimiterProcessor` audio worklet and of the claims made about it.

Numbers: JavaScript numbers are idealised as elements of a linearly ordered field `α` with a
floor function (`ℚ` for evaluation, `ℝ` for the statements that need logarithms), so rounding
error, `NaN` and infinities are outside the model.  The three transcendental functions the worklet
calls (`Math.log10`, `Math.pow(10, ·)`, `Math.exp`) are collected in `MathFns`; `jsMath` is their
real-number meaning.  Ring indices are integers.  Reading a typed array outside its bounds gives
`undefined` in JavaScript; here such a read gives `none`.
-/

set_option autoImplicit false
set_option linter.unusedSectionVars false

namespace Limiter

variable {α : Type} [LinearOrderedField α]

/-! ## Numeric primitives -/

/-- The transcendental functions of the JavaScript `Math` object that the worklet uses. -/
structure MathFns (α : Type) where
  /-- `Math.log10(x)`. -/
  log10 : α → α
  /-- `Math.pow(10, x)`. -/
  pow10 : α → α
  /-- `Math.exp(x)`. -/
  exp : α → α
  /-- The global `isFinite(x)`: false for `NaN` and the infinities. -/
  isFinite : α → Bool

/-- Real-number meaning of the `Math` functions; every real number is finite. -/
noncomputable def jsMath : MathFns ℝ where
  log10 := fun x => Real.logb 10 x
  pow10 := fun x => (10 : ℝ) ^ x
  exp := Real.exp
  isFinite := fun _ => true

/-- `Math.round(x)`: the nearest integer, halves rounded towards `+∞`. -/
def mathRound [FloorRing α] (x : α) : Int := ⌊x + 0.5⌋

/-- `Math.ceil(x)`. -/
def mathCeil [FloorRing α] (x : α) : Int := ⌈x⌉

/-! ## Processor state -/

/-- The fields of a `LimiterProcessor` instance (`constructor`, lines 5-38). -/
structure LimiterProcessor (α : Type) where
  saturationLevel : α
  kneeWidth : α
  outputGain : α
  lookaheadMs : α
  minRecovery : α
  maxDelaySamples : Int
  ringL : List α
  ringR : List α
  writeIndex : Int
  envelope : α
  holdTimer : α
  peakRate : α
  centroid : α
  lowEnergy : α
  rms : α
  inPeakL : α
  inPeakR : α
  outPeakL : α
  outPeakR : α
  meterBlockCount : Nat
  alive : Bool

/-- `new Float32Array(n)`: `n` zeros. -/
def float32Array (n : Int) : List α := List.replicate n.toNat 0

/-- The constructor (lines 5-38); `sampleRate` is the global of the worklet scope. -/
def LimiterProcessor.create [FloorRing α] (sampleRate : α) : LimiterProcessor α :=
  let maxDelaySamples := mathCeil (sampleRate * 0.020)
  { saturationLevel := -6
    kneeWidth := 0
    outputGain := 6
    lookaheadMs := 0.5
    minRecovery := 20
    maxDelaySamples := maxDelaySamples
    ringL := float32Array maxDelaySamples
    ringR := float32Array maxDelaySamples
    writeIndex := 0
    envelope := 0
    holdTimer := 0
    peakRate := 0
    centroid := 0
    lowEnergy := 0
    rms := 0
    inPeakL := 0
    inPeakR := 0
    outPeakL := 0
    outPeakR := 0
    meterBlockCount := 0
    alive := true }

/-! ## Messages (`port.onmessage`, lines 40-55) -/

/-- A `params` message: each field is present (`some`) or `undefined` (`none`). -/
structure ParamsMsg (α : Type) where
  saturationLevel : Option α
  kneeWidth : Option α
  outputGain : Option α
  lookaheadMs : Option α
  minRecovery : Option α

/-- The messages the processor's port can receive. -/
inductive Msg (α : Type) where
  | params (m : ParamsMsg α)
  | spectral (centroid lowEnergy rms : α)
  | destroy
  | other

/-- The message handler installed by the constructor (lines 40-55). -/
def onmessage (p : LimiterProcessor α) : Msg α → LimiterProcessor α
  | .params m =>
    { p with
      saturationLevel := m.saturationLevel.getD p.saturationLevel
      kneeWidth := m.kneeWidth.getD p.kneeWidth
      outputGain := m.outputGain.getD p.outputGain
      lookaheadMs := m.lookaheadMs.getD p.lookaheadMs
      minRecovery := m.minRecovery.getD p.minRecovery }
  | .spectral centroid lowEnergy rms =>
    { p with centroid := centroid, lowEnergy := lowEnergy, rms := rms }
  | .destroy => { p with alive := false }
  | .other => p

/-! ## Per-block constants (lines 71-87) -/

/-- Lines 71-74: the lookahead in samples, clamped into the ring. -/
def delaySamples [FloorRing α] (sampleRate : α) (p : LimiterProcessor α) : Int :=
  min (max (mathRound (p.lookaheadMs * 0.001 * sampleRate)) 0) (p.maxDelaySamples - 1)

/-- Line 77: linear make-up gain. -/
def outGainLin (M : MathFns α) (p : LimiterProcessor α) : α :=
  M.pow10 (p.outputGain / 20)

/-- Lines 82-85: the adaptive recovery time in milliseconds. -/
def recoveryMs (p : LimiterProcessor α) : α :=
  let freqFactor := max 0.2 (1 - (p.centroid / 10000))
  let energyFactor := 1 + (p.lowEnergy * p.rms * 5)
  let recoveryMs := p.minRecovery * energyFactor * freqFactor
  min (max recoveryMs p.minRecovery) (p.minRecovery * 5)

/-- Lines 86-87: the release coefficient. -/
def decay (M : MathFns α) (sampleRate : α) (p : LimiterProcessor α) : α :=
  let releaseSec := recoveryMs p / 1000
  M.exp (-1 / (releaseSec * sampleRate))

/-! ## Per-sample pipeline (loop body, lines 93-163) -/

/-- Lines 113-118: the hold length in samples set by an attack.  `peakRate` is the value already
updated for the current sample. -/
def holdSamples (sampleRate peakRate lowEnergy centroid lookaheadMs : α) : α :=
  let densityFactor := 1 + peakRate * 4
  let lowFreqFactor := 1 + lowEnergy * 3
  let highFreqFactor := max 0.3 (1 - centroid / 8000)
  let holdMs := 5 * densityFactor * lowFreqFactor * highFreqFactor
  let minHoldMs := max holdMs lookaheadMs
  min (max minHoldMs 5) 200 * 0.001 * sampleRate

/-- Lines 105-123: the envelope follower applied to the stereo peak of one sample. -/
def envelopeFollower (sampleRate decay : α) (p : LimiterProcessor α) (peak : α) :
    LimiterProcessor α :=
  let peakHit : α := if peak ≥ p.envelope * 0.9 then 1 else 0
  let peakRate := p.peakRate * 0.9995 + peakHit * 0.0005
  if peak > p.envelope then
    { p with
      peakRate := peakRate
      envelope := peak
      holdTimer := holdSamples sampleRate peakRate p.lowEnergy p.centroid p.lookaheadMs }
  else if p.holdTimer > 0 then
    { p with peakRate := peakRate, holdTimer := p.holdTimer - 1 }
  else
    { p with peakRate := peakRate, envelope := p.envelope * decay + peak * (1 - decay) }

/-- Line 126 (and line 175): level of a linear amplitude in dB, floored at `0.00001`. -/
def envelopeDb (M : MathFns α) (envelope : α) : α :=
  20 * M.log10 (max envelope 0.00001)

/-- Lines 127-138: the gain reduction in dB for a detected level. -/
def gainReductionDb (sat knee envelopeDb : α) : α :=
  if knee ≤ 0 ∨ envelopeDb < sat - knee / 2 then
    if envelopeDb > sat then sat - envelopeDb else 0
  else if envelopeDb > sat + knee / 2 then
    sat - envelopeDb
  else
    let x := envelopeDb - (sat - knee / 2);
    -(x * x) / (2 * knee)

/-- Line 140: the linear gain applied to the delayed sample. -/
def gain (M : MathFns α) (sat knee outGainLin envelope : α) : α :=
  M.pow10 (gainReductionDb sat knee (envelopeDb M envelope) / 20) * outGainLin

/-- Typed-array read `ring[i]`: `none` stands for `undefined` (index out of bounds). -/
def ringGet (ring : List α) (i : Int) : Option α :=
  if 0 ≤ i then ring[i.toNat]? else none

/-- Typed-array write `ring[i] = v`: ignored when the index is out of bounds. -/
def ringSet (ring : List α) (i : Int) (v : α) : List α :=
  if 0 ≤ i then ring.set i.toNat v else ring

/-- Lines 146-147: the read cursor. -/
def readIndex (writeIndex delaySamples maxDelaySamples : Int) : Int :=
  let readIndex := writeIndex - delaySamples
  if readIndex < 0 then readIndex + maxDelaySamples else readIndex

/-- Lines 142-152: write the current sample, read the delayed one, advance the write cursor.
Returns the new state and `delayedL`, `delayedR`. -/
def ringStep (delaySamples : Int) (p : LimiterProcessor α) (sL sR : α) :
    LimiterProcessor α × Option α × Option α :=
  let ringL := ringSet p.ringL p.writeIndex sL
  let ringR := ringSet p.ringR p.writeIndex sR
  let readIndex := readIndex p.writeIndex delaySamples p.maxDelaySamples
  let delayedL := ringGet ringL readIndex
  let delayedR := ringGet ringR readIndex
  ({ p with
      ringL := ringL
      ringR := ringR
      writeIndex := (p.writeIndex + 1) % p.maxDelaySamples },
    delayedL, delayedR)

/-- The block-local peak trackers (lines 90-91). -/
structure BlockPeaks (α : Type) where
  blockInPeakL : α
  blockInPeakR : α
  blockOutPeakL : α
  blockOutPeakR : α

/-- Lines 159-162: `if (Math.abs(out) > peak) peak = Math.abs(out)`; an undefined output
compares false. -/
def trackPeak (peak : α) : Option α → α
  | some v => if |v| > peak then |v| else peak
  | none => peak

/-- One iteration of the sample loop (lines 93-163) with the block constants
`delaySamples`, `sat`, `knee`, `outGainLin`, `decay`.  Returns the new processor state, the new
block peaks and the two output samples. -/
def processSample (M : MathFns α) (sampleRate : α) (delaySamples : Int)
    (sat knee outGainLin decay : α) (p : LimiterProcessor α) (pk : BlockPeaks α) (sL sR : α) :
    LimiterProcessor α × BlockPeaks α × Option α × Option α :=
  let absL := |sL|
  let absR := |sR|
  let blockInPeakL := if absL > pk.blockInPeakL then absL else pk.blockInPeakL
  let blockInPeakR := if absR > pk.blockInPeakR then absR else pk.blockInPeakR
  let peak := max absL absR
  let p := envelopeFollower sampleRate decay p peak
  let gain := gain M sat knee outGainLin p.envelope
  let r := ringStep delaySamples p sL sR
  let outL := r.2.1.map (· * gain)
  let outR := r.2.2.map (· * gain)
  (r.1,
   { blockInPeakL := blockInPeakL
     blockInPeakR := blockInPeakR
     blockOutPeakL := trackPeak pk.blockOutPeakL outL
     blockOutPeakR := trackPeak pk.blockOutPeakR outR },
   outL, outR)

/-- The sample loop (lines 93-163) over the frames of a block; outputs are accumulated in
reverse order in `acc`. -/
def sampleLoop (M : MathFns α) (sampleRate : α) (delaySamples : Int)
    (sat knee outGainLin decay : α) :
    LimiterProcessor α → BlockPeaks α → List (Option α × Option α) → List (α × α) →
    LimiterProcessor α × BlockPeaks α × List (Option α × Option α)
  | p, pk, acc, [] => (p, pk, acc.reverse)
  | p, pk, acc, (sL, sR) :: rest =>
    let r := processSample M sampleRate delaySamples sat knee outGainLin decay p pk sL sR
    sampleLoop M sampleRate delaySamples sat knee outGainLin decay r.1 r.2.1
      ((r.2.2.1, r.2.2.2) :: acc) rest

/-- The `levels` message posted to the main thread (lines 178-184). -/
structure LevelsMsg (α : Type) where
  inL : α
  inR : α
  outL : α
  outR : α

/-- Lines 174-177: `toDb`, the level of an accumulator in dB, `-100` when it is not finite. -/
def toDb (M : MathFns α) (v : α) : α :=
  let db := 20 * M.log10 (max v 0.00001)
  if M.isFinite db then db else -100

/-- What one call of `process` does: the new state, the return value, the samples written to the
two output channels and the message posted, if any. -/
structure ProcessResult (α : Type) where
  state : LimiterProcessor α
  keepAlive : Bool
  out : List (Option α × Option α)
  posted : Option (LevelsMsg α)

/-- Lines 165-190: fold the block peaks into the meter and post a report every sixth block. -/
def updateMeter (M : MathFns α) (p : LimiterProcessor α) (pk : BlockPeaks α) :
    LimiterProcessor α × Option (LevelsMsg α) :=
  let p := { p with
    inPeakL := if pk.blockInPeakL > p.inPeakL then pk.blockInPeakL else p.inPeakL
    inPeakR := if pk.blockInPeakR > p.inPeakR then pk.blockInPeakR else p.inPeakR
    outPeakL := if pk.blockOutPeakL > p.outPeakL then pk.blockOutPeakL else p.outPeakL
    outPeakR := if pk.blockOutPeakR > p.outPeakR then pk.blockOutPeakR else p.outPeakR
    meterBlockCount := p.meterBlockCount + 1 }
  if p.meterBlockCount ≥ 6 then
    ({ p with inPeakL := 0, inPeakR := 0, outPeakL := 0, outPeakR := 0, meterBlockCount := 0 },
     some { inL := toDb M p.inPeakL, inR := toDb M p.inPeakR,
            outL := toDb M p.outPeakL, outR := toDb M p.outPeakR })
  else (p, none)

/-- `process(inputs, outputs)` (lines 58-193).  `input` is `inputs[0]`, the list of channels of
the first input; the Web Audio API delivers all channels of a block with the same length, and the
output has two channels (`outputChannelCount: [2]`). -/
def process [FloorRing α] (M : MathFns α) (sampleRate : α) (p : LimiterProcessor α) (input : List (List α)) :
    ProcessResult α :=
  if !p.alive then { state := p, keepAlive := false, out := [], posted := none }
  else
    match input with
    | [] => { state := p, keepAlive := true, out := [], posted := none }
    | inL :: more =>
      let inR := match more with
        | [] => inL
        | r :: _ => r
      let r := sampleLoop M sampleRate (delaySamples sampleRate p) p.saturationLevel p.kneeWidth
        (outGainLin M p) (decay M sampleRate p) p ⟨0, 0, 0, 0⟩ [] (inL.zip inR)
      let m := updateMeter M r.1 r.2.1
      { state := m.1, keepAlive := true, out := r.2.2, posted := m.2 }

/-! ## Specification-side definitions -/

/-- The gain curve as the specification words it (§4.4): hard region, above the knee, inside the
knee. -/
def specReductionDb (levelDb thresholdDb kneeWidthDb : α) : α :=
  if kneeWidthDb ≤ 0 ∨ levelDb < thresholdDb - kneeWidthDb / 2 then
    min 0 (thresholdDb - levelDb)
  else if levelDb > thresholdDb + kneeWidthDb / 2 then
    thresholdDb - levelDb
  else
    let x := levelDb - (thresholdDb - kneeWidthDb / 2);
    -(x * x) / (2 * kneeWidthDb)

/-- The slope of the soft-knee curve: `0` below the knee, `-x / knee` inside it, `-1` above. -/
def kneeSlope (sat knee l : α) : α := -(max 0 (min (l - (sat - knee / 2)) knee)) / knee

/-! ## Executions -/

/-- One iteration of the sample loop with the block constants read off the current state (no
field they depend on changes during a block); the block peaks are left out. -/
def stepSample [FloorRing α] (M : MathFns α) (sampleRate : α) (p : LimiterProcessor α)
    (f : α × α) : LimiterProcessor α × Option α × Option α :=
  let r := processSample M sampleRate (delaySamples sampleRate p) p.saturationLevel p.kneeWidth
    (outGainLin M p) (decay M sampleRate p) p ⟨0, 0, 0, 0⟩ f.1 f.2
  (r.1, r.2.2.1, r.2.2.2)

/-- The sample loop over a sequence of stereo frames: final state and the output frames. -/
def runSamples [FloorRing α] (M : MathFns α) (sampleRate : α) :
    LimiterProcessor α → List (α × α) → LimiterProcessor α × List (Option α × Option α)
  | p, [] => (p, [])
  | p, f :: fs =>
    let r := stepSample M sampleRate p f
    let r2 := runSamples M sampleRate r.1 fs
    (r2.1, (r.2.1, r.2.2) :: r2.2)

/-- The stereo frames `(inL[i], inR[i])` the sample loop reads from an input (lines 65-66, 94-95);
a mono input is read on both channels. -/
def blockFrames : List (List α) → List (α × α)
  | [] => []
  | [inL] => inL.zip inL
  | inL :: inR :: _ => inL.zip inR

/-- Successive calls of `process`, one per block: final state and all output frames in order. -/
def runBlocks [FloorRing α] (M : MathFns α) (sampleRate : α) :
    LimiterProcessor α → List (List (List α)) →
    LimiterProcessor α × List (Option α × Option α)
  | p, [] => (p, [])
  | p, b :: bs =>
    let r := process M sampleRate p b
    let r2 := runBlocks M sampleRate r.state bs
    (r2.1, r.out ++ r2.2)

/-- All input frames of a sequence of blocks, in order. -/
def inputFrames (blocks : List (List (List α))) : List (α × α) :=
  (blocks.map blockFrames).flatten

/-- The processor state with the meter accumulators cleared. -/
def core (p : LimiterProcessor α) : LimiterProcessor α :=
  { p with inPeakL := 0, inPeakR := 0, outPeakL := 0, outPeakR := 0, meterBlockCount := 0 }

/-- States the processor can be in, with the input frames it has consumed so far (most recent
first): construction, any message, any sample of a block, and the meter update between blocks. -/
inductive Reach [FloorRing α] (M : MathFns α) (sampleRate : α) :
    List (α × α) → LimiterProcessor α → Prop
  | init : Reach M sampleRate [] (LimiterProcessor.create sampleRate)
  | msg {hist : List (α × α)} {p : LimiterProcessor α} (m : Msg α) :
      Reach M sampleRate hist p → Reach M sampleRate hist (onmessage p m)
  | sample {hist : List (α × α)} {p : LimiterProcessor α} (f : α × α) :
      Reach M sampleRate hist p → Reach M sampleRate (f :: hist) (stepSample M sampleRate p f).1
  | meter {hist : List (α × α)} {p : LimiterProcessor α} (pk : BlockPeaks α) :
      Reach M sampleRate hist p → Reach M sampleRate hist (updateMeter M p pk).1

/-- A freshly constructed processor that has received one `params` and one `spectral` message. -/
def configured [FloorRing α] (sampleRate : α) (m : ParamsMsg α) (centroid lowEnergy rms : α) :
    LimiterProcessor α :=
  onmessage (onmessage (LimiterProcessor.create sampleRate) (.params m))
    (.spectral centroid lowEnergy rms)

/-- Ring invariant after the input frames `hist` (most recent first): the ring has `cap` slots,
the write cursor is `hist.length mod cap`, and the slot `j` steps behind the cursor holds the
`j`-th most recent frame, or the initial silence when fewer than `j + 1` frames were written. -/
def RingInv (cap : Int) (hist : List (α × α)) (p : LimiterProcessor α) : Prop :=
  0 < cap ∧ p.maxDelaySamples = cap ∧
  p.ringL.length = cap.toNat ∧ p.ringR.length = cap.toNat ∧
  p.writeIndex = (hist.length : Int) % cap ∧
  ∀ j : Nat, (j : Int) < cap →
    ringGet p.ringL (((hist.length : Int) - 1 - j) % cap) = some ((hist.map Prod.fst).getD j 0) ∧
    ringGet p.ringR (((hist.length : Int) - 1 - j) % cap) = some ((hist.map Prod.snd).getD j 0)

/-- Line 103: the stereo-linked peak of a frame. -/
def framePeak (f : α × α) : α := max |f.1| |f.2|

/-- Envelope invariant for a run with release coefficient `dec`: the envelope is non-negative and
has fallen from the peak of the `j`-th most recent frame by at most the factor `dec ^ j`. -/
def EnvInv (dec : α) (hist : List (α × α)) (p : LimiterProcessor α) : Prop :=
  0 ≤ p.envelope ∧ ∀ j : Nat, framePeak (hist.getD j (0, 0)) * dec ^ j ≤ p.envelope

/-- What happens to the processor between two moments: a message arrives at the port, or the host
calls `process` with an input. -/
inductive Event (α : Type) where
  | message (m : Msg α)
  | render (input : List (List α))

/-- The processor state after a sequence of events. -/
def afterEvents [FloorRing α] (M : MathFns α) (sampleRate : α) :
    LimiterProcessor α → List (Event α) → LimiterProcessor α
  | p, [] => p
  | p, .message m :: es => afterEvents M sampleRate (onmessage p m) es
  | p, .render input :: es => afterEvents M sampleRate (process M sampleRate p input).state es

/-! ## Metering -/

/-- The maximum absolute value of a list of samples (`0` for no samples). -/
def maxAbs (l : List α) : α := l.foldr (fun x a => max |x| a) 0

/-- The level reports posted by successive calls of `process`, one per block, each with the number
of input frames consumed (counting from `n`) when it was posted. -/
def runReports [FloorRing α] (M : MathFns α) (sampleRate : α) :
    LimiterProcessor α → Nat → List (List (List α)) → List (Nat × LevelsMsg α)
  | _, _, [] => []
  | p, n, b :: bs =>
    let r := process M sampleRate p b
    (match r.posted with
      | some rep => [(n + r.out.length, rep)]
      | none => [])
    ++ runReports M sampleRate r.state (n + r.out.length) bs

/-- Where a counter of blocks puts the reports: starting with `c` blocks counted and `n` frames
consumed, a report falls after every block that brings the count to 6, at the number of frames
consumed so far. -/
def blockCountPositions : Nat → Nat → List Nat → List Nat
  | _, _, [] => []
  | c, n, s :: ss =>
    if c + 1 ≥ 6 then (n + s) :: blockCountPositions 0 (n + s) ss
    else blockCountPositions (c + 1) (n + s) ss

/-- States of the processor together with the measurement window: the input frames `wi` and the
output frames `wo` processed since the last report was posted (or since construction). -/
inductive MeterReach [FloorRing α] (M : MathFns α) (sampleRate : α) :
    List (α × α) → List (Option α × Option α) → LimiterProcessor α → Prop
  | init : MeterReach M sampleRate [] [] (LimiterProcessor.create sampleRate)
  | msg {wi : List (α × α)} {wo : List (Option α × Option α)} {p : LimiterProcessor α}
      (m : Msg α) :
      MeterReach M sampleRate wi wo p → MeterReach M sampleRate wi wo (onmessage p m)
  | quiet {wi : List (α × α)} {wo : List (Option α × Option α)} {p : LimiterProcessor α}
      (input : List (List α)) :
      MeterReach M sampleRate wi wo p → (process M sampleRate p input).posted = none →
      MeterReach M sampleRate (wi ++ (if p.alive then blockFrames input else []))
        (wo ++ (process M sampleRate p input).out) (process M sampleRate p input).state
  | report {wi : List (α × α)} {wo : List (Option α × Option α)} {p : LimiterProcessor α}
      (input : List (List α)) (rep : LevelsMsg α) :
      MeterReach M sampleRate wi wo p → (process M sampleRate p input).posted = some rep →
      MeterReach M sampleRate [] [] (process M sampleRate p input).state

/-- The block peaks that `process` hands to the meter: the maxima of the absolute input samples
and of the absolute output samples of the block, per channel. -/
def blockPeaksOf (fs : List (α × α)) (outs : List (Option α × Option α)) : BlockPeaks α :=
  { blockInPeakL := maxAbs (fs.map Prod.fst)
    blockInPeakR := maxAbs (fs.map Prod.snd)
    blockOutPeakL := maxAbs (outs.map Prod.fst).reduceOption
    blockOutPeakR := maxAbs (outs.map Prod.snd).reduceOption }

/-! ## The popup's transfer curve (`popup.js`, lines 80-94) -/

/-- The function `transferOut` of `popup.js` (lines 80-94): the output level in dB the popup plots
for an input level `inDb`; `sat`, `knee` and `gain` are the slider values read on lines 81-83. -/
def transferOut (sat knee gain inDb : α) : α :=
  let out :=
    if knee ≤ 0 ∨ inDb < sat - knee / 2 then
      if inDb < sat then inDb else sat
    else if inDb > sat + knee / 2 then
      sat
    else
      let x := inDb - (sat - knee / 2);
      inDb - (x * x) / (2 * knee)
  min (out + gain) 0

/-! ## Overflow: JavaScript numbers beyond the finite range

The definitions above take samples and gains as exact numbers.  Lines 77, 140 and 155-156 are
embedded a second time here with the overflow of double arithmetic: a result too large for a double
is `Infinity`, and `0 * Infinity` is `NaN`. -/

/-- A JavaScript number as far as overflow is concerned: a finite value (kept exact, rounding is
not modelled), `Infinity`, `-Infinity` or `NaN`. -/
inductive JsNumber where
  | finite (x : ℝ)
  | posInf
  | negInf
  | nan

/-- An exact result of this magnitude or more rounds to an infinity: `2^1024 - 2^970`, half a unit
in the last place above `Number.MAX_VALUE = 2^1024 - 2^971`. -/
noncomputable def overflowBound : ℝ := 2 ^ 1024 - 2 ^ 970

/-- The double an exact result is delivered as, overflow applied. -/
noncomputable def JsNumber.ofExact (x : ℝ) : JsNumber :=
  if overflowBound ≤ x then JsNumber.posInf
  else if x ≤ -overflowBound then JsNumber.negInf
  else JsNumber.finite x

/-- The product `a * b` of two JavaScript numbers (IEEE 754): `NaN` propagates, zero times an
infinity is `NaN`, an infinity times a non-zero number is an infinity with the product's sign, and
a finite product can overflow. -/
noncomputable def JsNumber.mul : JsNumber → JsNumber → JsNumber
  | JsNumber.nan, _ => JsNumber.nan
  | _, JsNumber.nan => JsNumber.nan
  | JsNumber.finite x, JsNumber.finite y => JsNumber.ofExact (x * y)
  | JsNumber.finite x, JsNumber.posInf =>
    if x = 0 then JsNumber.nan else if 0 < x then JsNumber.posInf else JsNumber.negInf
  | JsNumber.finite x, JsNumber.negInf =>
    if x = 0 then JsNumber.nan else if 0 < x then JsNumber.negInf else JsNumber.posInf
  | JsNumber.posInf, JsNumber.finite y =>
    if y = 0 then JsNumber.nan else if 0 < y then JsNumber.posInf else JsNumber.negInf
  | JsNumber.negInf, JsNumber.finite y =>
    if y = 0 then JsNumber.nan else if 0 < y then JsNumber.negInf else JsNumber.posInf
  | JsNumber.posInf, JsNumber.posInf => JsNumber.posInf
  | JsNumber.posInf, JsNumber.negInf => JsNumber.negInf
  | JsNumber.negInf, JsNumber.posInf => JsNumber.negInf
  | JsNumber.negInf, JsNumber.negInf => JsNumber.posInf

/-- `Math.pow(10, x)` for a finite exponent: `Infinity` when `10^x` is out of range. -/
noncomputable def mathPow10 (x : ℝ) : JsNumber := JsNumber.ofExact ((10 : ℝ) ^ x)

/-- Line 77 with overflow: `Math.pow(10, this.outputGain / 20)`. -/
noncomputable def outGainLinJs (p : LimiterProcessor ℝ) : JsNumber :=
  mathPow10 (p.outputGain / 20)

/-- Line 140 with overflow: `Math.pow(10, gainReductionDb / 20) * outGainLin`. -/
noncomputable def gainJs (sat knee : ℝ) (outGainLin : JsNumber) (envelope : ℝ) : JsNumber :=
  (mathPow10 (gainReductionDb sat knee (envelopeDb jsMath envelope) / 20)).mul outGainLin

/-- One iteration of the sample loop (lines 93-156) with the gain and the two output samples
(lines 140, 155-156) as JavaScript numbers.  The envelope follower, the gain reduction and the ring
are those of `stepSample`; the delayed samples read from the ring are finite. -/
noncomputable def stepSampleJs (sampleRate : ℝ) (p : LimiterProcessor ℝ) (f : ℝ × ℝ) :
    LimiterProcessor ℝ × Option JsNumber × Option JsNumber :=
  let q := envelopeFollower sampleRate (decay jsMath sampleRate p) p (max |f.1| |f.2|)
  let gain := gainJs p.saturationLevel p.kneeWidth (outGainLinJs p) q.envelope
  let r := ringStep (delaySamples sampleRate p) q f.1 f.2
  (r.1, r.2.1.map (fun delayed => (JsNumber.finite delayed).mul gain),
    r.2.2.map (fun delayed => (JsNumber.finite delayed).mul gain))

/-- The sample loop over a sequence of stereo frames with the outputs as JavaScript numbers. -/
noncomputable def runSamplesJs (sampleRate : ℝ) :
    LimiterProcessor ℝ → List (ℝ × ℝ) → LimiterProcessor ℝ × List (Option JsNumber × Option JsNumber)
  | p, [] => (p, [])
  | p, f :: fs =>
    let r := stepSampleJs sampleRate p f
    let r2 := runSamplesJs sampleRate r.1 fs
    (r2.1, (r.2.1, r.2.2) :: r2.2)

/-! # Lemmas -/

/-! ## The gain curve -/

theorem gainReductionDb_below {sat knee l : α} (hk : 0 ≤ knee) (h : l ≤ sat - knee / 2) :
    gainReductionDb sat knee l = 0 := by
  unfold gainReductionDb
  split_ifs with h1 h2 h3
  · linarith
  · rfl
  · linarith
  · have hx : l - (sat - knee / 2) = 0 := by
      have : ¬ l < sat - knee / 2 := fun hh => h1 (Or.inr hh)
      linarith
    simp [hx]

theorem gainReductionDb_above {sat knee l : α} (hk : 0 ≤ knee) (h : sat + knee / 2 ≤ l) :
    gainReductionDb sat knee l = sat - l := by
  unfold gainReductionDb
  split_ifs with h1 h2 h3
  · rfl
  · rcases h1 with h1 | h1
    · have : knee = 0 := le_antisymm h1 hk
      subst this
      linarith
    · linarith
  · rfl
  · have hk0 : 0 < knee := by
      by_contra hh
      exact h1 (Or.inl (not_lt.mp hh))
    have hl : l = sat + knee / 2 := by linarith
    subst hl
    simp only []
    field_simp
    ring

theorem gainReductionDb_knee {sat knee l : α} (hk : 0 < knee) (h1 : sat - knee / 2 ≤ l)
    (h2 : l ≤ sat + knee / 2) :
    gainReductionDb sat knee l = -((l - (sat - knee / 2)) * (l - (sat - knee / 2))) / (2 * knee) := by
  unfold gainReductionDb
  rw [if_neg, if_neg]
  · linarith
  · rintro (h | h) <;> linarith

theorem gainReductionDb_spec_aux (levelDb thresholdDb kneeWidthDb : α) :
    gainReductionDb thresholdDb kneeWidthDb levelDb
      = specReductionDb levelDb thresholdDb kneeWidthDb := by
  unfold gainReductionDb specReductionDb
  by_cases h : kneeWidthDb ≤ 0 ∨ levelDb < thresholdDb - kneeWidthDb / 2
  · rw [if_pos h, if_pos h]
    by_cases h2 : levelDb > thresholdDb
    · rw [if_pos h2, min_eq_right (by linarith)]
    · rw [if_neg h2, min_eq_left (by linarith [not_lt.mp h2])]
  · rw [if_neg h, if_neg h]

/-- The soft-knee curve in closed form. -/
theorem gainReductionDb_closed {sat knee : ℝ} (hk : 0 < knee) (l : ℝ) :
    gainReductionDb sat knee l
      = -(max 0 (min (l - (sat - knee / 2)) knee)) ^ 2 / (2 * knee)
        + min 0 (knee - (l - (sat - knee / 2))) := by
  rcases lt_or_le l (sat - knee / 2) with h | h
  · rw [gainReductionDb_below hk.le h.le, min_eq_left (by linarith), max_eq_left (by linarith),
      min_eq_left (by linarith)]
    simp
  · rcases le_or_lt l (sat + knee / 2) with h2 | h2
    · rw [gainReductionDb_knee hk h h2, min_eq_left (by linarith), max_eq_right (by linarith),
        min_eq_left (by linarith)]
      ring
    · rw [gainReductionDb_above hk.le h2.le, min_eq_right (by linarith), max_eq_right hk.le,
        min_eq_right (by linarith)]
      field_simp
      ring

theorem gainReductionDb_hard (sat l : ℝ) : gainReductionDb sat 0 l = min 0 (sat - l) := by
  rw [gainReductionDb_spec_aux]
  simp [specReductionDb]

theorem continuous_gainReductionDb {sat knee : ℝ} (hk : 0 ≤ knee) :
    Continuous (gainReductionDb sat knee) := by
  rcases hk.eq_or_lt with h | h
  · subst h
    have : gainReductionDb sat 0 = fun l => min 0 (sat - l) := funext (gainReductionDb_hard sat)
    rw [this]
    fun_prop
  · have : gainReductionDb sat knee = fun l =>
        -(max 0 (min (l - (sat - knee / 2)) knee)) ^ 2 / (2 * knee)
          + min 0 (knee - (l - (sat - knee / 2))) := funext (gainReductionDb_closed h)
    rw [this]
    fun_prop


theorem hasDerivAt_kneeQuad (sat knee l : ℝ) :
    HasDerivAt (fun l : ℝ => -((l - (sat - knee / 2)) * (l - (sat - knee / 2))) / (2 * knee))
      (-(l - (sat - knee / 2)) / knee) l := by
  have h1 : HasDerivAt (fun l : ℝ => l - (sat - knee / 2)) 1 l :=
    (hasDerivAt_id l).sub_const _
  have h2 := ((h1.mul h1).neg).div_const (2 * knee)
  convert h2 using 1
  by_cases hk : knee = 0
  · simp [hk]
  · field_simp

theorem hasDerivAt_gainReductionDb {sat knee : ℝ} (hk : 0 < knee) (l : ℝ) :
    HasDerivAt (gainReductionDb sat knee) (kneeSlope sat knee l) l := by
  have hq := hasDerivAt_kneeQuad sat knee
  have hlin : ∀ l : ℝ, HasDerivAt (fun l : ℝ => sat - l) (-1) l := fun l =>
    (hasDerivAt_id l).const_sub sat
  rcases lt_trichotomy l (sat - knee / 2) with h | h | h
  · -- below the knee
    have hs : kneeSlope sat knee l = 0 := by
      unfold kneeSlope
      rw [min_eq_left (by linarith), max_eq_left (by linarith)]
      simp
    rw [hs]
    refine (hasDerivAt_const l (0 : ℝ)).congr_of_eventuallyEq ?_
    filter_upwards [Iio_mem_nhds h] with y hy
    exact gainReductionDb_below hk.le (le_of_lt hy)
  · -- lower knee boundary
    subst h
    have hs : kneeSlope sat knee (sat - knee / 2) = 0 := by
      unfold kneeSlope
      rw [min_eq_left (by linarith), max_eq_left (by linarith)]
      simp
    rw [hs]
    have hL : HasDerivWithinAt (gainReductionDb sat knee) 0 (Set.Iic (sat - knee / 2))
        (sat - knee / 2) :=
      (hasDerivWithinAt_const _ _ (0 : ℝ)).congr
        (fun y hy => gainReductionDb_below hk.le hy) (gainReductionDb_below hk.le le_rfl)
    have hR : HasDerivWithinAt (gainReductionDb sat knee) 0
        (Set.Icc (sat - knee / 2) (sat + knee / 2)) (sat - knee / 2) := by
      have := (hq (sat - knee / 2)).hasDerivWithinAt
        (s := Set.Icc (sat - knee / 2) (sat + knee / 2))
      simp only [sub_self, neg_zero, zero_div] at this
      exact this.congr (fun y hy => gainReductionDb_knee hk hy.1 hy.2)
        (gainReductionDb_knee hk le_rfl (by linarith))
    refine (hL.union hR).hasDerivAt ?_
    rw [Set.Iic_union_Icc_eq_Iic (by linarith)]
    exact Iic_mem_nhds (by linarith)
  · rcases lt_trichotomy l (sat + knee / 2) with h2 | h2 | h2
    · -- inside the knee
      have hs : kneeSlope sat knee l = -(l - (sat - knee / 2)) / knee := by
        unfold kneeSlope
        rw [min_eq_left (by linarith), max_eq_right (by linarith)]
      rw [hs]
      refine (hq l).congr_of_eventuallyEq ?_
      filter_upwards [Ioo_mem_nhds h h2] with y hy
      exact gainReductionDb_knee hk hy.1.le hy.2.le
    · -- upper knee boundary
      subst h2
      have hs : kneeSlope sat knee (sat + knee / 2) = -1 := by
        unfold kneeSlope
        rw [min_eq_right (by linarith), max_eq_right hk.le]
        field_simp
      rw [hs]
      have hL : HasDerivWithinAt (gainReductionDb sat knee) (-1)
          (Set.Icc (sat - knee / 2) (sat + knee / 2)) (sat + knee / 2) := by
        have := (hq (sat + knee / 2)).hasDerivWithinAt
          (s := Set.Icc (sat - knee / 2) (sat + knee / 2))
        have e : -(sat + knee / 2 - (sat - knee / 2)) / knee = -1 := by
          field_simp
        rw [e] at this
        exact this.congr (fun y hy => gainReductionDb_knee hk hy.1 hy.2)
          (gainReductionDb_knee hk (by linarith) le_rfl)
      have hR : HasDerivWithinAt (gainReductionDb sat knee) (-1) (Set.Ici (sat + knee / 2))
          (sat + knee / 2) :=
        ((hlin _).hasDerivWithinAt).congr
          (fun y hy => gainReductionDb_above hk.le hy) (gainReductionDb_above hk.le le_rfl)
      refine (hL.union hR).hasDerivAt ?_
      rw [Set.Icc_union_Ici_eq_Ici (by linarith)]
      exact Ici_mem_nhds (by linarith)
    · -- above the knee
      have hs : kneeSlope sat knee l = -1 := by
        unfold kneeSlope
        rw [min_eq_right (by linarith), max_eq_right hk.le]
        field_simp
      rw [hs]
      refine (hlin l).congr_of_eventuallyEq ?_
      filter_upwards [Ioi_mem_nhds h2] with y hy
      exact gainReductionDb_above hk.le (le_of_lt hy)

theorem not_differentiableAt_hard_knee (sat : ℝ) :
    ¬ DifferentiableAt ℝ (gainReductionDb sat 0) sat := by
  intro hd
  have h := hd.hasDerivAt
  set c := deriv (gainReductionDb sat 0) sat with hc
  have hL : HasDerivWithinAt (gainReductionDb sat 0) 0 (Set.Iic sat) sat :=
    (hasDerivWithinAt_const _ _ (0 : ℝ)).congr
      (fun y hy => by rw [gainReductionDb_hard]; exact min_eq_left (by linarith [Set.mem_Iic.mp hy]))
      (by rw [gainReductionDb_hard]; simp)
  have hR : HasDerivWithinAt (gainReductionDb sat 0) (-1) (Set.Ici sat) sat :=
    (((hasDerivAt_id sat).const_sub sat).hasDerivWithinAt).congr
      (fun y hy => by
        rw [gainReductionDb_hard]; exact min_eq_right (by linarith [Set.mem_Ici.mp hy]))
      (by rw [gainReductionDb_hard]; simp)
  have e1 : c = 0 := (uniqueDiffOn_Iic sat sat Set.right_mem_Iic).eq_deriv _ h.hasDerivWithinAt hL
  have e2 : c = -1 := (uniqueDiffOn_Ici sat sat Set.left_mem_Ici).eq_deriv _ h.hasDerivWithinAt hR
  linarith


theorem deriv_gainReductionDb {sat knee : ℝ} (hk : 0 < knee) :
    deriv (gainReductionDb sat knee) = kneeSlope sat knee :=
  funext fun l => (hasDerivAt_gainReductionDb hk l).deriv

theorem continuous_kneeSlope (sat knee : ℝ) : Continuous (kneeSlope sat knee) := by
  unfold kneeSlope
  fun_prop

theorem kneeSlope_lower {sat knee : ℝ} (hk : 0 < knee) :
    kneeSlope sat knee (sat - knee / 2) = 0 := by
  unfold kneeSlope
  rw [min_eq_left (by linarith), max_eq_left (by linarith)]
  simp

theorem kneeSlope_upper {sat knee : ℝ} (hk : 0 < knee) :
    kneeSlope sat knee (sat + knee / 2) = -1 := by
  unfold kneeSlope
  rw [min_eq_right (by linarith), max_eq_right hk.le]
  field_simp

/-! ## Sample loop, blocks and reachable states -/

section bridge
variable [FloorRing α] (M : MathFns α) (sampleRate : α)

theorem envelopeFollower_frame (dec : α) (p : LimiterProcessor α) (peak : α) :
    let q := envelopeFollower sampleRate dec p peak
    q.saturationLevel = p.saturationLevel ∧ q.kneeWidth = p.kneeWidth ∧
    q.outputGain = p.outputGain ∧ q.lookaheadMs = p.lookaheadMs ∧
    q.minRecovery = p.minRecovery ∧ q.maxDelaySamples = p.maxDelaySamples ∧
    q.centroid = p.centroid ∧ q.lowEnergy = p.lowEnergy ∧ q.rms = p.rms ∧
    q.alive = p.alive ∧ q.ringL = p.ringL ∧ q.ringR = p.ringR ∧ q.writeIndex = p.writeIndex := by
  simp only [envelopeFollower]
  split_ifs <;> simp

theorem processSample_frame (d : Int) (sat knee og dec : α) (p : LimiterProcessor α)
    (pk : BlockPeaks α) (sL sR : α) :
    let q := (processSample M sampleRate d sat knee og dec p pk sL sR).1
    q.saturationLevel = p.saturationLevel ∧ q.kneeWidth = p.kneeWidth ∧
    q.outputGain = p.outputGain ∧ q.lookaheadMs = p.lookaheadMs ∧
    q.minRecovery = p.minRecovery ∧ q.maxDelaySamples = p.maxDelaySamples ∧
    q.centroid = p.centroid ∧ q.lowEnergy = p.lowEnergy ∧ q.rms = p.rms ∧
    q.alive = p.alive := by
  have h := envelopeFollower_frame sampleRate dec p (max |sL| |sR|)
  simp only [processSample, ringStep] at h ⊢
  obtain ⟨h1, h2, h3, h4, h5, h6, h7, h8, h9, h10, -⟩ := h
  exact ⟨h1, h2, h3, h4, h5, h6, h7, h8, h9, h10⟩

theorem processSample_consts (d : Int) (sat knee og dec : α) (p : LimiterProcessor α)
    (pk : BlockPeaks α) (sL sR : α) :
    let q := (processSample M sampleRate d sat knee og dec p pk sL sR).1
    delaySamples sampleRate q = delaySamples sampleRate p ∧
    outGainLin M q = outGainLin M p ∧ decay M sampleRate q = decay M sampleRate p := by
  obtain ⟨h1, h2, h3, h4, h5, h6, h7, h8, h9, -⟩ :=
    processSample_frame M sampleRate d sat knee og dec p pk sL sR
  simp only [delaySamples, outGainLin, decay, recoveryMs, h1, h2, h3, h4, h5, h6, h7, h8, h9,
    and_self]

theorem processSample_peaks_irrelevant (d : Int) (sat knee og dec : α) (p : LimiterProcessor α)
    (pk pk' : BlockPeaks α) (sL sR : α) :
    (processSample M sampleRate d sat knee og dec p pk sL sR).1
      = (processSample M sampleRate d sat knee og dec p pk' sL sR).1 ∧
    (processSample M sampleRate d sat knee og dec p pk sL sR).2.2
      = (processSample M sampleRate d sat knee og dec p pk' sL sR).2.2 :=
  ⟨rfl, rfl⟩

theorem sampleLoop_eq_runSamples (d : Int) (sat knee og dec : α) (fs : List (α × α)) :
    ∀ (p : LimiterProcessor α) (pk : BlockPeaks α) (acc : List (Option α × Option α)),
    d = delaySamples sampleRate p → sat = p.saturationLevel → knee = p.kneeWidth →
    og = outGainLin M p → dec = decay M sampleRate p →
    (sampleLoop M sampleRate d sat knee og dec p pk acc fs).1 = (runSamples M sampleRate p fs).1 ∧
    (sampleLoop M sampleRate d sat knee og dec p pk acc fs).2.2
      = acc.reverse ++ (runSamples M sampleRate p fs).2 := by
  induction fs with
  | nil => intro p pk acc _ _ _ _ _; simp [sampleLoop, runSamples]
  | cons f fs ih =>
    intro p pk acc hd hs hk ho hc
    obtain ⟨sL, sR⟩ := f
    have hfr := processSample_frame M sampleRate d sat knee og dec p pk sL sR
    have hco := processSample_consts M sampleRate d sat knee og dec p pk sL sR
    simp only at hfr hco
    have hstate : (stepSample M sampleRate p (sL, sR)).1
        = (processSample M sampleRate d sat knee og dec p pk sL sR).1 := by
      subst hd hs hk ho hc; rfl
    have hout : ((stepSample M sampleRate p (sL, sR)).2.1, (stepSample M sampleRate p (sL, sR)).2.2)
        = (processSample M sampleRate d sat knee og dec p pk sL sR).2.2 := by
      subst hd hs hk ho hc; rfl
    have := ih (processSample M sampleRate d sat knee og dec p pk sL sR).1
      (processSample M sampleRate d sat knee og dec p pk sL sR).2.1
      (((processSample M sampleRate d sat knee og dec p pk sL sR).2.2.1,
        (processSample M sampleRate d sat knee og dec p pk sL sR).2.2.2) :: acc)
      (by rw [hco.1]; exact hd) (by rw [hfr.1]; exact hs) (by rw [hfr.2.1]; exact hk)
      (by rw [hco.2.1]; exact ho) (by rw [hco.2.2]; exact hc)
    simp only [sampleLoop, runSamples]
    rw [hstate, hout]
    refine ⟨this.1, ?_⟩
    rw [this.2]
    simp

end bridge

section bridge2
variable [FloorRing α] (M : MathFns α) (sampleRate : α)

theorem stepSample_frame (p : LimiterProcessor α) (f : α × α) :
    let q := (stepSample M sampleRate p f).1
    q.saturationLevel = p.saturationLevel ∧ q.kneeWidth = p.kneeWidth ∧
    q.outputGain = p.outputGain ∧ q.lookaheadMs = p.lookaheadMs ∧
    q.minRecovery = p.minRecovery ∧ q.maxDelaySamples = p.maxDelaySamples ∧
    q.centroid = p.centroid ∧ q.lowEnergy = p.lowEnergy ∧ q.rms = p.rms ∧
    q.alive = p.alive :=
  processSample_frame M sampleRate (delaySamples sampleRate p) p.saturationLevel p.kneeWidth
    (outGainLin M p) (decay M sampleRate p) p ⟨0, 0, 0, 0⟩ f.1 f.2

theorem runSamples_append (fs gs : List (α × α)) :
    ∀ p : LimiterProcessor α,
    runSamples M sampleRate p (fs ++ gs)
      = ((runSamples M sampleRate (runSamples M sampleRate p fs).1 gs).1,
         (runSamples M sampleRate p fs).2
           ++ (runSamples M sampleRate (runSamples M sampleRate p fs).1 gs).2) := by
  induction fs with
  | nil => intro p; simp [runSamples]
  | cons f fs ih => intro p; simp [runSamples, ih]

theorem runSamples_length (fs : List (α × α)) :
    ∀ p : LimiterProcessor α, (runSamples M sampleRate p fs).2.length = fs.length := by
  induction fs with
  | nil => intro p; simp [runSamples]
  | cons f fs ih => intro p; simp [runSamples, ih]

theorem runSamples_alive (fs : List (α × α)) :
    ∀ p : LimiterProcessor α, (runSamples M sampleRate p fs).1.alive = p.alive := by
  induction fs with
  | nil => intro p; simp [runSamples]
  | cons f fs ih =>
    intro p
    simp only [runSamples]
    rw [ih]
    exact (stepSample_frame M sampleRate p f).2.2.2.2.2.2.2.2.2

theorem stepSample_core (p : LimiterProcessor α) (f : α × α) :
    (stepSample M sampleRate (core p) f).1 = core (stepSample M sampleRate p f).1 ∧
    (stepSample M sampleRate (core p) f).2 = (stepSample M sampleRate p f).2 := by
  simp only [stepSample, processSample, ringStep, envelopeFollower, core, delaySamples,
    outGainLin, decay, recoveryMs]
  split_ifs <;> exact ⟨rfl, rfl⟩

theorem core_core (p : LimiterProcessor α) : core (core p) = core p := rfl

theorem runSamples_core (fs : List (α × α)) :
    ∀ p q : LimiterProcessor α, core p = core q →
    core (runSamples M sampleRate p fs).1 = core (runSamples M sampleRate q fs).1 ∧
    (runSamples M sampleRate p fs).2 = (runSamples M sampleRate q fs).2 := by
  induction fs with
  | nil => intro p q h; simpa [runSamples] using h
  | cons f fs ih =>
    intro p q h
    have hp := stepSample_core M sampleRate p f
    have hq := stepSample_core M sampleRate q f
    rw [h] at hp
    have e1 : core (stepSample M sampleRate p f).1 = core (stepSample M sampleRate q f).1 := by
      rw [← hp.1, ← hq.1]
    have e2 : (stepSample M sampleRate p f).2 = (stepSample M sampleRate q f).2 := by
      rw [← hp.2, ← hq.2]
    have := ih _ _ e1
    simp only [runSamples]
    refine ⟨this.1, ?_⟩
    rw [this.2, e2]

theorem core_updateMeter (p : LimiterProcessor α) (pk : BlockPeaks α) :
    core (updateMeter M p pk).1 = core p := by
  simp only [updateMeter]
  split_ifs <;> rfl

theorem updateMeter_alive (p : LimiterProcessor α) (pk : BlockPeaks α) :
    (updateMeter M p pk).1.alive = p.alive := by
  simp only [updateMeter]
  split_ifs <;> rfl

/-- What a call of `process` on a live processor does, in terms of the sample-level run. -/
theorem process_eq_runSamples (p : LimiterProcessor α) (input : List (List α))
    (ha : p.alive = true) :
    (process M sampleRate p input).out = (runSamples M sampleRate p (blockFrames input)).2 ∧
    core (process M sampleRate p input).state
      = core (runSamples M sampleRate p (blockFrames input)).1 ∧
    (process M sampleRate p input).state.alive = true ∧
    (input ≠ [] → ∃ pk, (process M sampleRate p input).state
      = (updateMeter M (runSamples M sampleRate p (blockFrames input)).1 pk).1) := by
  unfold process
  rw [ha]
  simp only [Bool.not_true, Bool.false_eq_true, if_false]
  match input with
  | [] => simp [blockFrames, runSamples, ha]
  | [inL] =>
    have h := sampleLoop_eq_runSamples M sampleRate _ _ _ _ _ (inL.zip inL) p ⟨0, 0, 0, 0⟩ []
      rfl rfl rfl rfl rfl
    simp only [blockFrames]
    refine ⟨by rw [h.2]; simp, by rw [core_updateMeter, h.1], ?_, fun _ => ⟨_, by rw [h.1]⟩⟩
    rw [updateMeter_alive, h.1, runSamples_alive, ha]
  | inL :: inR :: rest =>
    have h := sampleLoop_eq_runSamples M sampleRate _ _ _ _ _ (inL.zip inR) p ⟨0, 0, 0, 0⟩ []
      rfl rfl rfl rfl rfl
    simp only [blockFrames]
    refine ⟨by rw [h.2]; simp, by rw [core_updateMeter, h.1], ?_, fun _ => ⟨_, by rw [h.1]⟩⟩
    rw [updateMeter_alive, h.1, runSamples_alive, ha]

/-- Successive `process` calls on a live processor produce the output of the sample-level run over
all input frames. -/
theorem runBlocks_eq_runSamples (blocks : List (List (List α))) :
    ∀ p : LimiterProcessor α, p.alive = true →
    (runBlocks M sampleRate p blocks).2 = (runSamples M sampleRate p (inputFrames blocks)).2 ∧
    core (runBlocks M sampleRate p blocks).1
      = core (runSamples M sampleRate p (inputFrames blocks)).1 := by
  induction blocks with
  | nil => intro p _; simp [runBlocks, inputFrames, runSamples]
  | cons b bs ih =>
    intro p ha
    obtain ⟨h1, h2, h3, -⟩ := process_eq_runSamples M sampleRate p b ha
    have i1 := ih _ h3
    have i2 := runSamples_core M sampleRate (inputFrames bs) _ _ h2
    have e : inputFrames (b :: bs) = blockFrames b ++ inputFrames bs := by
      simp [inputFrames]
    simp only [runBlocks]
    rw [e, runSamples_append]
    refine ⟨?_, ?_⟩
    · rw [h1, i1.1, i2.2]
    · rw [i1.2, i2.1]

theorem Reach.runSamples {hist : List (α × α)} (fs : List (α × α)) :
    ∀ {p : LimiterProcessor α}, Reach M sampleRate hist p →
    ∀ {hist' : List (α × α)}, hist' = fs.reverse ++ hist →
    Reach M sampleRate hist' (Limiter.runSamples M sampleRate p fs).1 := by
  induction fs generalizing hist with
  | nil => intro p h hist' e; subst e; simpa [Limiter.runSamples] using h
  | cons f fs ih =>
    intro p h hist' e
    simp only [Limiter.runSamples]
    exact ih (Reach.sample f h) (by rw [e]; simp)

/-- One call of `process` leads from a reachable state to a reachable state. -/
theorem Reach.process {hist : List (α × α)} {p : LimiterProcessor α}
    (h : Reach M sampleRate hist p) (input : List (List α)) :
    Reach M sampleRate (if p.alive then (blockFrames input).reverse ++ hist else hist)
      (Limiter.process M sampleRate p input).state := by
  by_cases ha : p.alive = true
  · rw [if_pos ha]
    by_cases hi : input = []
    · subst hi
      simp [Limiter.process, ha, blockFrames]
      exact h
    · obtain ⟨pk, e⟩ := (process_eq_runSamples M sampleRate p input ha).2.2.2 hi
      rw [e]
      exact Reach.meter pk (Reach.runSamples M sampleRate _ h rfl)
  · rw [if_neg ha]
    simp [Limiter.process, ha]
    exact h

theorem configured_reach (m : ParamsMsg α) (c l r : α) :
    Reach M sampleRate [] (configured sampleRate m c l r) :=
  Reach.msg _ (Reach.msg _ Reach.init)

end bridge2

/-! ## The ring buffer -/

theorem readIndex_eq_emod {n d cap w : Int} (hc : 0 < cap) (hw : w = n % cap) (hd0 : 0 ≤ d)
    (hd : d < cap) : readIndex w d cap = (n - d) % cap := by
  have hw0 : 0 ≤ w := hw ▸ Int.emod_nonneg n hc.ne'
  have hw1 : w < cap := hw ▸ Int.emod_lt_of_pos n hc
  have key : (n - d) % cap = (w - d) % cap := by
    rw [hw, Int.sub_emod (n % cap), Int.emod_emod, ← Int.sub_emod]
  rw [key]
  unfold readIndex
  simp only []
  split_ifs with h
  · rw [← Int.add_emod_self, Int.emod_eq_of_lt (by omega) (by omega)]
  · rw [Int.emod_eq_of_lt (by omega) (by omega)]

theorem emod_ne_of_lt {n cap : Int} {j : Nat} (hj : ((j : Int) + 1) < cap) :
    ((n + 1 : Int) - 1 - ((j + 1 : Nat) : Int)) % cap ≠ n % cap := by
  intro h
  have h2 := (Int.emod_eq_emod_iff_emod_sub_eq_zero).mp h
  have h3 : cap ∣ -((j : Int) + 1) := by
    apply Int.dvd_of_emod_eq_zero
    rw [← h2]
    congr 1
    push_cast
    ring
  have h4 : cap ∣ ((j : Int) + 1) := (Int.dvd_neg).mp h3
  have := Int.le_of_dvd (by omega) h4
  omega

theorem ringGet_ringSet_self {ring : List α} {i : Int} (v : α) (h0 : 0 ≤ i)
    (h1 : i.toNat < ring.length) : ringGet (ringSet ring i v) i = some v := by
  simp [ringGet, ringSet, h0, h1]

theorem ringGet_ringSet_ne {ring : List α} {i j : Int} (v : α) (h0 : 0 ≤ i) (hj : 0 ≤ j)
    (hne : j ≠ i) : ringGet (ringSet ring i v) j = ringGet ring j := by
  have : i.toNat ≠ j.toNat := by omega
  simp [ringGet, ringSet, h0, hj, List.getElem?_set, this]

section ring
variable [FloorRing α]

theorem ringStep_spec {cap : Int} {hist : List (α × α)} {p : LimiterProcessor α}
    (h : RingInv cap hist p) (d : Int) (hd0 : 0 ≤ d) (hd : d < cap) (sL sR : α) :
    RingInv cap ((sL, sR) :: hist) (ringStep d p sL sR).1 ∧
    (ringStep d p sL sR).2.1 = some (((sL, sR) :: hist).map Prod.fst |>.getD d.toNat 0) ∧
    (ringStep d p sL sR).2.2 = some (((sL, sR) :: hist).map Prod.snd |>.getD d.toNat 0) := by
  obtain ⟨hc, hm, hlL, hlR, hw, hring⟩ := h
  have hw0 : 0 ≤ p.writeIndex := hw ▸ Int.emod_nonneg _ hc.ne'
  have hw1 : p.writeIndex < cap := hw ▸ Int.emod_lt_of_pos _ hc
  -- the ring contents after the write
  have hnew : ∀ j : Nat, (j : Int) < cap →
      ringGet (ringSet p.ringL p.writeIndex sL)
          ((((hist.length : Int) + 1) - 1 - j) % cap)
        = some ((((sL, sR) :: hist).map Prod.fst).getD j 0) ∧
      ringGet (ringSet p.ringR p.writeIndex sR)
          ((((hist.length : Int) + 1) - 1 - j) % cap)
        = some ((((sL, sR) :: hist).map Prod.snd).getD j 0) := by
    intro j hj
    cases j with
    | zero =>
      have e : (((hist.length : Int) + 1) - 1 - ((0 : Nat) : Int)) % cap = p.writeIndex := by
        rw [hw]; congr 1; push_cast; ring
      rw [e]
      refine ⟨?_, ?_⟩
      · rw [ringGet_ringSet_self sL hw0 (by omega)]; simp
      · rw [ringGet_ringSet_self sR hw0 (by omega)]; simp
    | succ j =>
      have hne : (((hist.length : Int) + 1) - 1 - ((j + 1 : Nat) : Int)) % cap ≠ p.writeIndex := by
        rw [hw]
        exact emod_ne_of_lt (by push_cast at hj; omega)
      have hnn : 0 ≤ (((hist.length : Int) + 1) - 1 - ((j + 1 : Nat) : Int)) % cap :=
        Int.emod_nonneg _ hc.ne'
      have e : (((hist.length : Int) + 1) - 1 - ((j + 1 : Nat) : Int))
          = (hist.length : Int) - 1 - (j : Int) := by push_cast; ring
      have old := hring j (by push_cast at hj; omega)
      rw [ringGet_ringSet_ne sL hw0 hnn hne, ringGet_ringSet_ne sR hw0 hnn hne, e]
      simpa using old
  have hr : readIndex p.writeIndex d p.maxDelaySamples
      = (((hist.length : Int) + 1) - 1 - (d.toNat : Int)) % cap := by
    rw [hm, readIndex_eq_emod hc hw hd0 hd, Int.toNat_of_nonneg hd0]
    congr 1; ring
  refine ⟨⟨hc, hm, ?_, ?_, ?_, ?_⟩, ?_, ?_⟩
  · simp only [ringStep, ringSet, hw0, if_true, List.length_set]; exact hlL
  · simp only [ringStep, ringSet, hw0, if_true, List.length_set]; exact hlR
  · simp only [ringStep, hm, List.length_cons]
    rw [hw]
    push_cast
    rw [Int.emod_add_emod]
  · intro j hj
    have := hnew j hj
    simp only [ringStep, List.length_cons]
    push_cast
    exact this
  · simp only [ringStep]
    rw [hr]
    exact (hnew d.toNat (by omega)).1
  · simp only [ringStep]
    rw [hr]
    exact (hnew d.toNat (by omega)).2

end ring

section ring2
variable [FloorRing α]

theorem delaySamples_range (sampleRate : α) (p : LimiterProcessor α)
    (h : 0 < p.maxDelaySamples) :
    0 ≤ delaySamples sampleRate p ∧ delaySamples sampleRate p ≤ p.maxDelaySamples - 1 := by
  unfold delaySamples
  omega

theorem mathCeil_pos {sampleRate : α} (h : 0 < sampleRate) : 0 < mathCeil (sampleRate * 0.020) := by
  unfold mathCeil
  rw [Int.ceil_pos]
  have : (0 : α) < 0.020 := by norm_num
  positivity

theorem RingInv.congr {cap : Int} {hist : List (α × α)} {p q : LimiterProcessor α}
    (h : RingInv cap hist p) (h1 : q.maxDelaySamples = p.maxDelaySamples)
    (h2 : q.ringL = p.ringL) (h3 : q.ringR = p.ringR) (h4 : q.writeIndex = p.writeIndex) :
    RingInv cap hist q := by
  unfold RingInv at h ⊢
  rw [h1, h2, h3, h4]
  exact h

theorem RingInv.create {sampleRate : α} (h : 0 < sampleRate) :
    RingInv (mathCeil (sampleRate * 0.020)) [] (LimiterProcessor.create sampleRate) := by
  have hc := mathCeil_pos h
  refine ⟨hc, rfl, by simp [LimiterProcessor.create, float32Array],
    by simp [LimiterProcessor.create, float32Array], by simp [LimiterProcessor.create], ?_⟩
  intro j _
  have h0 := Int.emod_nonneg (((([] : List (α × α)).length : Int)) - 1 - j) hc.ne'
  have h1 := Int.emod_lt_of_pos (((([] : List (α × α)).length : Int)) - 1 - j) hc
  simp only [LimiterProcessor.create, float32Array, ringGet, h0, if_true,
    List.getElem?_replicate]
  rw [if_pos (by omega)]
  simp

theorem stepSample_ringInv (M : MathFns α) (sampleRate : α) {cap : Int} {hist : List (α × α)}
    {p : LimiterProcessor α} (h : RingInv cap hist p) (f : α × α) :
    RingInv cap (f :: hist) (stepSample M sampleRate p f).1 := by
  obtain ⟨sL, sR⟩ := f
  have hfr := envelopeFollower_frame sampleRate (decay M sampleRate p) p (max |sL| |sR|)
  simp only at hfr
  obtain ⟨-, -, -, -, -, e1, -, -, -, -, e2, e3, e4⟩ := hfr
  have h' := h.congr e1 e2 e3 e4
  have hd := delaySamples_range sampleRate p (by rw [h.2.1]; exact h.1)
  rw [h.2.1] at hd
  exact (ringStep_spec h' (delaySamples sampleRate p) hd.1 (by omega) sL sR).1

theorem onmessage_ring (p : LimiterProcessor α) (m : Msg α) :
    (onmessage p m).maxDelaySamples = p.maxDelaySamples ∧ (onmessage p m).ringL = p.ringL ∧
    (onmessage p m).ringR = p.ringR ∧ (onmessage p m).writeIndex = p.writeIndex := by
  cases m <;> exact ⟨rfl, rfl, rfl, rfl⟩

theorem updateMeter_ring (M : MathFns α) (p : LimiterProcessor α) (pk : BlockPeaks α) :
    (updateMeter M p pk).1.maxDelaySamples = p.maxDelaySamples ∧
    (updateMeter M p pk).1.ringL = p.ringL ∧
    (updateMeter M p pk).1.ringR = p.ringR ∧
    (updateMeter M p pk).1.writeIndex = p.writeIndex := by
  simp only [updateMeter]
  split_ifs <;> exact ⟨rfl, rfl, rfl, rfl⟩

/-- Every reachable state satisfies the ring invariant for the frames consumed so far. -/
theorem Reach.ringInv {M : MathFns α} {sampleRate : α} (hsr : 0 < sampleRate)
    {hist : List (α × α)} {p : LimiterProcessor α} (h : Reach M sampleRate hist p) :
    RingInv (mathCeil (sampleRate * 0.020)) hist p := by
  induction h with
  | init => exact RingInv.create hsr
  | msg m _ ih =>
    obtain ⟨e1, e2, e3, e4⟩ := onmessage_ring _ m
    exact ih.congr e1 e2 e3 e4
  | sample f _ ih => exact stepSample_ringInv M sampleRate ih f
  | meter pk _ ih =>
    obtain ⟨e1, e2, e3, e4⟩ := updateMeter_ring M _ pk
    exact ih.congr e1 e2 e3 e4

end ring2

/-! ## The adaptive hold -/

theorem clamp_max_comm (h la : α) (hla : la ≤ 200) :
    min (max (max h la) 5) 200 = max (min (max h 5) 200) la := by
  rw [max_assoc, max_comm la 5, ← max_assoc, min_max_distrib_right, min_eq_left hla]

theorem holdSamples_pos {sampleRate : α} (hsr : 0 < sampleRate) (peakRate lowEnergy centroid la : α) :
    0 < holdSamples sampleRate peakRate lowEnergy centroid la := by
  unfold holdSamples
  simp only []
  have h5 : (5 : α) ≤ min (max (max (5 * (1 + peakRate * 4) * (1 + lowEnergy * 3)
      * max 0.3 (1 - centroid / 8000)) la) 5) 200 :=
    le_min (le_max_right _ _) (by norm_num)
  have : (0 : α) < 0.001 := by norm_num
  have h0 : (0 : α) < min (max (max (5 * (1 + peakRate * 4) * (1 + lowEnergy * 3)
      * max 0.3 (1 - centroid / 8000)) la) 5) 200 := by linarith
  positivity

/-- The hold set by an attack outlasts the delay line: `delaySamples - 1 < holdTimer`, so at least
`delaySamples` further samples are held before any release. -/
theorem holdSamples_gt [FloorRing α] {sampleRate : α} (hsr : 0 < sampleRate)
    (p : LimiterProcessor α) (hcap : p.maxDelaySamples = mathCeil (sampleRate * 0.020))
    (peakRate : α) :
    ((delaySamples sampleRate p : Int) : α) - 1
      < holdSamples sampleRate peakRate p.lowEnergy p.centroid p.lookaheadMs := by
  have hpos := holdSamples_pos hsr peakRate p.lowEnergy p.centroid p.lookaheadMs
  unfold holdSamples at hpos ⊢
  simp only [] at hpos ⊢
  set hm := 5 * (1 + peakRate * 4) * (1 + p.lowEnergy * 3) * max 0.3 (1 - p.centroid / 8000)
  have h001 : (0 : α) < 0.001 := by norm_num
  have hsr1 : 0 < 0.001 * sampleRate := by positivity
  rcases le_or_lt p.lookaheadMs 200 with hla | hla
  · -- the hold is at least the lookahead
    have hge : p.lookaheadMs ≤ min (max (max hm p.lookaheadMs) 5) 200 :=
      le_min (le_trans (le_max_right _ _) (le_max_left _ _)) hla
    have hH : p.lookaheadMs * 0.001 * sampleRate
        ≤ min (max (max hm p.lookaheadMs) 5) 200 * 0.001 * sampleRate := by
      have := mul_le_mul_of_nonneg_right hge hsr1.le
      linarith
    rcases le_or_lt (mathRound (p.lookaheadMs * 0.001 * sampleRate)) 0 with hr | hr
    · have hd : delaySamples sampleRate p ≤ 0 := by
        unfold delaySamples
        exact le_trans (min_le_left _ _) (max_le hr le_rfl)
      have : ((delaySamples sampleRate p : Int) : α) ≤ 0 := by exact_mod_cast hd
      linarith
    · have hd : delaySamples sampleRate p ≤ mathRound (p.lookaheadMs * 0.001 * sampleRate) := by
        unfold delaySamples
        exact le_trans (min_le_left _ _) (max_le le_rfl hr.le)
      have h1 : ((delaySamples sampleRate p : Int) : α)
          ≤ ((mathRound (p.lookaheadMs * 0.001 * sampleRate) : Int) : α) := by exact_mod_cast hd
      have h2 : ((mathRound (p.lookaheadMs * 0.001 * sampleRate) : Int) : α)
          ≤ p.lookaheadMs * 0.001 * sampleRate + 0.5 := Int.floor_le _
      have : (0.5 : α) < 1 := by norm_num
      linarith
  · -- the hold is 200 ms, the delay below 20 ms
    have hmin : min (max (max hm p.lookaheadMs) 5) 200 = 200 :=
      min_eq_right (le_trans (le_trans hla.le (le_max_right _ _)) (le_max_left _ _))
    rw [hmin]
    have hd : delaySamples sampleRate p ≤ mathCeil (sampleRate * 0.020) - 1 := by
      unfold delaySamples
      rw [hcap]
      exact min_le_right _ _
    have h1 : ((delaySamples sampleRate p : Int) : α)
        ≤ ((mathCeil (sampleRate * 0.020) : Int) : α) - 1 := by exact_mod_cast hd
    have h2 : ((mathCeil (sampleRate * 0.020) : Int) : α) < sampleRate * 0.020 + 1 :=
      Int.ceil_lt_add_one _
    have h3 : sampleRate * 0.020 ≤ 200 * 0.001 * sampleRate := by
      have : (0.020 : α) ≤ 200 * 0.001 := by norm_num
      nlinarith
    linarith

/-! ## The envelope follower -/

theorem envelopeFollower_attack (sampleRate dec : α) (p : LimiterProcessor α) {peak : α}
    (h : peak > p.envelope) :
    (envelopeFollower sampleRate dec p peak).envelope = peak ∧
    (envelopeFollower sampleRate dec p peak).holdTimer
      = holdSamples sampleRate (envelopeFollower sampleRate dec p peak).peakRate
          p.lowEnergy p.centroid p.lookaheadMs := by
  simp only [envelopeFollower, if_pos h, and_self]

theorem envelopeFollower_hold (sampleRate dec : α) (p : LimiterProcessor α) {peak : α}
    (h1 : ¬ peak > p.envelope) (h2 : p.holdTimer > 0) :
    (envelopeFollower sampleRate dec p peak).envelope = p.envelope ∧
    (envelopeFollower sampleRate dec p peak).holdTimer = p.holdTimer - 1 := by
  simp only [envelopeFollower, if_neg h1, if_pos h2, and_self]

theorem envelopeFollower_release (sampleRate dec : α) (p : LimiterProcessor α) {peak : α}
    (h1 : ¬ peak > p.envelope) (h2 : ¬ p.holdTimer > 0) :
    (envelopeFollower sampleRate dec p peak).envelope
      = p.envelope * dec + peak * (1 - dec) ∧
    (envelopeFollower sampleRate dec p peak).holdTimer = p.holdTimer := by
  simp only [envelopeFollower, if_neg h1, if_neg h2, and_self]

/-- While the hold timer is positive the envelope cannot fall: one step keeps the envelope above a
level `P` and lowers the remaining hold by at most one, provided every fresh hold exceeds `c - 1`. -/
theorem envelopeFollower_held (sampleRate dec : α) (p : LimiterProcessor α) (peak P c : α)
    (hP : P ≤ p.envelope) (hc : 0 ≤ c) (hh : c < p.holdTimer)
    (hfresh : ∀ pr, c - 1 < holdSamples sampleRate pr p.lowEnergy p.centroid p.lookaheadMs) :
    P ≤ (envelopeFollower sampleRate dec p peak).envelope ∧
    c - 1 < (envelopeFollower sampleRate dec p peak).holdTimer := by
  by_cases h1 : peak > p.envelope
  · obtain ⟨e1, e2⟩ := envelopeFollower_attack sampleRate dec p h1
    rw [e1, e2]
    exact ⟨le_trans hP (le_of_lt h1), hfresh _⟩
  · have h2 : p.holdTimer > 0 := lt_of_le_of_lt hc hh
    obtain ⟨e1, e2⟩ := envelopeFollower_hold sampleRate dec p h1 h2
    rw [e1, e2]
    exact ⟨hP, by linarith⟩

/-- With a release coefficient `≥ 0` the envelope after a step dominates the current peak. -/
theorem envelopeFollower_ge_peak (sampleRate dec : α) (p : LimiterProcessor α) (peak : α)
    (hd0 : 0 ≤ dec) :
    peak ≤ (envelopeFollower sampleRate dec p peak).envelope := by
  by_cases h1 : peak > p.envelope
  · rw [(envelopeFollower_attack sampleRate dec p h1).1]
  · have hle : peak ≤ p.envelope := not_lt.mp h1
    by_cases h2 : p.holdTimer > 0
    · rw [(envelopeFollower_hold sampleRate dec p h1 h2).1]
      exact hle
    · rw [(envelopeFollower_release sampleRate dec p h1 h2).1]
      nlinarith [mul_nonneg hd0 (sub_nonneg.mpr hle)]

/-! ## The static ceiling of the gain curve -/

theorem gainReductionDb_nonpos (sat knee l : α) : gainReductionDb sat knee l ≤ 0 := by
  unfold gainReductionDb
  split_ifs with h1 h2 h3
  · linarith
  · exact le_rfl
  · have hk : 0 < knee := by
      by_contra hh
      exact h1 (Or.inl (not_lt.mp hh))
    have : ¬ l < sat - knee / 2 := fun hh => h1 (Or.inr hh)
    linarith
  · have hk : 0 < knee := by
      by_contra hh
      exact h1 (Or.inl (not_lt.mp hh))
    simp only []
    rw [neg_div]
    exact neg_nonpos.mpr (div_nonneg (mul_self_nonneg _) (by linarith))

theorem level_add_gainReductionDb_le (sat knee l : α) : l + gainReductionDb sat knee l ≤ sat := by
  unfold gainReductionDb
  split_ifs with h1 h2 h3
  · linarith
  · linarith [not_lt.mp h2]
  · linarith
  · have hk : 0 < knee := by
      by_contra hh
      exact h1 (Or.inl (not_lt.mp hh))
    simp only []
    have e : l + -((l - (sat - knee / 2)) * (l - (sat - knee / 2))) / (2 * knee)
        = sat - (l - (sat + knee / 2)) ^ 2 / (2 * knee) := by
      field_simp
      ring
    rw [e]
    have : 0 ≤ (l - (sat + knee / 2)) ^ 2 / (2 * knee) :=
      div_nonneg (sq_nonneg _) (by linarith)
    linarith

/-! ## Real-number facts about the `Math` functions -/

theorem jsMath_pow10_pos (x : ℝ) : 0 < jsMath.pow10 x :=
  Real.rpow_pos_of_pos (by norm_num) x

theorem jsMath_pow10_add (x y : ℝ) : jsMath.pow10 (x + y) = jsMath.pow10 x * jsMath.pow10 y :=
  Real.rpow_add (by norm_num) x y

theorem jsMath_pow10_zero : jsMath.pow10 0 = 1 := Real.rpow_zero 10

theorem jsMath_pow10_le {x y : ℝ} (h : x ≤ y) : jsMath.pow10 x ≤ jsMath.pow10 y :=
  (Real.rpow_le_rpow_left_iff (by norm_num : (1 : ℝ) < 10)).mpr h

theorem jsMath_pow10_lt {x y : ℝ} (h : x < y) : jsMath.pow10 x < jsMath.pow10 y :=
  (Real.rpow_lt_rpow_left_iff (by norm_num : (1 : ℝ) < 10)).mpr h

theorem jsMath_pow10_log10 {x : ℝ} (h : 0 < x) : jsMath.pow10 (jsMath.log10 x) = x :=
  Real.rpow_logb (by norm_num) (by norm_num) h

theorem jsMath_log10_pow10 (x : ℝ) : jsMath.log10 (jsMath.pow10 x) = x :=
  Real.logb_rpow (by norm_num) (by norm_num)

theorem jsMath_log10_le {x y : ℝ} (hx : 0 < x) (h : x ≤ y) : jsMath.log10 x ≤ jsMath.log10 y :=
  Real.logb_le_logb_of_le (by norm_num) hx h

theorem jsMath_exp_pos (x : ℝ) : 0 < jsMath.exp x := Real.exp_pos x

theorem jsMath_log10_floor : jsMath.log10 0.00001 = -5 := by
  have h : (0.00001 : ℝ) = jsMath.pow10 (-5) := by
    show (0.00001 : ℝ) = (10 : ℝ) ^ (-5 : ℝ)
    rw [show (-5 : ℝ) = ((-5 : ℤ) : ℝ) by norm_num, Real.rpow_intCast]
    norm_num
  rw [h, jsMath_log10_pow10]

/-- The floored envelope as a power of ten. -/
theorem pow10_envelopeDb (env : ℝ) :
    jsMath.pow10 (envelopeDb jsMath env / 20) = max env 0.00001 := by
  have hpos : (0 : ℝ) < max env 0.00001 := lt_max_of_lt_right (by norm_num)
  unfold envelopeDb
  rw [mul_div_assoc, mul_div_cancel₀, jsMath_pow10_log10 hpos]
  norm_num

theorem gain_nonneg (sat knee gainDb env : ℝ) :
    0 ≤ gain jsMath sat knee (jsMath.pow10 (gainDb / 20)) env :=
  (mul_pos (jsMath_pow10_pos _) (jsMath_pow10_pos _)).le

/-- Dynamic form of the static ceiling: a sample no larger than the floored envelope leaves the
gain stage at or below `10^((sat + gainDb)/20)`. -/
theorem mul_gain_le_ceiling (sat knee gainDb env x : ℝ) (hx : |x| ≤ max env 0.00001) :
    |x * gain jsMath sat knee (jsMath.pow10 (gainDb / 20)) env|
      ≤ jsMath.pow10 ((sat + gainDb) / 20) := by
  have hg := gain_nonneg sat knee gainDb env
  rw [abs_mul, abs_of_nonneg hg]
  refine le_trans (mul_le_mul_of_nonneg_right hx hg) ?_
  unfold gain
  rw [← pow10_envelopeDb, ← mul_assoc, ← jsMath_pow10_add, ← jsMath_pow10_add]
  apply jsMath_pow10_le
  have := level_add_gainReductionDb_le sat knee (envelopeDb jsMath env)
  linarith

/-! ## One sample of a reachable state -/

section step
variable [FloorRing α] (M : MathFns α) (sampleRate : α)

/-- The state after one sample is the envelope follower followed by the ring step. -/
theorem stepSample_fst (p : LimiterProcessor α) (f : α × α) :
    (stepSample M sampleRate p f).1
      = (ringStep (delaySamples sampleRate p)
          (envelopeFollower sampleRate (decay M sampleRate p) p (max |f.1| |f.2|)) f.1 f.2).1 :=
  rfl

theorem ringStep_envelope (d : Int) (p : LimiterProcessor α) (sL sR : α) :
    (ringStep d p sL sR).1.envelope = p.envelope ∧
    (ringStep d p sL sR).1.holdTimer = p.holdTimer ∧
    (ringStep d p sL sR).1.peakRate = p.peakRate :=
  ⟨rfl, rfl, rfl⟩

theorem stepSample_envelope (p : LimiterProcessor α) (f : α × α) :
    (stepSample M sampleRate p f).1.envelope
      = (envelopeFollower sampleRate (decay M sampleRate p) p (max |f.1| |f.2|)).envelope ∧
    (stepSample M sampleRate p f).1.holdTimer
      = (envelopeFollower sampleRate (decay M sampleRate p) p (max |f.1| |f.2|)).holdTimer ∧
    (stepSample M sampleRate p f).1.peakRate
      = (envelopeFollower sampleRate (decay M sampleRate p) p (max |f.1| |f.2|)).peakRate :=
  ⟨rfl, rfl, rfl⟩

/-- The output of one sample in a state satisfying the ring invariant: the frame `delaySamples`
steps back (silence if there is none) times the gain computed from the updated envelope. -/
theorem stepSample_out {cap : Int} {hist : List (α × α)} {p : LimiterProcessor α}
    (h : RingInv cap hist p) (f : α × α) :
    (stepSample M sampleRate p f).2
      = (some (((f :: hist).map Prod.fst).getD (delaySamples sampleRate p).toNat 0
            * gain M p.saturationLevel p.kneeWidth (outGainLin M p)
                (stepSample M sampleRate p f).1.envelope),
         some (((f :: hist).map Prod.snd).getD (delaySamples sampleRate p).toNat 0
            * gain M p.saturationLevel p.kneeWidth (outGainLin M p)
                (stepSample M sampleRate p f).1.envelope)) := by
  obtain ⟨-, -, -, -, -, e1, -, -, -, -, e2, e3, e4⟩ :=
    envelopeFollower_frame sampleRate (decay M sampleRate p) p (max |f.1| |f.2|)
  have h' := h.congr e1 e2 e3 e4
  have hd := delaySamples_range sampleRate p (by rw [h.2.1]; exact h.1)
  rw [h.2.1] at hd
  obtain ⟨-, r1, r2⟩ := ringStep_spec h' (delaySamples sampleRate p) hd.1 (by omega) f.1 f.2
  have o1 : (stepSample M sampleRate p f).2.1
      = ((ringStep (delaySamples sampleRate p)
          (envelopeFollower sampleRate (decay M sampleRate p) p (max |f.1| |f.2|)) f.1 f.2).2.1).map
          (· * gain M p.saturationLevel p.kneeWidth (outGainLin M p)
            (stepSample M sampleRate p f).1.envelope) := rfl
  have o2 : (stepSample M sampleRate p f).2.2
      = ((ringStep (delaySamples sampleRate p)
          (envelopeFollower sampleRate (decay M sampleRate p) p (max |f.1| |f.2|)) f.1 f.2).2.2).map
          (· * gain M p.saturationLevel p.kneeWidth (outGainLin M p)
            (stepSample M sampleRate p f).1.envelope) := rfl
  rw [Prod.ext_iff]
  refine ⟨?_, ?_⟩
  · rw [o1, r1]; rfl
  · rw [o2, r2]; rfl

theorem runSamples_snoc (p : LimiterProcessor α) (fs : List (α × α)) (g : α × α) :
    runSamples M sampleRate p (fs ++ [g])
      = ((stepSample M sampleRate (runSamples M sampleRate p fs).1 g).1,
         (runSamples M sampleRate p fs).2
           ++ [(stepSample M sampleRate (runSamples M sampleRate p fs).1 g).2]) := by
  rw [runSamples_append]
  simp [runSamples]

theorem runSamples_frame (fs : List (α × α)) :
    ∀ p : LimiterProcessor α,
    let q := (runSamples M sampleRate p fs).1
    q.saturationLevel = p.saturationLevel ∧ q.kneeWidth = p.kneeWidth ∧
    q.outputGain = p.outputGain ∧ q.lookaheadMs = p.lookaheadMs ∧
    q.minRecovery = p.minRecovery ∧ q.maxDelaySamples = p.maxDelaySamples ∧
    q.centroid = p.centroid ∧ q.lowEnergy = p.lowEnergy ∧ q.rms = p.rms := by
  induction fs with
  | nil => intro p; simp [runSamples]
  | cons f fs ih =>
    intro p
    obtain ⟨h1, h2, h3, h4, h5, h6, h7, h8, h9, -⟩ := stepSample_frame M sampleRate p f
    obtain ⟨i1, i2, i3, i4, i5, i6, i7, i8, i9⟩ := ih (stepSample M sampleRate p f).1
    simp only [runSamples]
    exact ⟨i1.trans h1, i2.trans h2, i3.trans h3, i4.trans h4, i5.trans h5, i6.trans h6,
      i7.trans h7, i8.trans h8, i9.trans h9⟩

theorem runSamples_consts (fs : List (α × α)) (p : LimiterProcessor α) :
    delaySamples sampleRate (runSamples M sampleRate p fs).1 = delaySamples sampleRate p ∧
    outGainLin M (runSamples M sampleRate p fs).1 = outGainLin M p ∧
    decay M sampleRate (runSamples M sampleRate p fs).1 = decay M sampleRate p := by
  obtain ⟨h1, h2, h3, h4, h5, h6, h7, h8, h9⟩ := runSamples_frame M sampleRate fs p
  simp only [delaySamples, outGainLin, decay, recoveryMs, h1, h2, h3, h4, h5, h6, h7, h8, h9,
    and_self]

/-- Lookahead window: after an attack by the frame `f`, the envelope stays at or above the
attacking peak, and the hold timer above `delaySamples - 1 - k`, for the next
`k ≤ delaySamples` frames, whatever they are. -/
theorem envelope_held_after_attack (hsr : 0 < sampleRate) (p : LimiterProcessor α)
    (hcap : p.maxDelaySamples = mathCeil (sampleRate * 0.020)) (f : α × α)
    (hattack : max |f.1| |f.2| > p.envelope) (fs : List (α × α)) :
    (fs.length : Int) ≤ delaySamples sampleRate p →
    max |f.1| |f.2| ≤ (runSamples M sampleRate p (f :: fs)).1.envelope ∧
    ((delaySamples sampleRate p : Int) : α) - 1 - (fs.length : α)
      < (runSamples M sampleRate p (f :: fs)).1.holdTimer := by
  induction fs using List.reverseRecOn with
  | nil =>
    intro _
    obtain ⟨e1, e2⟩ := envelopeFollower_attack sampleRate (decay M sampleRate p) p hattack
    obtain ⟨s1, s2, s3⟩ := stepSample_envelope M sampleRate p f
    simp only [runSamples, s1, s2, e1, e2, List.length_nil, Nat.cast_zero, sub_zero]
    exact ⟨le_rfl, holdSamples_gt hsr p hcap _⟩
  | append_singleton fs g ih =>
    intro hlen
    rw [List.length_append, List.length_singleton] at hlen
    push_cast at hlen
    obtain ⟨i1, i2⟩ := ih (by omega)
    rw [← List.cons_append, runSamples_snoc]
    obtain ⟨s1, s2, -⟩ :=
      stepSample_envelope M sampleRate (runSamples M sampleRate p (f :: fs)).1 g
    obtain ⟨-, -, -, c4, -, c6, c7, c8, -⟩ := runSamples_frame M sampleRate (f :: fs) p
    have hlen' : ((fs.length : Int) : α) + 1 ≤ ((delaySamples sampleRate p : Int) : α) := by
      exact_mod_cast hlen
    have hfresh : ∀ pr, ((delaySamples sampleRate p : Int) : α) - 1 - (fs.length : α) - 1
        < holdSamples sampleRate pr (runSamples M sampleRate p (f :: fs)).1.lowEnergy
            (runSamples M sampleRate p (f :: fs)).1.centroid
            (runSamples M sampleRate p (f :: fs)).1.lookaheadMs := by
      intro pr
      rw [c4, c7, c8]
      have := holdSamples_gt hsr p hcap pr
      have : (0 : α) ≤ (fs.length : α) := Nat.cast_nonneg _
      linarith
    have hc0 : (0 : α) ≤ ((delaySamples sampleRate p : Int) : α) - 1 - (fs.length : α) := by
      have : ((fs.length : Int) : α) = (fs.length : α) := Int.cast_natCast _
      linarith
    have := envelopeFollower_held sampleRate
      (decay M sampleRate (runSamples M sampleRate p (f :: fs)).1)
      (runSamples M sampleRate p (f :: fs)).1 (max |g.1| |g.2|) (max |f.1| |f.2|)
      (((delaySamples sampleRate p : Int) : α) - 1 - (fs.length : α)) i1 hc0 i2 hfresh
    simp only [s1, s2, List.length_append, List.length_singleton]
    push_cast
    refine ⟨this.1, ?_⟩
    have e : ((delaySamples sampleRate p : Int) : α) - 1 - ((fs.length : α) + 1)
        = ((delaySamples sampleRate p : Int) : α) - 1 - (fs.length : α) - 1 := by ring
    rw [e]
    exact this.2

end step

section outputs
variable [FloorRing α] (M : MathFns α) (sampleRate : α)

theorem runSamples_ringInv {cap : Int} (fs : List (α × α)) :
    ∀ {hist : List (α × α)} {p : LimiterProcessor α}, RingInv cap hist p →
    RingInv cap (fs.reverse ++ hist) (runSamples M sampleRate p fs).1 := by
  induction fs with
  | nil => intro hist p h; simpa [runSamples] using h
  | cons f fs ih =>
    intro hist p h
    have := ih (stepSample_ringInv M sampleRate h f)
    simpa [runSamples] using this

theorem runSamples_getElem? (fs : List (α × α)) (n : Nat) (hn : n < fs.length)
    (p : LimiterProcessor α) :
    (runSamples M sampleRate p fs).2[n]?
      = some (stepSample M sampleRate (runSamples M sampleRate p (fs.take n)).1 fs[n]).2 ∧
    (runSamples M sampleRate p (fs.take (n + 1))).1
      = (stepSample M sampleRate (runSamples M sampleRate p (fs.take n)).1 fs[n]).1 := by
  have e1 : fs.take (n + 1) = fs.take n ++ [fs[n]] := by
    rw [List.take_succ, List.getElem?_eq_getElem hn]
    rfl
  have e2 : fs = fs.take (n + 1) ++ fs.drop (n + 1) := (List.take_append_drop _ _).symm
  have hlen : (runSamples M sampleRate p (fs.take n)).2.length = n := by
    rw [runSamples_length, List.length_take]
    omega
  refine ⟨?_, ?_⟩
  · conv_lhs => rw [e2]
    rw [runSamples_append, e1, runSamples_snoc]
    simp only []
    rw [List.getElem?_append_left (by simp [hlen]), List.getElem?_append_right (by omega), hlen]
    simp
  · rw [e1, runSamples_snoc]

/-- The `n`-th output frame of a run from a state satisfying the ring invariant: the input frame
`delaySamples` steps before index `n` (reaching back into the earlier history `hist`, silence
beyond it) times the gain computed from the envelope after frame `n`. -/
theorem runSamples_out_at {cap : Int} {hist : List (α × α)} {p : LimiterProcessor α}
    (h : RingInv cap hist p) (fs : List (α × α)) (n : Nat) (hn : n < fs.length) :
    (runSamples M sampleRate p fs).2[n]?
      = some
        (some ((((fs.take (n + 1)).reverse ++ hist).getD (delaySamples sampleRate p).toNat (0, 0)).1
            * gain M p.saturationLevel p.kneeWidth (outGainLin M p)
                (runSamples M sampleRate p (fs.take (n + 1))).1.envelope),
         some ((((fs.take (n + 1)).reverse ++ hist).getD (delaySamples sampleRate p).toNat (0, 0)).2
            * gain M p.saturationLevel p.kneeWidth (outGainLin M p)
                (runSamples M sampleRate p (fs.take (n + 1))).1.envelope)) := by
  obtain ⟨e1, e2⟩ := runSamples_getElem? M sampleRate fs n hn p
  have hq := runSamples_ringInv M sampleRate (fs.take n) h
  obtain ⟨c1, c2, c3, -⟩ := runSamples_frame M sampleRate (fs.take n) p
  obtain ⟨d1, d2, -⟩ := runSamples_consts M sampleRate (fs.take n) p
  have hl : fs[n] :: ((fs.take n).reverse ++ hist) = (fs.take (n + 1)).reverse ++ hist := by
    have e : fs.take (n + 1) = fs.take n ++ [fs[n]] := by
      rw [List.take_succ, List.getElem?_eq_getElem hn]
      rfl
    rw [e, List.reverse_append]
    rfl
  have g1 : ∀ l : List (α × α), ∀ i : Nat,
      (l.map Prod.fst).getD i 0 = (l.getD i (0, 0)).1 := by
    intro l i
    rw [List.getD_eq_getElem?_getD, List.getD_eq_getElem?_getD, List.getElem?_map]
    cases l[i]? <;> rfl
  have g2 : ∀ l : List (α × α), ∀ i : Nat,
      (l.map Prod.snd).getD i 0 = (l.getD i (0, 0)).2 := by
    intro l i
    rw [List.getD_eq_getElem?_getD, List.getD_eq_getElem?_getD, List.getElem?_map]
    cases l[i]? <;> rfl
  rw [e1, stepSample_out M sampleRate hq fs[n], ← e2, c1, c2, d1, d2, g1, g2, hl]

end outputs

/-! ## Gain above and below the knee -/

/-- At or above the upper knee boundary the gain brings the floored envelope exactly to the
ceiling. -/
theorem gain_above_knee (sat knee gainDb env : ℝ) (hk : 0 ≤ knee)
    (hl : sat + knee / 2 ≤ envelopeDb jsMath env) :
    max env 0.00001 * gain jsMath sat knee (jsMath.pow10 (gainDb / 20)) env
      = jsMath.pow10 ((sat + gainDb) / 20) := by
  unfold gain
  rw [gainReductionDb_above hk hl, ← pow10_envelopeDb, ← mul_assoc, ← jsMath_pow10_add,
    ← jsMath_pow10_add]
  congr 1
  ring

/-- At or below the lower knee boundary the gain is the make-up gain alone. -/
theorem gain_below_knee (sat knee og env : ℝ) (hk : 0 ≤ knee)
    (hl : envelopeDb jsMath env ≤ sat - knee / 2) :
    gain jsMath sat knee og env = og := by
  unfold gain
  rw [gainReductionDb_below hk hl, zero_div, jsMath_pow10_zero, one_mul]

theorem envelopeDb_of_ge {env : ℝ} (h : 0.00001 ≤ env) :
    envelopeDb jsMath env = 20 * jsMath.log10 env := by
  unfold envelopeDb
  rw [max_eq_left h]

theorem envelopeDb_of_le {env : ℝ} (h : env ≤ 0.00001) : envelopeDb jsMath env = -100 := by
  unfold envelopeDb
  rw [max_eq_right h, jsMath_log10_floor]
  norm_num

/-- The detected level of an envelope below the linear amplitude `10^(t/20)` is below `t` dB,
when `t` is not under the `-100` dB floor. -/
theorem envelopeDb_le_of_lt {env t : ℝ} (ht : -100 ≤ t) (h : env < jsMath.pow10 (t / 20)) :
    envelopeDb jsMath env ≤ t := by
  rcases le_or_lt env 0.00001 with h1 | h1
  · rw [envelopeDb_of_le h1]
    exact ht
  · rw [envelopeDb_of_ge h1.le]
    have hpos : (0 : ℝ) < env := lt_trans (by norm_num) h1
    have := jsMath_log10_le hpos h.le
    rw [jsMath_log10_pow10] at this
    linarith

/-! ## Runs of frames with a constant peak -/

section constant
variable [FloorRing α] (M : MathFns α) (sampleRate : α)

/-- Frames of constant peak `A` from a state whose envelope is `A`: the envelope stays `A` and the
hold timer runs down. -/
theorem runSamples_const_peak (A : α) (fs : List (α × α)) :
    ∀ p : LimiterProcessor α, (∀ f ∈ fs, max |f.1| |f.2| = A) → p.envelope = A →
    (runSamples M sampleRate p fs).1.envelope = A ∧
    (runSamples M sampleRate p fs).1.holdTimer ≤ max (p.holdTimer - fs.length) 0 := by
  induction fs with
  | nil =>
    intro p _ he
    simp only [runSamples, List.length_nil, Nat.cast_zero, sub_zero]
    exact ⟨he, le_max_left _ _⟩
  | cons f fs ih =>
    intro p hf he
    have hpk : max |f.1| |f.2| = A := hf f (List.mem_cons_self _ _)
    obtain ⟨s1, s2, -⟩ := stepSample_envelope M sampleRate p f
    have hna : ¬ max |f.1| |f.2| > p.envelope := by rw [hpk, he]; exact lt_irrefl _
    have key : (stepSample M sampleRate p f).1.envelope = A ∧
        (stepSample M sampleRate p f).1.holdTimer ≤ max (p.holdTimer - 1) 0 := by
      by_cases h2 : p.holdTimer > 0
      · obtain ⟨e1, e2⟩ := envelopeFollower_hold sampleRate (decay M sampleRate p) p hna h2
        rw [s1, s2, e1, e2]
        exact ⟨he, le_max_left _ _⟩
      · obtain ⟨e1, e2⟩ := envelopeFollower_release sampleRate (decay M sampleRate p) p hna h2
        rw [s1, s2, e1, e2, hpk, he]
        exact ⟨by ring, le_trans (not_lt.mp h2) (le_max_right _ _)⟩
    obtain ⟨i1, i2⟩ := ih (stepSample M sampleRate p f).1
      (fun g hg => hf g (List.mem_cons_of_mem _ hg)) key.1
    simp only [runSamples, List.length_cons]
    refine ⟨i1, le_trans i2 ?_⟩
    push_cast
    rcases le_total (p.holdTimer - 1) 0 with h | h
    · rw [max_eq_right h] at key
      have h1 : (stepSample M sampleRate p f).1.holdTimer - (fs.length : α) ≤ 0 := by
        have : (0 : α) ≤ (fs.length : α) := Nat.cast_nonneg _
        linarith [key.2]
      rw [max_eq_right h1]
      exact le_max_right _ _
    · rw [max_eq_left h] at key
      apply max_le
      · refine le_trans ?_ (le_max_left _ _)
        linarith [key.2]
      · exact le_max_right _ _

/-- Frames of constant peak `A > 0` from a state with envelope `0`: the first frame attacks and the
envelope is `A` from then on. -/
theorem runSamples_const_from_zero (A : α) (hA : 0 < A) (p : LimiterProcessor α)
    (hp : p.envelope = 0) (f : α × α) (fs : List (α × α))
    (hf : ∀ g ∈ f :: fs, max |g.1| |g.2| = A) :
    (runSamples M sampleRate p (f :: fs)).1.envelope = A ∧
    (runSamples M sampleRate p (f :: fs)).1.holdTimer
      ≤ max ((stepSample M sampleRate p f).1.holdTimer - fs.length) 0 := by
  have hpk : max |f.1| |f.2| = A := hf f (List.mem_cons_self _ _)
  have hatt : max |f.1| |f.2| > p.envelope := by rw [hpk, hp]; exact hA
  obtain ⟨s1, -, -⟩ := stepSample_envelope M sampleRate p f
  have e1 := (envelopeFollower_attack sampleRate (decay M sampleRate p) p hatt).1
  simp only [runSamples]
  exact runSamples_const_peak M sampleRate A fs _
    (fun g hg => hf g (List.mem_cons_of_mem _ hg)) (by rw [s1, e1, hpk])

end constant

/-- The frame `d` steps before index `n` of a run that started with an empty ring. -/
theorem delayed_frame_eq {β : Type} (fs : List β) (n d : Nat) (hn : n < fs.length) (z : β) :
    ((fs.take (n + 1)).reverse ++ []).getD d z = if d ≤ n then fs.getD (n - d) z else z := by
  rw [List.append_nil, List.getD_eq_getElem?_getD]
  split_ifs with h
  · rw [List.getElem?_reverse (by simp; omega), List.getElem?_take_of_lt (by simp; omega),
      List.getD_eq_getElem?_getD]
    congr 2
    simp
    omega
  · rw [List.getElem?_eq_none (by simp; omega)]
    rfl

theorem jsMath_pow10_int (k : ℤ) : jsMath.pow10 (k : ℝ) = (10 : ℝ) ^ k :=
  Real.rpow_intCast 10 k

theorem jsMath_log10_zpow (k : ℤ) : jsMath.log10 ((10 : ℝ) ^ k) = k := by
  rw [← jsMath_pow10_int, jsMath_log10_pow10]

/-! ## The release coefficient and envelopes below a level -/

theorem recoveryMs_bounds (p : LimiterProcessor α) (h : 0 ≤ p.minRecovery) :
    p.minRecovery ≤ recoveryMs p ∧ recoveryMs p ≤ p.minRecovery * 5 := by
  unfold recoveryMs
  simp only []
  exact ⟨le_min (le_max_right _ _) (by linarith), min_le_right _ _⟩

theorem decay_pos (sampleRate : ℝ) (p : LimiterProcessor ℝ) : 0 < decay jsMath sampleRate p :=
  Real.exp_pos _

theorem decay_lt_one {sampleRate : ℝ} (hsr : 0 < sampleRate) (p : LimiterProcessor ℝ)
    (h : 0 < p.minRecovery) : decay jsMath sampleRate p < 1 := by
  have hr := (recoveryMs_bounds p h.le).1
  have hpos : 0 < recoveryMs p / 1000 * sampleRate := by
    have : 0 < recoveryMs p := lt_of_lt_of_le h hr
    positivity
  show Real.exp (-1 / (recoveryMs p / 1000 * sampleRate)) < 1
  rw [Real.exp_lt_one_iff]
  rw [neg_div]
  exact neg_neg_of_pos (one_div_pos.mpr hpos)

theorem envelopeFollower_lt (sampleRate dec : α) (p : LimiterProcessor α) (peak T : α)
    (hd1 : dec ≤ 1) (he : p.envelope < T) (hp : peak < T) :
    (envelopeFollower sampleRate dec p peak).envelope < T := by
  by_cases h1 : peak > p.envelope
  · rw [(envelopeFollower_attack sampleRate dec p h1).1]
    exact hp
  · by_cases h2 : p.holdTimer > 0
    · rw [(envelopeFollower_hold sampleRate dec p h1 h2).1]
      exact he
    · rw [(envelopeFollower_release sampleRate dec p h1 h2).1]
      have hle : peak ≤ p.envelope := not_lt.mp h1
      nlinarith [mul_nonneg (sub_nonneg.mpr hd1) (sub_nonneg.mpr hle)]

theorem runSamples_envelope_lt [FloorRing α] (M : MathFns α) (sampleRate T : α)
    (fs : List (α × α)) :
    ∀ p : LimiterProcessor α, decay M sampleRate p ≤ 1 →
    (∀ f ∈ fs, max |f.1| |f.2| < T) → p.envelope < T →
    (runSamples M sampleRate p fs).1.envelope < T := by
  induction fs with
  | nil => intro p _ _ he; simpa [runSamples] using he
  | cons f fs ih =>
    intro p hd1 hf he
    obtain ⟨s1, -, -⟩ := stepSample_envelope M sampleRate p f
    have hdc : decay M sampleRate (stepSample M sampleRate p f).1 = decay M sampleRate p :=
      (processSample_consts M sampleRate (delaySamples sampleRate p) p.saturationLevel
        p.kneeWidth (outGainLin M p) (decay M sampleRate p) p ⟨0, 0, 0, 0⟩ f.1 f.2).2.2
    simp only [runSamples]
    refine ih _ (by rw [hdc]; exact hd1)
      (fun g hg => hf g (List.mem_cons_of_mem _ hg)) ?_
    rw [s1]
    exact envelopeFollower_lt sampleRate _ p _ T hd1 he (hf f (List.mem_cons_self _ _))

/-! ## How far the envelope can fall behind the delay line -/

theorem framePeak_nonneg (f : α × α) : 0 ≤ framePeak f :=
  le_trans (abs_nonneg _) (le_max_left _ _)

theorem envelopeFollower_ge_mul (sampleRate dec : α) (p : LimiterProcessor α) (peak : α)
    (hd1 : dec ≤ 1) (he : 0 ≤ p.envelope) (hp : 0 ≤ peak) :
    p.envelope * dec ≤ (envelopeFollower sampleRate dec p peak).envelope := by
  have h0 : p.envelope * dec ≤ p.envelope := by nlinarith
  by_cases h1 : peak > p.envelope
  · rw [(envelopeFollower_attack sampleRate dec p h1).1]
    linarith
  · by_cases h2 : p.holdTimer > 0
    · rw [(envelopeFollower_hold sampleRate dec p h1 h2).1]
      exact h0
    · rw [(envelopeFollower_release sampleRate dec p h1 h2).1]
      nlinarith [mul_nonneg hp (sub_nonneg.mpr hd1)]

section envinv
variable [FloorRing α] (M : MathFns α) (sampleRate : α)

theorem stepSample_envInv {dec : α} {hist : List (α × α)} {p : LimiterProcessor α}
    (h : EnvInv dec hist p) (hdec : decay M sampleRate p = dec) (hd0 : 0 ≤ dec) (hd1 : dec ≤ 1)
    (f : α × α) : EnvInv dec (f :: hist) (stepSample M sampleRate p f).1 := by
  obtain ⟨s1, -, -⟩ := stepSample_envelope M sampleRate p f
  rw [hdec] at s1
  have hge : framePeak f ≤ (stepSample M sampleRate p f).1.envelope := by
    rw [s1]
    exact envelopeFollower_ge_peak sampleRate dec p _ hd0
  have hmul : p.envelope * dec ≤ (stepSample M sampleRate p f).1.envelope := by
    rw [s1]
    exact envelopeFollower_ge_mul sampleRate dec p _ hd1 h.1 (framePeak_nonneg f)
  refine ⟨le_trans (framePeak_nonneg f) hge, ?_⟩
  intro j
  cases j with
  | zero => simpa using hge
  | succ j =>
    have := mul_le_mul_of_nonneg_right (h.2 j) hd0
    rw [List.getD_cons_succ, pow_succ, ← mul_assoc]
    exact le_trans this hmul

theorem runSamples_envInv {dec : α} (hd0 : 0 ≤ dec) (hd1 : dec ≤ 1) (fs : List (α × α)) :
    ∀ {hist : List (α × α)} {p : LimiterProcessor α}, EnvInv dec hist p →
    decay M sampleRate p = dec →
    EnvInv dec (fs.reverse ++ hist) (runSamples M sampleRate p fs).1 := by
  induction fs with
  | nil => intro hist p h _; simpa [runSamples] using h
  | cons f fs ih =>
    intro hist p h hdec
    have hdc : decay M sampleRate (stepSample M sampleRate p f).1 = decay M sampleRate p :=
      (processSample_consts M sampleRate (delaySamples sampleRate p) p.saturationLevel
        p.kneeWidth (outGainLin M p) (decay M sampleRate p) p ⟨0, 0, 0, 0⟩ f.1 f.2).2.2
    have := ih (stepSample_envInv M sampleRate h hdec hd0 hd1 f) (by rw [hdc]; exact hdec)
    simpa [runSamples] using this

end envinv

/-- A sample whose amplitude is at most `env / r` (with `0 < r`) leaves the gain stage at or
below the ceiling divided by `r`. -/
theorem mul_gain_le_ceiling_div (sat knee gainDb env x r : ℝ) (hr : 0 < r) (he : 0 ≤ env)
    (hx : |x| * r ≤ env) :
    |x * gain jsMath sat knee (jsMath.pow10 (gainDb / 20)) env|
      ≤ jsMath.pow10 ((sat + gainDb) / 20) / r := by
  have hg := gain_nonneg sat knee gainDb env
  have h1 := mul_gain_le_ceiling sat knee gainDb env env
    (by rw [abs_of_nonneg he]; exact le_max_left _ _)
  rw [abs_mul, abs_of_nonneg he, abs_of_nonneg hg] at h1
  rw [abs_mul, abs_of_nonneg hg, le_div_iff₀ hr]
  calc |x| * gain jsMath sat knee (jsMath.pow10 (gainDb / 20)) env * r
      = (|x| * r) * gain jsMath sat knee (jsMath.pow10 (gainDb / 20)) env := by ring
    _ ≤ env * gain jsMath sat knee (jsMath.pow10 (gainDb / 20)) env :=
        mul_le_mul_of_nonneg_right hx hg
    _ ≤ jsMath.pow10 ((sat + gainDb) / 20) := h1

theorem jsMath_pow10_neg_three_tenths_lt : jsMath.pow10 (-0.3) < 0.9 := by
  by_contra hcon
  have h9 : (0.9 : ℝ) ≤ jsMath.pow10 (-0.3) := not_lt.mp hcon
  have hpow : jsMath.pow10 (-0.3) ^ (10 : ℕ) = 0.001 := by
    show ((10 : ℝ) ^ (-0.3 : ℝ)) ^ (10 : ℕ) = 0.001
    rw [← Real.rpow_natCast, ← Real.rpow_mul (by norm_num)]
    rw [show (-0.3 : ℝ) * ((10 : ℕ) : ℝ) = ((-3 : ℤ) : ℝ) by norm_num, Real.rpow_intCast]
    norm_num
  have := pow_le_pow_left₀ (by norm_num : (0 : ℝ) ≤ 0.9) h9 10
  rw [hpow] at this
  norm_num at this

/-- A released envelope that is still above the threshold: the gain brings the envelope, not the
delayed sample, to the ceiling. -/
theorem gain_eq_ceiling_div (sat knee gainDb env : ℝ) (hk : 0 ≤ knee) (he : 0.00001 ≤ env)
    (hl : sat + knee / 2 ≤ 20 * jsMath.log10 env) :
    gain jsMath sat knee (jsMath.pow10 (gainDb / 20)) env
      = jsMath.pow10 ((sat + gainDb) / 20) / env := by
  have h := gain_above_knee sat knee gainDb env hk (by rw [envelopeDb_of_ge he]; exact hl)
  rw [max_eq_left he] at h
  have hpos : (0 : ℝ) < env := lt_of_lt_of_le (by norm_num) he
  rw [eq_div_iff hpos.ne', mul_comm]
  exact h

/-! ## Invariants of the envelope state -/

theorem envelopeFollower_peakRate (sampleRate dec : α) (p : LimiterProcessor α) (peak : α) :
    (envelopeFollower sampleRate dec p peak).peakRate
      = p.peakRate * 0.9995 + (if peak ≥ p.envelope * 0.9 then 1 else 0) * 0.0005 := by
  unfold envelopeFollower
  simp only []
  split_ifs <;> rfl

theorem envelopeFollower_meter (sampleRate dec : α) (p : LimiterProcessor α) (peak : α) :
    (envelopeFollower sampleRate dec p peak).meterBlockCount = p.meterBlockCount ∧
    (envelopeFollower sampleRate dec p peak).inPeakL = p.inPeakL ∧
    (envelopeFollower sampleRate dec p peak).inPeakR = p.inPeakR ∧
    (envelopeFollower sampleRate dec p peak).outPeakL = p.outPeakL ∧
    (envelopeFollower sampleRate dec p peak).outPeakR = p.outPeakR := by
  unfold envelopeFollower
  simp only []
  split_ifs <;> exact ⟨rfl, rfl, rfl, rfl, rfl⟩

theorem envelopeFollower_peakRate_mem (sampleRate dec : α) (p : LimiterProcessor α) (peak : α)
    (h0 : 0 ≤ p.peakRate) (h1 : p.peakRate ≤ 1) :
    0 ≤ (envelopeFollower sampleRate dec p peak).peakRate ∧
    (envelopeFollower sampleRate dec p peak).peakRate ≤ 1 := by
  rw [envelopeFollower_peakRate]
  have a : (0 : α) ≤ 0.9995 := by norm_num
  have b : (0.9995 : α) + 0.0005 = 1 := by norm_num
  have c : (0 : α) ≤ 0.0005 := by norm_num
  split_ifs
  · constructor
    · nlinarith
    · nlinarith
  · constructor
    · nlinarith
    · nlinarith

theorem envelopeFollower_envelope_nonneg (sampleRate dec : α) (p : LimiterProcessor α) (peak : α)
    (hd : 0 ≤ dec) (he : 0 ≤ p.envelope) (hp : 0 ≤ peak) :
    0 ≤ (envelopeFollower sampleRate dec p peak).envelope := by
  by_cases h1 : peak > p.envelope
  · rw [(envelopeFollower_attack sampleRate dec p h1).1]
    exact le_trans he h1.le
  · by_cases h2 : p.holdTimer > 0
    · rw [(envelopeFollower_hold sampleRate dec p h1 h2).1]
      exact he
    · rw [(envelopeFollower_release sampleRate dec p h1 h2).1]
      have hle : peak ≤ p.envelope := not_lt.mp h1
      have e : p.envelope * dec + peak * (1 - dec) = peak + (p.envelope - peak) * dec := by ring
      rw [e]
      exact add_nonneg hp (mul_nonneg (sub_nonneg.mpr hle) hd)

theorem holdSamples_nonneg {sampleRate : α} (hsr : 0 ≤ sampleRate)
    (peakRate lowEnergy centroid la : α) :
    0 ≤ holdSamples sampleRate peakRate lowEnergy centroid la := by
  unfold holdSamples
  simp only []
  have h5 : (5 : α) ≤ min (max (max (5 * (1 + peakRate * 4) * (1 + lowEnergy * 3)
      * max 0.3 (1 - centroid / 8000)) la) 5) 200 :=
    le_min (le_max_right _ _) (by norm_num)
  have : (0 : α) ≤ 0.001 := by norm_num
  have h0 : (0 : α) ≤ min (max (max (5 * (1 + peakRate * 4) * (1 + lowEnergy * 3)
      * max 0.3 (1 - centroid / 8000)) la) 5) 200 := by linarith
  positivity

theorem envelopeFollower_holdTimer_gt (sampleRate dec : α) (p : LimiterProcessor α) (peak : α)
    (hsr : 0 ≤ sampleRate) (hh : -1 < p.holdTimer) :
    -1 < (envelopeFollower sampleRate dec p peak).holdTimer := by
  by_cases h1 : peak > p.envelope
  · rw [(envelopeFollower_attack sampleRate dec p h1).2]
    exact lt_of_lt_of_le (by norm_num) (holdSamples_nonneg hsr _ _ _ _)
  · by_cases h2 : p.holdTimer > 0
    · rw [(envelopeFollower_hold sampleRate dec p h1 h2).2]
      linarith
    · rw [(envelopeFollower_release sampleRate dec p h1 h2).2]
      exact hh

theorem onmessage_envState (p : LimiterProcessor α) (m : Msg α) :
    (onmessage p m).envelope = p.envelope ∧ (onmessage p m).holdTimer = p.holdTimer ∧
    (onmessage p m).peakRate = p.peakRate ∧
    (onmessage p m).meterBlockCount = p.meterBlockCount ∧
    (onmessage p m).inPeakL = p.inPeakL ∧ (onmessage p m).inPeakR = p.inPeakR ∧
    (onmessage p m).outPeakL = p.outPeakL ∧ (onmessage p m).outPeakR = p.outPeakR := by
  cases m <;> exact ⟨rfl, rfl, rfl, rfl, rfl, rfl, rfl, rfl⟩

theorem updateMeter_envState (M : MathFns α) (p : LimiterProcessor α) (pk : BlockPeaks α) :
    (updateMeter M p pk).1.envelope = p.envelope ∧
    (updateMeter M p pk).1.holdTimer = p.holdTimer ∧
    (updateMeter M p pk).1.peakRate = p.peakRate := by
  simp only [updateMeter]
  split_ifs <;> exact ⟨rfl, rfl, rfl⟩

theorem updateMeter_count (M : MathFns α) (p : LimiterProcessor α) (pk : BlockPeaks α) :
    (updateMeter M p pk).1.meterBlockCount
      = (if p.meterBlockCount + 1 ≥ 6 then 0 else p.meterBlockCount + 1) ∧
    ((updateMeter M p pk).2.isSome = true ↔ p.meterBlockCount + 1 ≥ 6) := by
  simp only [updateMeter]
  split_ifs with h <;> simp [h]

section reachinv
variable [FloorRing α] {M : MathFns α} {sampleRate : α}

theorem stepSample_meter (p : LimiterProcessor α) (f : α × α) :
    (stepSample M sampleRate p f).1.meterBlockCount = p.meterBlockCount ∧
    (stepSample M sampleRate p f).1.inPeakL = p.inPeakL ∧
    (stepSample M sampleRate p f).1.inPeakR = p.inPeakR ∧
    (stepSample M sampleRate p f).1.outPeakL = p.outPeakL ∧
    (stepSample M sampleRate p f).1.outPeakR = p.outPeakR :=
  envelopeFollower_meter sampleRate (decay M sampleRate p) p (max |f.1| |f.2|)

/-- In every reachable state the transient rate is in `[0, 1]` and the envelope is `≥ 0`, when
`Math.exp` is non-negative. -/
theorem Reach.envState (hM : ∀ x, 0 ≤ M.exp x) {hist : List (α × α)} {p : LimiterProcessor α}
    (h : Reach M sampleRate hist p) :
    0 ≤ p.peakRate ∧ p.peakRate ≤ 1 ∧ 0 ≤ p.envelope := by
  induction h with
  | init => exact ⟨le_of_eq rfl, zero_le_one, le_of_eq rfl⟩
  | msg m _ ih =>
    obtain ⟨e1, -, e3, -⟩ := onmessage_envState _ m
    rw [e1, e3]
    exact ih
  | @sample hist p f _ ih =>
    obtain ⟨s1, -, s3⟩ := stepSample_envelope M sampleRate p f
    rw [s1, s3]
    obtain ⟨a, b⟩ := envelopeFollower_peakRate_mem sampleRate (decay M sampleRate p) p
      (max |f.1| |f.2|) ih.1 ih.2.1
    exact ⟨a, b, envelopeFollower_envelope_nonneg sampleRate _ p _ (hM _) ih.2.2
      (le_trans (abs_nonneg _) (le_max_left _ _))⟩
  | meter pk _ ih =>
    obtain ⟨e1, -, e3⟩ := updateMeter_envState M _ pk
    rw [e1, e3]
    exact ih

/-- In every reachable state the hold timer is above `-1` (sample rate `≥ 0`). -/
theorem Reach.holdTimer_gt (hsr : 0 ≤ sampleRate) {hist : List (α × α)}
    {p : LimiterProcessor α} (h : Reach M sampleRate hist p) : -1 < p.holdTimer := by
  induction h with
  | init => show (-1 : α) < 0; norm_num
  | msg m _ ih =>
    rw [(onmessage_envState _ m).2.1]
    exact ih
  | @sample hist p f _ ih =>
    rw [(stepSample_envelope M sampleRate p f).2.1]
    exact envelopeFollower_holdTimer_gt sampleRate _ p _ hsr ih
  | meter pk _ ih =>
    rw [(updateMeter_envState M _ pk).2.1]
    exact ih

/-- In every reachable state the meter's block counter is below 6. -/
theorem Reach.meterCount_lt {hist : List (α × α)} {p : LimiterProcessor α}
    (h : Reach M sampleRate hist p) : p.meterBlockCount < 6 := by
  induction h with
  | init => show 0 < 6; norm_num
  | msg m _ ih =>
    rw [(onmessage_envState _ m).2.2.2.1]
    exact ih
  | @sample hist p f _ ih =>
    rw [(stepSample_meter p f).1]
    exact ih
  | meter pk _ ih =>
    rw [(updateMeter_count M _ pk).1]
    split_ifs <;> omega

end reachinv

section holdphase
variable [FloorRing α] (M : MathFns α) (sampleRate : α)

/-- Frames of constant peak `A` from a state whose envelope is `A`, fewer than the hold allows:
every frame is a hold step, so the timer goes down by the number of frames. -/
theorem runSamples_hold_phase (A : α) (fs : List (α × α)) :
    ∀ p : LimiterProcessor α, (∀ f ∈ fs, max |f.1| |f.2| = A) → p.envelope = A →
    (fs.length : α) - 1 < p.holdTimer →
    (runSamples M sampleRate p fs).1.envelope = A ∧
    (runSamples M sampleRate p fs).1.holdTimer = p.holdTimer - fs.length := by
  induction fs with
  | nil =>
    intro p _ he _
    simp only [runSamples, List.length_nil, Nat.cast_zero, sub_zero]
    exact ⟨he, trivial⟩
  | cons f fs ih =>
    intro p hf he hh
    have hpk : max |f.1| |f.2| = A := hf f (List.mem_cons_self _ _)
    obtain ⟨s1, s2, -⟩ := stepSample_envelope M sampleRate p f
    have hna : ¬ max |f.1| |f.2| > p.envelope := by rw [hpk, he]; exact lt_irrefl _
    rw [List.length_cons] at hh
    push_cast at hh
    have hlen : (0 : α) ≤ (fs.length : α) := Nat.cast_nonneg _
    have h2 : p.holdTimer > 0 := by linarith
    obtain ⟨e1, e2⟩ := envelopeFollower_hold sampleRate (decay M sampleRate p) p hna h2
    obtain ⟨i1, i2⟩ := ih (stepSample M sampleRate p f).1
      (fun g hg => hf g (List.mem_cons_of_mem _ hg)) (by rw [s1, e1]; exact he)
      (by rw [s2, e2]; linarith)
    simp only [runSamples, List.length_cons]
    refine ⟨i1, ?_⟩
    rw [i2, s2, e2]
    push_cast
    ring

/-- Frames of constant peak `A` from a state whose envelope is `A` and whose hold has run out:
every frame is a release step that changes neither the envelope nor the timer. -/
theorem runSamples_release_phase (A : α) (fs : List (α × α)) :
    ∀ p : LimiterProcessor α, (∀ f ∈ fs, max |f.1| |f.2| = A) → p.envelope = A →
    p.holdTimer ≤ 0 →
    (runSamples M sampleRate p fs).1.envelope = A ∧
    (runSamples M sampleRate p fs).1.holdTimer = p.holdTimer := by
  induction fs with
  | nil => intro p _ he _; exact ⟨he, rfl⟩
  | cons f fs ih =>
    intro p hf he hh
    have hpk : max |f.1| |f.2| = A := hf f (List.mem_cons_self _ _)
    obtain ⟨s1, s2, -⟩ := stepSample_envelope M sampleRate p f
    have hna : ¬ max |f.1| |f.2| > p.envelope := by rw [hpk, he]; exact lt_irrefl _
    obtain ⟨e1, e2⟩ := envelopeFollower_release sampleRate (decay M sampleRate p) p hna
      (not_lt.mpr hh)
    obtain ⟨i1, i2⟩ := ih (stepSample M sampleRate p f).1
      (fun g hg => hf g (List.mem_cons_of_mem _ hg))
      (by rw [s1, e1, hpk, he]; ring) (by rw [s2, e2]; exact hh)
    simp only [runSamples]
    exact ⟨i1, by rw [i2, s2, e2]⟩

theorem runBlocks_envState (blocks : List (List (List α))) (p : LimiterProcessor α)
    (ha : p.alive = true) :
    (runBlocks M sampleRate p blocks).1.envelope
      = (runSamples M sampleRate p (inputFrames blocks)).1.envelope ∧
    (runBlocks M sampleRate p blocks).1.holdTimer
      = (runSamples M sampleRate p (inputFrames blocks)).1.holdTimer ∧
    (runBlocks M sampleRate p blocks).1.peakRate
      = (runSamples M sampleRate p (inputFrames blocks)).1.peakRate := by
  have h := (runBlocks_eq_runSamples M sampleRate blocks p ha).2
  exact ⟨congrArg (fun q => q.envelope) h, congrArg (fun q => q.holdTimer) h,
    congrArg (fun q => q.peakRate) h⟩

end holdphase

/-! ## Mono input -/

section mono
variable [FloorRing α] (M : MathFns α) (sampleRate : α)

theorem stepSample_mono (p : LimiterProcessor α) (f : α × α) (hr : p.ringL = p.ringR)
    (hf : f.1 = f.2) :
    (stepSample M sampleRate p f).2.1 = (stepSample M sampleRate p f).2.2 ∧
    (stepSample M sampleRate p f).1.ringL = (stepSample M sampleRate p f).1.ringR := by
  obtain ⟨-, -, -, -, -, -, -, -, -, -, e2, e3, -⟩ :=
    envelopeFollower_frame sampleRate (decay M sampleRate p) p (max |f.1| |f.2|)
  have hq : (envelopeFollower sampleRate (decay M sampleRate p) p (max |f.1| |f.2|)).ringL
      = (envelopeFollower sampleRate (decay M sampleRate p) p (max |f.1| |f.2|)).ringR := by
    rw [e2, e3, hr]
  simp only [stepSample, processSample, ringStep]
  rw [hq, hf]
  exact ⟨rfl, rfl⟩

theorem runSamples_mono (fs : List (α × α)) :
    ∀ p : LimiterProcessor α, p.ringL = p.ringR → (∀ f ∈ fs, f.1 = f.2) →
    (∀ o ∈ (runSamples M sampleRate p fs).2, o.1 = o.2) ∧
    (runSamples M sampleRate p fs).1.ringL = (runSamples M sampleRate p fs).1.ringR := by
  induction fs with
  | nil => intro p hr _; simpa [runSamples] using hr
  | cons f fs ih =>
    intro p hr hf
    obtain ⟨h1, h2⟩ := stepSample_mono M sampleRate p f hr (hf f (List.mem_cons_self _ _))
    obtain ⟨i1, i2⟩ := ih _ h2 (fun g hg => hf g (List.mem_cons_of_mem _ hg))
    simp only [runSamples]
    refine ⟨?_, i2⟩
    intro o ho
    rcases List.mem_cons.mp ho with ho | ho
    · rw [ho]; exact h1
    · exact i1 o ho

theorem zip_self_fst_eq_snd {β : Type} (x : List β) : ∀ f ∈ x.zip x, f.1 = f.2 := by
  induction x with
  | nil => intro f hf; simp at hf
  | cons a x ih =>
    intro f hf
    rw [List.zip_cons_cons] at hf
    rcases List.mem_cons.mp hf with hf | hf
    · rw [hf]
    · exact ih f hf

/-- The parameters and spectral features are not changed by `process`. -/
theorem process_frame (p : LimiterProcessor α) (input : List (List α)) :
    core (process M sampleRate p input).state
      = core (if p.alive then (runSamples M sampleRate p (blockFrames input)).1 else p) := by
  by_cases ha : p.alive = true
  · rw [if_pos ha]
    exact (process_eq_runSamples M sampleRate p input ha).2.1
  · rw [if_neg ha]
    simp [process, ha]

theorem process_consts (p : LimiterProcessor α) (input : List (List α)) :
    (process M sampleRate p input).state.saturationLevel = p.saturationLevel ∧
    (process M sampleRate p input).state.kneeWidth = p.kneeWidth ∧
    (process M sampleRate p input).state.outputGain = p.outputGain ∧
    (process M sampleRate p input).state.lookaheadMs = p.lookaheadMs ∧
    (process M sampleRate p input).state.minRecovery = p.minRecovery ∧
    (process M sampleRate p input).state.maxDelaySamples = p.maxDelaySamples ∧
    (process M sampleRate p input).state.centroid = p.centroid ∧
    (process M sampleRate p input).state.lowEnergy = p.lowEnergy ∧
    (process M sampleRate p input).state.rms = p.rms := by
  have h := process_frame M sampleRate p input
  obtain ⟨c1, c2, c3, c4, c5, c6, c7, c8, c9⟩ :=
    runSamples_frame M sampleRate (blockFrames input) p
  by_cases ha : p.alive = true
  · rw [if_pos ha] at h
    exact ⟨(congrArg (fun q => q.saturationLevel) h).trans c1,
      (congrArg (fun q => q.kneeWidth) h).trans c2,
      (congrArg (fun q => q.outputGain) h).trans c3,
      (congrArg (fun q => q.lookaheadMs) h).trans c4,
      (congrArg (fun q => q.minRecovery) h).trans c5,
      (congrArg (fun q => q.maxDelaySamples) h).trans c6,
      (congrArg (fun q => q.centroid) h).trans c7,
      (congrArg (fun q => q.lowEnergy) h).trans c8,
      (congrArg (fun q => q.rms) h).trans c9⟩
  · rw [if_neg ha] at h
    exact ⟨congrArg (fun q => q.saturationLevel) h, congrArg (fun q => q.kneeWidth) h,
      congrArg (fun q => q.outputGain) h, congrArg (fun q => q.lookaheadMs) h,
      congrArg (fun q => q.minRecovery) h, congrArg (fun q => q.maxDelaySamples) h,
      congrArg (fun q => q.centroid) h, congrArg (fun q => q.lowEnergy) h,
      congrArg (fun q => q.rms) h⟩

end mono

theorem runSamples_singleton [FloorRing α] (M : MathFns α) (sampleRate : α)
    (p : LimiterProcessor α) (f : α × α) :
    runSamples M sampleRate p [f]
      = ((stepSample M sampleRate p f).1, [(stepSample M sampleRate p f).2]) := rfl

/-! ## Metering -/

theorem maxAbs_nil : maxAbs ([] : List α) = 0 := rfl

theorem maxAbs_cons (x : α) (l : List α) : maxAbs (x :: l) = max |x| (maxAbs l) := rfl

theorem maxAbs_nonneg (l : List α) : 0 ≤ maxAbs l := by
  cases l with
  | nil => exact le_of_eq rfl
  | cons x l => exact le_trans (abs_nonneg x) (le_max_left _ _)

theorem maxAbs_append (l₁ l₂ : List α) : maxAbs (l₁ ++ l₂) = max (maxAbs l₁) (maxAbs l₂) := by
  induction l₁ with
  | nil => rw [List.nil_append, maxAbs_nil, max_eq_right (maxAbs_nonneg l₂)]
  | cons x l ih => rw [List.cons_append, maxAbs_cons, maxAbs_cons, ih, max_assoc]

theorem maxAbs_eq_zero (l : List α) (h : ∀ x ∈ l, x = 0) : maxAbs l = 0 := by
  induction l with
  | nil => rfl
  | cons x l ih =>
    rw [maxAbs_cons, h x (List.mem_cons_self _ _), ih (fun y hy => h y (List.mem_cons_of_mem _ hy))]
    simp

theorem ite_gt_eq_max (a b : α) : (if b > a then b else a) = max a b := by
  split_ifs with h
  · exact (max_eq_right h.le).symm
  · exact (max_eq_left (not_lt.mp h)).symm

/-- The input-peak tracker of the sample loop (lines 100-101) computes a running maximum. -/
theorem foldl_inPeak (g : α × α → α) (fs : List (α × α)) :
    ∀ a : α, 0 ≤ a →
    fs.foldl (fun a f => if |g f| > a then |g f| else a) a = max a (maxAbs (fs.map g)) := by
  induction fs with
  | nil => intro a ha; simp [maxAbs_nil, ha]
  | cons f fs ih =>
    intro a ha
    rw [List.foldl_cons, ih _ (by rw [ite_gt_eq_max]; exact le_trans ha (le_max_left _ _)),
      ite_gt_eq_max, List.map_cons, maxAbs_cons, max_assoc]

/-- The output-peak tracker of the sample loop (lines 159-162) computes a running maximum over the
defined outputs. -/
theorem foldl_trackPeak (os : List (Option α)) :
    ∀ a : α, 0 ≤ a → os.foldl trackPeak a = max a (maxAbs os.reduceOption) := by
  induction os with
  | nil => intro a ha; simp [maxAbs_nil, ha]
  | cons o os ih =>
    intro a ha
    cases o with
    | none =>
      rw [List.foldl_cons, List.reduceOption_cons_of_none]
      exact ih a ha
    | some v =>
      rw [List.foldl_cons, List.reduceOption_cons_of_some, maxAbs_cons]
      show List.foldl trackPeak (if |v| > a then |v| else a) os = _
      rw [ih _ (by rw [ite_gt_eq_max]; exact le_trans ha (le_max_left _ _)), ite_gt_eq_max,
        max_assoc]

section meterloop
variable [FloorRing α] (M : MathFns α) (sampleRate : α)

/-- The block peaks after the sample loop: running maxima over the block's input frames and over
its output frames. -/
theorem sampleLoop_peaks (d : Int) (sat knee og dec : α) (fs : List (α × α)) :
    ∀ (p : LimiterProcessor α) (pk : BlockPeaks α) (acc : List (Option α × Option α)),
    d = delaySamples sampleRate p → sat = p.saturationLevel → knee = p.kneeWidth →
    og = outGainLin M p → dec = decay M sampleRate p →
    (sampleLoop M sampleRate d sat knee og dec p pk acc fs).2.1
      = { blockInPeakL := fs.foldl (fun a f => if |Prod.fst f| > a then |Prod.fst f| else a)
            pk.blockInPeakL
          blockInPeakR := fs.foldl (fun a f => if |Prod.snd f| > a then |Prod.snd f| else a)
            pk.blockInPeakR
          blockOutPeakL := ((runSamples M sampleRate p fs).2.map Prod.fst).foldl trackPeak
            pk.blockOutPeakL
          blockOutPeakR := ((runSamples M sampleRate p fs).2.map Prod.snd).foldl trackPeak
            pk.blockOutPeakR } := by
  induction fs with
  | nil => intro p pk acc _ _ _ _ _; simp [sampleLoop, runSamples]
  | cons f fs ih =>
    intro p pk acc hd hs hk ho hc
    obtain ⟨sL, sR⟩ := f
    have hfr := processSample_frame M sampleRate d sat knee og dec p pk sL sR
    have hco := processSample_consts M sampleRate d sat knee og dec p pk sL sR
    simp only at hfr hco
    have hstate : (stepSample M sampleRate p (sL, sR)).1
        = (processSample M sampleRate d sat knee og dec p pk sL sR).1 := by
      subst hd hs hk ho hc; rfl
    have hout : ((stepSample M sampleRate p (sL, sR)).2.1, (stepSample M sampleRate p (sL, sR)).2.2)
        = (processSample M sampleRate d sat knee og dec p pk sL sR).2.2 := by
      subst hd hs hk ho hc; rfl
    have := ih (processSample M sampleRate d sat knee og dec p pk sL sR).1
      (processSample M sampleRate d sat knee og dec p pk sL sR).2.1
      (((processSample M sampleRate d sat knee og dec p pk sL sR).2.2.1,
        (processSample M sampleRate d sat knee og dec p pk sL sR).2.2.2) :: acc)
      (by rw [hco.1]; exact hd) (by rw [hfr.1]; exact hs) (by rw [hfr.2.1]; exact hk)
      (by rw [hco.2.1]; exact ho) (by rw [hco.2.2]; exact hc)
    simp only [sampleLoop, runSamples]
    rw [this, hstate, hout]
    rfl

end meterloop

section meterblock
variable [FloorRing α] (M : MathFns α) (sampleRate : α)

theorem runSamples_meter (fs : List (α × α)) :
    ∀ p : LimiterProcessor α,
    (runSamples M sampleRate p fs).1.meterBlockCount = p.meterBlockCount ∧
    (runSamples M sampleRate p fs).1.inPeakL = p.inPeakL ∧
    (runSamples M sampleRate p fs).1.inPeakR = p.inPeakR ∧
    (runSamples M sampleRate p fs).1.outPeakL = p.outPeakL ∧
    (runSamples M sampleRate p fs).1.outPeakR = p.outPeakR := by
  induction fs with
  | nil => intro p; exact ⟨rfl, rfl, rfl, rfl, rfl⟩
  | cons f fs ih =>
    intro p
    obtain ⟨h1, h2, h3, h4, h5⟩ := @stepSample_meter _ _ _ M sampleRate p f
    obtain ⟨i1, i2, i3, i4, i5⟩ := ih (stepSample M sampleRate p f).1
    simp only [runSamples]
    exact ⟨i1.trans h1, i2.trans h2, i3.trans h3, i4.trans h4, i5.trans h5⟩

/-- A call of `process` on a live processor with a non-empty input: the sample-level run followed
by the meter update with the block's peaks. -/
theorem process_eq_updateMeter (p : LimiterProcessor α) (input : List (List α))
    (ha : p.alive = true) (hi : input ≠ []) :
    process M sampleRate p input
      = { state := (updateMeter M (runSamples M sampleRate p (blockFrames input)).1
            (blockPeaksOf (blockFrames input)
              (runSamples M sampleRate p (blockFrames input)).2)).1
          keepAlive := true
          out := (runSamples M sampleRate p (blockFrames input)).2
          posted := (updateMeter M (runSamples M sampleRate p (blockFrames input)).1
            (blockPeaksOf (blockFrames input)
              (runSamples M sampleRate p (blockFrames input)).2)).2 } := by
  have key : ∀ fs : List (α × α),
      (sampleLoop M sampleRate (delaySamples sampleRate p) p.saturationLevel p.kneeWidth
        (outGainLin M p) (decay M sampleRate p) p ⟨0, 0, 0, 0⟩ [] fs)
      = ((runSamples M sampleRate p fs).1,
         blockPeaksOf fs (runSamples M sampleRate p fs).2,
         (runSamples M sampleRate p fs).2) := by
    intro fs
    have h1 := sampleLoop_eq_runSamples M sampleRate _ _ _ _ _ fs p ⟨0, 0, 0, 0⟩ []
      rfl rfl rfl rfl rfl
    have h2 := sampleLoop_peaks M sampleRate _ _ _ _ _ fs p ⟨0, 0, 0, 0⟩ []
      rfl rfl rfl rfl rfl
    rw [foldl_inPeak Prod.fst fs 0 le_rfl, foldl_inPeak Prod.snd fs 0 le_rfl,
      foldl_trackPeak _ 0 le_rfl, foldl_trackPeak _ 0 le_rfl,
      max_eq_right (maxAbs_nonneg _), max_eq_right (maxAbs_nonneg _),
      max_eq_right (maxAbs_nonneg _), max_eq_right (maxAbs_nonneg _)] at h2
    refine Prod.ext h1.1 (Prod.ext ?_ ?_)
    · rw [h2]; rfl
    · rw [h1.2]; simp
  unfold process
  rw [ha]
  simp only [Bool.not_true, Bool.false_eq_true, if_false]
  match input, hi with
  | [inL], _ => simp only [blockFrames]; rw [key]
  | inL :: inR :: rest, _ => simp only [blockFrames]; rw [key]

end meterblock

section reports
variable [FloorRing α] (M : MathFns α) (sampleRate : α)

/-- When `process` posts a report: on a live processor with a non-empty input, exactly when the
block counter reaches 6. -/
theorem process_report (p : LimiterProcessor α) (input : List (List α))
    (ha : p.alive = true) (hi : input ≠ []) :
    ((process M sampleRate p input).posted.isSome = true ↔ p.meterBlockCount + 1 ≥ 6) ∧
    (process M sampleRate p input).state.meterBlockCount
      = (if p.meterBlockCount + 1 ≥ 6 then 0 else p.meterBlockCount + 1) ∧
    (process M sampleRate p input).out.length = (blockFrames input).length ∧
    (process M sampleRate p input).state.alive = true := by
  rw [process_eq_updateMeter M sampleRate p input ha hi]
  simp only []
  obtain ⟨h1, h2⟩ := updateMeter_count M (runSamples M sampleRate p (blockFrames input)).1
    (blockPeaksOf (blockFrames input) (runSamples M sampleRate p (blockFrames input)).2)
  rw [(runSamples_meter M sampleRate (blockFrames input) p).1] at h1 h2
  exact ⟨h2, h1, runSamples_length M sampleRate _ p,
    by rw [updateMeter_alive, runSamples_alive, ha]⟩

theorem runReports_positions (blocks : List (List (List α))) :
    ∀ (p : LimiterProcessor α) (n : Nat), p.alive = true → (∀ b ∈ blocks, b ≠ []) →
    (runReports M sampleRate p n blocks).map Prod.fst
      = blockCountPositions p.meterBlockCount n
          (blocks.map (fun b => (blockFrames b).length)) := by
  induction blocks with
  | nil => intro p n _ _; rfl
  | cons b bs ih =>
    intro p n ha hne
    obtain ⟨h1, h2, h3, h4⟩ := process_report M sampleRate p b ha
      (hne b (List.mem_cons_self _ _))
    have := ih (process M sampleRate p b).state (n + (process M sampleRate p b).out.length) h4
      (fun c hc => hne c (List.mem_cons_of_mem _ hc))
    simp only [runReports, List.map_cons, List.map_append, blockCountPositions]
    rw [this, h2, h3]
    by_cases hc : p.meterBlockCount + 1 ≥ 6
    · rw [if_pos hc, if_pos hc]
      obtain ⟨rep, hrep⟩ := Option.isSome_iff_exists.mp (h1.mpr hc)
      rw [hrep]
      simp [h3]
    · rw [if_neg hc, if_neg hc]
      have hnone : (process M sampleRate p b).posted = none := by
        cases hp : (process M sampleRate p b).posted with
        | none => rfl
        | some rep => exact absurd (h1.mp (by rw [hp]; rfl)) hc
      rw [hnone]
      simp

theorem blockFrames_replicate (n : Nat) (a b : α) :
    blockFrames [List.replicate n a, List.replicate n b] = List.replicate n (a, b) := by
  simp only [blockFrames, List.zip_replicate, min_self]

theorem inputFrames_cons (b : List (List α)) (bs : List (List (List α))) :
    inputFrames (b :: bs) = blockFrames b ++ inputFrames bs := by
  simp [inputFrames]

theorem inputFrames_replicate (k n : Nat) (a b : α) :
    inputFrames (List.replicate k [List.replicate n a, List.replicate n b])
      = List.replicate (k * n) (a, b) := by
  induction k with
  | zero => simp [inputFrames]
  | succ k ih =>
    rw [List.replicate_succ, inputFrames_cons, ih, blockFrames_replicate,
      List.append_replicate_replicate]
    congr 1
    ring

end reports

theorem updateMeter_spec (M : MathFns α) (q : LimiterProcessor α) (pk : BlockPeaks α) :
    (q.meterBlockCount + 1 ≥ 6 →
      (updateMeter M q pk).2
        = some { inL := toDb M (max q.inPeakL pk.blockInPeakL)
                 inR := toDb M (max q.inPeakR pk.blockInPeakR)
                 outL := toDb M (max q.outPeakL pk.blockOutPeakL)
                 outR := toDb M (max q.outPeakR pk.blockOutPeakR) } ∧
      (updateMeter M q pk).1.inPeakL = 0 ∧ (updateMeter M q pk).1.inPeakR = 0 ∧
      (updateMeter M q pk).1.outPeakL = 0 ∧ (updateMeter M q pk).1.outPeakR = 0) ∧
    (¬ q.meterBlockCount + 1 ≥ 6 →
      (updateMeter M q pk).2 = none ∧
      (updateMeter M q pk).1.inPeakL = max q.inPeakL pk.blockInPeakL ∧
      (updateMeter M q pk).1.inPeakR = max q.inPeakR pk.blockInPeakR ∧
      (updateMeter M q pk).1.outPeakL = max q.outPeakL pk.blockOutPeakL ∧
      (updateMeter M q pk).1.outPeakR = max q.outPeakR pk.blockOutPeakR) := by
  refine ⟨fun h => ?_, fun h => ?_⟩
  · simp only [updateMeter, if_pos h, ite_gt_eq_max, and_self]
  · simp only [updateMeter, if_neg h, ite_gt_eq_max, and_self]

section metercall
variable [FloorRing α] (M : MathFns α) (sampleRate : α)

/-- What a call of `process` does to the meter.  `wi'`, `wo'` are the frames of this block. -/
theorem process_meter (p : LimiterProcessor α) (input : List (List α))
    (ha : p.alive = true) (hi : input ≠ []) :
    (p.meterBlockCount + 1 ≥ 6 →
      (process M sampleRate p input).posted
        = some { inL := toDb M (max p.inPeakL (maxAbs ((blockFrames input).map Prod.fst)))
                 inR := toDb M (max p.inPeakR (maxAbs ((blockFrames input).map Prod.snd)))
                 outL := toDb M (max p.outPeakL
                   (maxAbs ((process M sampleRate p input).out.map Prod.fst).reduceOption))
                 outR := toDb M (max p.outPeakR
                   (maxAbs ((process M sampleRate p input).out.map Prod.snd).reduceOption)) } ∧
      (process M sampleRate p input).state.inPeakL = 0 ∧
      (process M sampleRate p input).state.inPeakR = 0 ∧
      (process M sampleRate p input).state.outPeakL = 0 ∧
      (process M sampleRate p input).state.outPeakR = 0) ∧
    (¬ p.meterBlockCount + 1 ≥ 6 →
      (process M sampleRate p input).posted = none ∧
      (process M sampleRate p input).state.inPeakL
        = max p.inPeakL (maxAbs ((blockFrames input).map Prod.fst)) ∧
      (process M sampleRate p input).state.inPeakR
        = max p.inPeakR (maxAbs ((blockFrames input).map Prod.snd)) ∧
      (process M sampleRate p input).state.outPeakL
        = max p.outPeakL
            (maxAbs ((process M sampleRate p input).out.map Prod.fst).reduceOption) ∧
      (process M sampleRate p input).state.outPeakR
        = max p.outPeakR
            (maxAbs ((process M sampleRate p input).out.map Prod.snd).reduceOption)) := by
  obtain ⟨c, iL, iR, oL, oR⟩ := runSamples_meter M sampleRate (blockFrames input) p
  have hs := updateMeter_spec M (runSamples M sampleRate p (blockFrames input)).1
    (blockPeaksOf (blockFrames input) (runSamples M sampleRate p (blockFrames input)).2)
  rw [c, iL, iR, oL, oR] at hs
  rw [process_eq_updateMeter M sampleRate p input ha hi]
  exact hs

theorem process_idle (p : LimiterProcessor α) (input : List (List α))
    (h : p.alive = false ∨ input = []) :
    process M sampleRate p input
      = { state := p, keepAlive := p.alive, out := [], posted := none } := by
  rcases h with h | h
  · simp [process, h]
  · subst h
    cases ha : p.alive <;> simp [process, ha]

end metercall

section meterinv
variable [FloorRing α] {M : MathFns α} {sampleRate : α}

/-- The meter accumulators are the maxima over the measurement window. -/
theorem MeterReach.inv {wi : List (α × α)} {wo : List (Option α × Option α)}
    {p : LimiterProcessor α} (h : MeterReach M sampleRate wi wo p) :
    p.inPeakL = maxAbs (wi.map Prod.fst) ∧ p.inPeakR = maxAbs (wi.map Prod.snd) ∧
    p.outPeakL = maxAbs (wo.map Prod.fst).reduceOption ∧
    p.outPeakR = maxAbs (wo.map Prod.snd).reduceOption := by
  induction h with
  | init => exact ⟨rfl, rfl, rfl, rfl⟩
  | msg m _ ih =>
    obtain ⟨-, -, -, -, e1, e2, e3, e4⟩ := onmessage_envState _ m
    rw [e1, e2, e3, e4]
    exact ih
  | @quiet wi wo p input _ hq ih =>
    by_cases hidle : p.alive = false ∨ input = []
    · rw [process_idle M sampleRate p input hidle]
      have e : (if p.alive = true then blockFrames input else []) = [] := by
        rcases hidle with h | h
        · simp [h]
        · subst h; simp [blockFrames]
      simp only [e, List.append_nil]
      exact ih
    · have ha : p.alive = true := by
        cases hp : p.alive
        · exact absurd (Or.inl hp) hidle
        · rfl
      have hi : input ≠ [] := fun h => hidle (Or.inr h)
      obtain ⟨h6, hn6⟩ := process_meter M sampleRate p input ha hi
      have hc : ¬ p.meterBlockCount + 1 ≥ 6 := by
        intro hc
        rw [(h6 hc).1] at hq
        exact Option.noConfusion hq
      obtain ⟨-, a1, a2, a3, a4⟩ := hn6 hc
      obtain ⟨i1, i2, i3, i4⟩ := ih
      rw [if_pos ha, a1, a2, a3, a4, i1, i2, i3, i4]
      simp only [List.map_append, List.reduceOption_append, maxAbs_append, and_self]
  | @report wi wo p input rep _ hr _ =>
    by_cases hidle : p.alive = false ∨ input = []
    · rw [process_idle M sampleRate p input hidle] at hr
      exact Option.noConfusion hr
    · have ha : p.alive = true := by
        cases hp : p.alive
        · exact absurd (Or.inl hp) hidle
        · rfl
      have hi : input ≠ [] := fun h => hidle (Or.inr h)
      obtain ⟨h6, hn6⟩ := process_meter M sampleRate p input ha hi
      have hc : p.meterBlockCount + 1 ≥ 6 := by
        by_contra hc
        rw [(hn6 hc).1] at hr
        exact Option.noConfusion hr
      obtain ⟨-, a1, a2, a3, a4⟩ := h6 hc
      rw [a1, a2, a3, a4]
      exact ⟨rfl, rfl, rfl, rfl⟩

end meterinv

/-- Over the reals the `isFinite` check of `toDb` always passes. -/
theorem toDb_jsMath (v : ℝ) : toDb jsMath v = 20 * jsMath.log10 (max v 0.00001) := by
  simp only [toDb, jsMath, if_true]

theorem toDb_ge (v : ℝ) : -100 ≤ toDb jsMath v := by
  rw [toDb_jsMath]
  have h := jsMath_log10_le (by norm_num : (0 : ℝ) < 0.00001) (le_max_right v 0.00001)
  rw [jsMath_log10_floor] at h
  linarith

/-! ## Silence -/

theorem toDb_zero : toDb jsMath 0 = -100 := by
  rw [toDb_jsMath]
  rw [max_eq_right (by norm_num), jsMath_log10_floor]
  norm_num

theorem blockFrames_zero (b : List (List α)) (h : ∀ ch ∈ b, ∀ x ∈ ch, x = 0) :
    ∀ f ∈ blockFrames b, f = (0, 0) := by
  intro f hf
  match b, h with
  | [], _ => simp [blockFrames] at hf
  | [inL], h =>
    simp only [blockFrames] at hf
    obtain ⟨h1, h2⟩ := List.of_mem_zip (a := f.1) (b := f.2) hf
    exact Prod.ext (h inL (List.mem_cons_self _ _) _ h1) (h inL (List.mem_cons_self _ _) _ h2)
  | inL :: inR :: rest, h =>
    simp only [blockFrames] at hf
    obtain ⟨h1, h2⟩ := List.of_mem_zip (a := f.1) (b := f.2) hf
    exact Prod.ext (h inL (List.mem_cons_self _ _) _ h1)
      (h inR (List.mem_cons_of_mem _ (List.mem_cons_self _ _)) _ h2)

section silence
variable [FloorRing α] (M : MathFns α) (sampleRate : α)

/-- With only silence in the ring and in the input, every output frame is silence. -/
theorem runSamples_silent {cap : Int} {hist : List (α × α)} {p : LimiterProcessor α}
    (h : RingInv cap hist p) (hz : ∀ f ∈ hist, f = (0, 0)) (fs : List (α × α))
    (hf : ∀ f ∈ fs, f = (0, 0)) :
    ∀ o ∈ (runSamples M sampleRate p fs).2, o = (some 0, some 0) := by
  intro o ho
  obtain ⟨n, hn, hget⟩ := List.getElem_of_mem ho
  have hn' : n < fs.length := by rwa [runSamples_length] at hn
  have hout := runSamples_out_at M sampleRate h fs n hn'
  rw [List.getElem?_eq_getElem hn, hget] at hout
  have hx : ((fs.take (n + 1)).reverse ++ hist).getD (delaySamples sampleRate p).toNat (0, 0)
      = (0, 0) := by
    rw [List.getD_eq_getElem?_getD]
    cases hg : ((fs.take (n + 1)).reverse ++ hist)[(delaySamples sampleRate p).toNat]? with
    | none => rfl
    | some x =>
      have hmem := List.getElem?_mem hg
      rcases List.mem_append.mp hmem with hm | hm
      · exact hf x (List.mem_of_mem_take (List.mem_reverse.mp hm))
      · exact hz x hm
  rw [hx] at hout
  have := Option.some.inj hout
  rw [this]
  simp

end silence

theorem maxAbs_reduceOption_zero (os : List (Option α × Option α))
    (h : ∀ o ∈ os, o = (some 0, some 0)) :
    maxAbs (os.map Prod.fst).reduceOption = 0 ∧ maxAbs (os.map Prod.snd).reduceOption = 0 := by
  constructor
  · apply maxAbs_eq_zero
    intro x hx
    rw [List.reduceOption_mem_iff] at hx
    obtain ⟨o, ho, he⟩ := List.mem_map.mp hx
    rw [h o ho] at he
    exact (Option.some.inj he).symm
  · apply maxAbs_eq_zero
    intro x hx
    rw [List.reduceOption_mem_iff] at hx
    obtain ⟨o, ho, he⟩ := List.mem_map.mp hx
    rw [h o ho] at he
    exact (Option.some.inj he).symm

theorem maxAbs_frames_zero (fs : List (α × α)) (h : ∀ f ∈ fs, f = (0, 0)) :
    maxAbs (fs.map Prod.fst) = 0 ∧ maxAbs (fs.map Prod.snd) = 0 := by
  constructor
  · apply maxAbs_eq_zero
    intro x hx
    obtain ⟨f, hf, he⟩ := List.mem_map.mp hx
    rw [h f hf] at he
    exact he.symm
  · apply maxAbs_eq_zero
    intro x hx
    obtain ⟨f, hf, he⟩ := List.mem_map.mp hx
    rw [h f hf] at he
    exact he.symm

/-- One call of `process` on a silent block, from a live state with silent ring and zero meter
accumulators: silent output, a report (if any) of `-100` dB on all channels, and a state of the
same kind. -/
theorem process_silent (sampleRate : ℝ) {cap : Int} {hist : List (ℝ × ℝ)}
    {p : LimiterProcessor ℝ} (hinv : RingInv cap hist p) (hz : ∀ f ∈ hist, f = (0, 0))
    (ha : p.alive = true)
    (hm : p.inPeakL = 0 ∧ p.inPeakR = 0 ∧ p.outPeakL = 0 ∧ p.outPeakR = 0)
    (b : List (List ℝ)) (hb : ∀ ch ∈ b, ∀ x ∈ ch, x = 0) :
    (∀ o ∈ (process jsMath sampleRate p b).out, o = (some 0, some 0)) ∧
    (∀ rep, (process jsMath sampleRate p b).posted = some rep →
      rep = { inL := -100, inR := -100, outL := -100, outR := -100 }) ∧
    RingInv cap ((blockFrames b).reverse ++ hist) (process jsMath sampleRate p b).state ∧
    (∀ f ∈ (blockFrames b).reverse ++ hist, f = (0, 0)) ∧
    (process jsMath sampleRate p b).state.alive = true ∧
    ((process jsMath sampleRate p b).state.inPeakL = 0 ∧
      (process jsMath sampleRate p b).state.inPeakR = 0 ∧
      (process jsMath sampleRate p b).state.outPeakL = 0 ∧
      (process jsMath sampleRate p b).state.outPeakR = 0) := by
  have hfz := blockFrames_zero b hb
  have hhist : ∀ f ∈ (blockFrames b).reverse ++ hist, f = (0, 0) := by
    intro f hf
    rcases List.mem_append.mp hf with h | h
    · exact hfz f (List.mem_reverse.mp h)
    · exact hz f h
  by_cases hi : b = []
  · subst hi
    rw [process_idle jsMath sampleRate p [] (Or.inr rfl)]
    refine ⟨fun o ho => by simp at ho, fun rep hrep => Option.noConfusion hrep, ?_, hhist, ha, hm⟩
    simpa [blockFrames] using hinv
  · obtain ⟨h1, -, h3, h4⟩ := process_eq_runSamples jsMath sampleRate p b ha
    obtain ⟨pk, hpk⟩ := h4 hi
    have houts : ∀ o ∈ (process jsMath sampleRate p b).out, o = (some 0, some 0) := by
      rw [h1]
      exact runSamples_silent jsMath sampleRate hinv hz _ hfz
    have hring : RingInv cap ((blockFrames b).reverse ++ hist)
        (process jsMath sampleRate p b).state := by
      rw [hpk]
      obtain ⟨e1, e2, e3, e4⟩ := updateMeter_ring jsMath
        (runSamples jsMath sampleRate p (blockFrames b)).1 pk
      exact (runSamples_ringInv jsMath sampleRate (blockFrames b) hinv).congr e1 e2 e3 e4
    obtain ⟨z1, z2⟩ := maxAbs_frames_zero _ hfz
    obtain ⟨z3, z4⟩ := maxAbs_reduceOption_zero _ houts
    obtain ⟨m1, m2, m3, m4⟩ := hm
    obtain ⟨h6, hn6⟩ := process_meter jsMath sampleRate p b ha hi
    rw [m1, m2, m3, m4, z1, z2, z3, z4, max_self, toDb_zero] at h6
    rw [m1, m2, m3, m4, z1, z2, z3, z4, max_self] at hn6
    refine ⟨houts, ?_, hring, hhist, h3, ?_⟩
    · intro rep hrep
      by_cases hc : p.meterBlockCount + 1 ≥ 6
      · rw [(h6 hc).1] at hrep
        exact (Option.some.inj hrep).symm
      · rw [(hn6 hc).1] at hrep
        exact Option.noConfusion hrep
    · by_cases hc : p.meterBlockCount + 1 ≥ 6
      · exact (h6 hc).2
      · exact (hn6 hc).2

theorem silent_run (sampleRate : ℝ) {cap : Int} (blocks : List (List (List ℝ))) :
    ∀ (p : LimiterProcessor ℝ) (n : Nat) (hist : List (ℝ × ℝ)), RingInv cap hist p →
    (∀ f ∈ hist, f = (0, 0)) → p.alive = true →
    (p.inPeakL = 0 ∧ p.inPeakR = 0 ∧ p.outPeakL = 0 ∧ p.outPeakR = 0) →
    (∀ b ∈ blocks, ∀ ch ∈ b, ∀ x ∈ ch, x = 0) →
    (∀ o ∈ (runBlocks jsMath sampleRate p blocks).2, o = (some 0, some 0)) ∧
    (∀ rp ∈ runReports jsMath sampleRate p n blocks,
      rp.2 = { inL := -100, inR := -100, outL := -100, outR := -100 }) := by
  induction blocks with
  | nil =>
    intro p n hist _ _ _ _ _
    exact ⟨fun o ho => by simp [runBlocks] at ho, fun rp hrp => by simp [runReports] at hrp⟩
  | cons b bs ih =>
    intro p n hist hinv hz ha hm hin
    obtain ⟨s1, s2, s3, s4, s5, s6⟩ := process_silent sampleRate hinv hz ha hm b
      (hin b (List.mem_cons_self _ _))
    obtain ⟨i1, i2⟩ := ih (process jsMath sampleRate p b).state
      (n + (process jsMath sampleRate p b).out.length) _ s3 s4 s5 s6
      (fun c hc => hin c (List.mem_cons_of_mem _ hc))
    refine ⟨?_, ?_⟩
    · intro o ho
      simp only [runBlocks] at ho
      rcases List.mem_append.mp ho with h | h
      · exact s1 o h
      · exact i1 o h
    · intro rp hrp
      simp only [runReports] at hrp
      rcases List.mem_append.mp hrp with h | h
      · cases hp : (process jsMath sampleRate p b).posted with
        | none => rw [hp] at h; simp at h
        | some rep =>
          rw [hp] at h
          simp only [List.mem_singleton] at h
          rw [h]
          exact s2 rep hp
      · exact i2 rp h

/-- A ring that has only been written with silence holds only silence. -/
theorem RingInv.silent {cap : Int} {hist : List (α × α)} {p : LimiterProcessor α}
    (h : RingInv cap hist p) (hz : ∀ f ∈ hist, f = (0, 0)) :
    (∀ x ∈ p.ringL, x = 0) ∧ (∀ x ∈ p.ringR, x = 0) := by
  obtain ⟨hc, -, hlL, hlR, -, hring⟩ := h
  have key : ∀ i : Nat, i < cap.toNat →
      ringGet p.ringL (i : Int) = some 0 ∧ ringGet p.ringR (i : Int) = some 0 := by
    intro i hi
    have hj0 := Int.emod_nonneg ((hist.length : Int) - 1 - i) hc.ne'
    have hj1 := Int.emod_lt_of_pos ((hist.length : Int) - 1 - i) hc
    have hpos : ((hist.length : Int) - 1
        - ((((hist.length : Int) - 1 - i) % cap).toNat : Int)) % cap = (i : Int) := by
      rw [Int.toNat_of_nonneg hj0, Int.sub_emod, Int.emod_emod, ← Int.sub_emod]
      have e : (hist.length : Int) - 1 - ((hist.length : Int) - 1 - i) = (i : Int) := by ring
      rw [e]
      exact Int.emod_eq_of_lt (by omega) (by omega)
    have := hring (((hist.length : Int) - 1 - i) % cap).toNat (by omega)
    rw [hpos] at this
    have z1 : (hist.map Prod.fst).getD (((hist.length : Int) - 1 - i) % cap).toNat 0 = 0 := by
      rw [List.getD_eq_getElem?_getD]
      cases hg : (hist.map Prod.fst)[(((hist.length : Int) - 1 - i) % cap).toNat]? with
      | none => rfl
      | some x =>
        obtain ⟨f, hf, he⟩ := List.mem_map.mp (List.getElem?_mem hg)
        rw [hz f hf] at he
        exact he.symm
    have z2 : (hist.map Prod.snd).getD (((hist.length : Int) - 1 - i) % cap).toNat 0 = 0 := by
      rw [List.getD_eq_getElem?_getD]
      cases hg : (hist.map Prod.snd)[(((hist.length : Int) - 1 - i) % cap).toNat]? with
      | none => rfl
      | some x =>
        obtain ⟨f, hf, he⟩ := List.mem_map.mp (List.getElem?_mem hg)
        rw [hz f hf] at he
        exact he.symm
    rw [z1, z2] at this
    exact this
  constructor
  · intro x hx
    obtain ⟨i, hi, hget⟩ := List.getElem_of_mem hx
    have := (key i (by omega)).1
    simp only [ringGet, Int.toNat_natCast, Int.natCast_nonneg, if_true] at this
    rw [List.getElem?_eq_getElem hi, hget] at this
    exact Option.some.inj this
  · intro x hx
    obtain ⟨i, hi, hget⟩ := List.getElem_of_mem hx
    have := (key i (by omega)).2
    simp only [ringGet, Int.toNat_natCast, Int.natCast_nonneg, if_true] at this
    rw [List.getElem?_eq_getElem hi, hget] at this
    exact Option.some.inj this

theorem inputFrames_zero (blocks : List (List (List α)))
    (h : ∀ b ∈ blocks, ∀ ch ∈ b, ∀ x ∈ ch, x = 0) : ∀ f ∈ inputFrames blocks, f = (0, 0) := by
  intro f hf
  simp only [inputFrames, List.mem_flatten, List.mem_map] at hf
  obtain ⟨l, ⟨b, hb, rfl⟩, hfl⟩ := hf
  exact blockFrames_zero b (h b hb) f hfl

/-- The state after a silent run: silent rings and zero meter accumulators. -/
theorem silent_run_state (sampleRate : ℝ) {cap : Int} (blocks : List (List (List ℝ))) :
    ∀ (p : LimiterProcessor ℝ) (hist : List (ℝ × ℝ)), RingInv cap hist p →
    (∀ f ∈ hist, f = (0, 0)) → p.alive = true →
    (p.inPeakL = 0 ∧ p.inPeakR = 0 ∧ p.outPeakL = 0 ∧ p.outPeakR = 0) →
    (∀ b ∈ blocks, ∀ ch ∈ b, ∀ x ∈ ch, x = 0) →
    ((∀ x ∈ (runBlocks jsMath sampleRate p blocks).1.ringL, x = 0) ∧
      (∀ x ∈ (runBlocks jsMath sampleRate p blocks).1.ringR, x = 0)) ∧
    ((runBlocks jsMath sampleRate p blocks).1.inPeakL = 0 ∧
      (runBlocks jsMath sampleRate p blocks).1.inPeakR = 0 ∧
      (runBlocks jsMath sampleRate p blocks).1.outPeakL = 0 ∧
      (runBlocks jsMath sampleRate p blocks).1.outPeakR = 0) := by
  induction blocks with
  | nil =>
    intro p hist hinv hz _ hm _
    exact ⟨hinv.silent hz, hm⟩
  | cons b bs ih =>
    intro p hist hinv hz ha hm hin
    obtain ⟨-, -, s3, s4, s5, s6⟩ := process_silent sampleRate hinv hz ha hm b
      (hin b (List.mem_cons_self _ _))
    exact ih (process jsMath sampleRate p b).state _ s3 s4 s5 s6
      (fun c hc => hin c (List.mem_cons_of_mem _ hc))

/-- No sequence of port messages touches the envelope state, the rings or the meter window. -/
theorem foldl_onmessage_state [FloorRing α] (ms : List (Msg α)) :
    ∀ p : LimiterProcessor α,
    (ms.foldl onmessage p).envelope = p.envelope ∧
    (ms.foldl onmessage p).holdTimer = p.holdTimer ∧
    (ms.foldl onmessage p).peakRate = p.peakRate ∧
    (ms.foldl onmessage p).ringL = p.ringL ∧
    (ms.foldl onmessage p).ringR = p.ringR ∧
    (ms.foldl onmessage p).writeIndex = p.writeIndex ∧
    (ms.foldl onmessage p).inPeakL = p.inPeakL ∧
    (ms.foldl onmessage p).inPeakR = p.inPeakR ∧
    (ms.foldl onmessage p).outPeakL = p.outPeakL ∧
    (ms.foldl onmessage p).outPeakR = p.outPeakR ∧
    (ms.foldl onmessage p).meterBlockCount = p.meterBlockCount := by
  induction ms with
  | nil => intro p; exact ⟨rfl, rfl, rfl, rfl, rfl, rfl, rfl, rfl, rfl, rfl, rfl⟩
  | cons m ms ih =>
    intro p
    obtain ⟨a1, a2, a3, a4, a5, a6, a7, a8, a9, a10, a11⟩ := ih (onmessage p m)
    obtain ⟨b1, b2, b3, b4, b5, b6, b7, b8⟩ := onmessage_envState p m
    obtain ⟨-, c2, c3, c4⟩ := onmessage_ring p m
    simp only [List.foldl_cons]
    exact ⟨a1.trans b1, a2.trans b2, a3.trans b3, a4.trans c2, a5.trans c3, a6.trans c4,
      a7.trans b5, a8.trans b6, a9.trans b7, a10.trans b8, a11.trans b4⟩

/-! ## Monotonicity of the static curve and the popup's plot -/

theorem gainReductionDb_mono_out (sat knee : α) {a b : α} (h : a ≤ b) :
    a + gainReductionDb sat knee a ≤ b + gainReductionDb sat knee b := by
  by_cases hk : knee ≤ 0
  · simp only [gainReductionDb, hk, true_or, if_true]
    split_ifs with h1 h2 h2 <;> linarith
  · have hk0 : 0 < knee := not_le.mp hk
    have hin : ∀ l : α, ¬ l < sat - knee / 2 → ¬ l > sat + knee / 2 →
        l + gainReductionDb sat knee l
          = sat - (sat + knee / 2 - l) * (sat + knee / 2 - l) / (2 * knee) := by
      intro l h1 h2
      simp only [gainReductionDb, hk, false_or, if_neg h1, if_neg h2]
      field_simp
      ring
    have hlo : ∀ l : α, l < sat - knee / 2 → l + gainReductionDb sat knee l = l := by
      intro l h1
      have : ¬ l > sat := by
        intro h2
        linarith
      simp only [gainReductionDb, hk, false_or, if_pos h1, if_neg this, add_zero]
    have hhi : ∀ l : α, l > sat + knee / 2 → l + gainReductionDb sat knee l = sat := by
      intro l h2
      have h1 : ¬ l < sat - knee / 2 := by
        intro h1
        linarith
      simp only [gainReductionDb, hk, false_or, if_neg h1, if_pos h2]
      ring
    have hsq : ∀ l : α, ¬ l < sat - knee / 2 → ¬ l > sat + knee / 2 →
        sat - knee / 2 ≤ sat - (sat + knee / 2 - l) * (sat + knee / 2 - l) / (2 * knee) ∧
        sat - (sat + knee / 2 - l) * (sat + knee / 2 - l) / (2 * knee) ≤ sat := by
      intro l h1 h2
      have h1 := not_lt.mp h1
      have h2 := not_lt.mp h2
      have e : (sat + knee / 2 - l) * (sat + knee / 2 - l) / (2 * knee) ≤ knee / 2 := by
        rw [div_le_iff₀ (by linarith)]
        nlinarith
      have e0 : 0 ≤ (sat + knee / 2 - l) * (sat + knee / 2 - l) / (2 * knee) :=
        div_nonneg (mul_self_nonneg _) (by linarith)
      exact ⟨by linarith, by linarith⟩
    by_cases a1 : a < sat - knee / 2
    · rw [hlo a a1]
      by_cases b1 : b < sat - knee / 2
      · rw [hlo b b1]
        exact h
      · by_cases b2 : b > sat + knee / 2
        · rw [hhi b b2]
          linarith
        · rw [hin b b1 b2]
          linarith [(hsq b b1 b2).1]
    · by_cases a2 : a > sat + knee / 2
      · have b2 : b > sat + knee / 2 := lt_of_lt_of_le a2 h
        rw [hhi a a2, hhi b b2]
      · rw [hin a a1 a2]
        have b1 : ¬ b < sat - knee / 2 := fun hb => a1 (lt_of_le_of_lt h hb)
        by_cases b2 : b > sat + knee / 2
        · rw [hhi b b2]
          exact (hsq a a1 a2).2
        · rw [hin b b1 b2]
          have ha1 := not_lt.mp a1
          have hb2 := not_lt.mp b2
          have : (sat + knee / 2 - b) * (sat + knee / 2 - b)
              ≤ (sat + knee / 2 - a) * (sat + knee / 2 - a) := by
            nlinarith
          have := div_le_div_of_nonneg_right this (show (0 : α) ≤ 2 * knee by linarith)
          linarith

theorem gainReductionDb_transparent (sat knee l : α) (h : l ≤ sat - max knee 0 / 2) :
    gainReductionDb sat knee l = 0 := by
  by_cases hk : knee ≤ 0
  · rw [max_eq_right hk] at h
    have : ¬ l > sat := by
      intro h2
      linarith
    simp only [gainReductionDb, hk, true_or, if_true, if_neg this]
  · have hk0 : 0 < knee := not_le.mp hk
    rw [max_eq_left hk0.le] at h
    rcases lt_or_eq_of_le h with h1 | h1
    · have : ¬ l > sat := by
        intro h2
        linarith
      simp only [gainReductionDb, hk, false_or, if_pos h1, if_neg this]
    · have n1 : ¬ l < sat - knee / 2 := by rw [h1]; exact lt_irrefl _
      have n2 : ¬ l > sat + knee / 2 := by
        intro h2
        linarith
      simp only [gainReductionDb, hk, false_or, if_neg n1, if_neg n2]
      rw [h1]
      simp

/-- The popup plots the worklet's curve: level plus reduction plus make-up gain, capped at 0 dB. -/
theorem transferOut_eq (sat knee gain inDb : α) :
    transferOut sat knee gain inDb = min (inDb + gainReductionDb sat knee inDb + gain) 0 := by
  unfold transferOut gainReductionDb
  simp only []
  congr 2
  by_cases c1 : knee ≤ 0 ∨ inDb < sat - knee / 2
  · rw [if_pos c1, if_pos c1]
    rcases lt_trichotomy inDb sat with c2 | c2 | c2
    · rw [if_pos c2, if_neg (not_lt.mpr c2.le), add_zero]
    · rw [if_neg (not_lt.mpr c2.ge), if_neg (not_lt.mpr c2.le), add_zero, c2]
    · rw [if_neg (not_lt.mpr c2.le), if_pos c2]
      ring
  · rw [if_neg c1, if_neg c1]
    by_cases c2 : inDb > sat + knee / 2
    · rw [if_pos c2, if_pos c2]
      ring
    · rw [if_neg c2, if_neg c2]
      ring

/-! ## One call of `process` seen from outside -/

section processcall
variable [FloorRing α] (M : MathFns α) (sampleRate : α)

theorem onmessage_other (p : LimiterProcessor α) : onmessage p Msg.other = p := rfl

/-- The envelope state after a call of `process` on a live processor is that of the sample-level
run over the block's frames. -/
theorem process_envState (p : LimiterProcessor α) (input : List (List α))
    (ha : p.alive = true) :
    (process M sampleRate p input).state.envelope
      = (runSamples M sampleRate p (blockFrames input)).1.envelope ∧
    (process M sampleRate p input).state.holdTimer
      = (runSamples M sampleRate p (blockFrames input)).1.holdTimer ∧
    (process M sampleRate p input).state.peakRate
      = (runSamples M sampleRate p (blockFrames input)).1.peakRate := by
  have h := (process_eq_runSamples M sampleRate p input ha).2.1
  exact ⟨congrArg (fun q => q.envelope) h, congrArg (fun q => q.holdTimer) h,
    congrArg (fun q => q.peakRate) h⟩

/-- The block constants are the same before and after a call of `process`. -/
theorem process_blockConsts (p : LimiterProcessor α) (input : List (List α)) :
    delaySamples sampleRate (process M sampleRate p input).state = delaySamples sampleRate p ∧
    outGainLin M (process M sampleRate p input).state = outGainLin M p ∧
    decay M sampleRate (process M sampleRate p input).state = decay M sampleRate p := by
  obtain ⟨h1, h2, h3, h4, h5, h6, h7, h8, h9⟩ := process_consts M sampleRate p input
  simp only [delaySamples, outGainLin, decay, recoveryMs, h1, h2, h3, h4, h5, h6, h7, h8, h9,
    and_self]

/-- The first output frame of a call of `process`: the frame `delaySamples` back in the history
(the block's first frame included) times the gain for the envelope after that first frame. -/
theorem process_first_out {cap : Int} {hist : List (α × α)} {p : LimiterProcessor α}
    (h : RingInv cap hist p) (ha : p.alive = true) (input : List (List α)) (f : α × α)
    (fs : List (α × α)) (hb : blockFrames input = f :: fs) :
    (process M sampleRate p input).out[0]?
      = some
        (some (((f :: hist).getD (delaySamples sampleRate p).toNat (0, 0)).1
            * gain M p.saturationLevel p.kneeWidth (outGainLin M p)
                (envelopeFollower sampleRate (decay M sampleRate p) p
                  (max |f.1| |f.2|)).envelope),
         some (((f :: hist).getD (delaySamples sampleRate p).toNat (0, 0)).2
            * gain M p.saturationLevel p.kneeWidth (outGainLin M p)
                (envelopeFollower sampleRate (decay M sampleRate p) p
                  (max |f.1| |f.2|)).envelope)) := by
  have hout := runSamples_out_at M sampleRate h (f :: fs) 0 (Nat.succ_pos _)
  have ht : (f :: fs).take (0 + 1) = [f] := by
    rw [Nat.zero_add, List.take_succ_cons, List.take_zero]
  have he : (runSamples M sampleRate p [f]).1.envelope
      = (envelopeFollower sampleRate (decay M sampleRate p) p (max |f.1| |f.2|)).envelope := rfl
  rw [ht, he, List.reverse_singleton, List.singleton_append] at hout
  rw [(process_eq_runSamples M sampleRate p input ha).1, hb]
  exact hout

end processcall

/-- The state after a run is the state after running the tail from the state after the head. -/
theorem runSamples_cons_fst [FloorRing α] (M : MathFns α) (sampleRate : α)
    (p : LimiterProcessor α) (f : α × α) (fs : List (α × α)) :
    (runSamples M sampleRate p (f :: fs)).1
      = (runSamples M sampleRate (stepSample M sampleRate p f).1 fs).1 := rfl

/-! ## Blocks inside one measurement window -/

/-- Blocks that do not bring the block counter to 6 post nothing and extend the measurement
window. -/
theorem MeterReach.quiet_run [FloorRing α] {M : MathFns α} {sampleRate : α}
    (blocks : List (List (List α))) :
    ∀ (wi : List (α × α)) (wo : List (Option α × Option α)) (p : LimiterProcessor α),
    MeterReach M sampleRate wi wo p → p.alive = true → (∀ b ∈ blocks, b ≠ []) →
    p.meterBlockCount + blocks.length < 6 →
    MeterReach M sampleRate (wi ++ inputFrames blocks)
      (wo ++ (runBlocks M sampleRate p blocks).2) (runBlocks M sampleRate p blocks).1 ∧
    (runBlocks M sampleRate p blocks).1.meterBlockCount = p.meterBlockCount + blocks.length ∧
    (runBlocks M sampleRate p blocks).1.alive = true := by
  induction blocks with
  | nil =>
    intro wi wo p h ha _ _
    simp only [inputFrames, runBlocks, List.map_nil, List.flatten_nil, List.append_nil,
      List.length_nil, Nat.add_zero]
    exact ⟨h, trivial, ha⟩
  | cons b bs ih =>
    intro wi wo p h ha hne hc
    have hb : b ≠ [] := hne b (List.mem_cons_self _ _)
    rw [List.length_cons] at hc
    have hc1 : ¬ p.meterBlockCount + 1 ≥ 6 := by omega
    obtain ⟨-, r2, -, r4⟩ := process_report M sampleRate p b ha hb
    rw [if_neg hc1] at r2
    have hq := MeterReach.quiet b h ((process_meter M sampleRate p b ha hb).2 hc1).1
    rw [if_pos ha] at hq
    obtain ⟨i1, i2, i3⟩ := ih _ _ _ hq r4 (fun c hcm => hne c (List.mem_cons_of_mem _ hcm))
      (by rw [r2]; omega)
    have e1 : (runBlocks M sampleRate p (b :: bs)).1
        = (runBlocks M sampleRate (process M sampleRate p b).state bs).1 := rfl
    have e2 : (runBlocks M sampleRate p (b :: bs)).2
        = (process M sampleRate p b).out
          ++ (runBlocks M sampleRate (process M sampleRate p b).state bs).2 := rfl
    rw [e1, e2, inputFrames_cons, ← List.append_assoc, ← List.append_assoc, i2, r2,
      List.length_cons]
    exact ⟨i1, by omega, i3⟩

theorem maxAbs_replicate (n : Nat) (x : α) : maxAbs (List.replicate (n + 1) x) = |x| := by
  induction n with
  | zero =>
    rw [List.replicate_succ, List.replicate_zero, maxAbs_cons, maxAbs_nil,
      max_eq_left (abs_nonneg x)]
  | succ n ih => rw [List.replicate_succ, maxAbs_cons, ih, max_self]

/-! ## Overflow of the make-up gain -/

theorem overflowBound_gt : (10 : ℝ) ^ (300 : ℕ) < overflowBound := by
  unfold overflowBound
  norm_num

theorem overflowBound_le : overflowBound ≤ (10 : ℝ) ^ (350 : ℕ) := by
  unfold overflowBound
  norm_num

theorem overflowBound_pos : 0 < overflowBound :=
  lt_trans (by positivity) overflowBound_gt

theorem JsNumber.ofExact_finite {x : ℝ} (h1 : -overflowBound < x) (h2 : x < overflowBound) :
    JsNumber.ofExact x = JsNumber.finite x := by
  unfold JsNumber.ofExact
  rw [if_neg (not_le.mpr h2), if_neg (not_le.mpr h1)]

theorem JsNumber.ofExact_posInf {x : ℝ} (h : overflowBound ≤ x) :
    JsNumber.ofExact x = JsNumber.posInf := by
  unfold JsNumber.ofExact
  rw [if_pos h]

/-- A power of ten with an exponent of at most 300 is finite. -/
theorem mathPow10_finite {x : ℝ} (h : x ≤ 300) : mathPow10 x = JsNumber.finite ((10 : ℝ) ^ x) := by
  have hpos : (0 : ℝ) < (10 : ℝ) ^ x := Real.rpow_pos_of_pos (by norm_num) x
  have hle : (10 : ℝ) ^ x ≤ (10 : ℝ) ^ (300 : ℕ) := by
    rw [← Real.rpow_natCast]
    exact Real.rpow_le_rpow_of_exponent_le (by norm_num) (by exact_mod_cast h)
  exact JsNumber.ofExact_finite (lt_trans (neg_lt_zero.mpr overflowBound_pos) hpos)
    (lt_of_le_of_lt hle overflowBound_gt)

/-- A power of ten with an exponent of at least 350 overflows. -/
theorem mathPow10_posInf {x : ℝ} (h : 350 ≤ x) : mathPow10 x = JsNumber.posInf := by
  apply JsNumber.ofExact_posInf
  refine le_trans overflowBound_le ?_
  rw [← Real.rpow_natCast]
  exact Real.rpow_le_rpow_of_exponent_le (by norm_num) (by exact_mod_cast h)

theorem JsNumber.zero_mul_finite (y : ℝ) :
    (JsNumber.finite 0).mul (JsNumber.finite y) = JsNumber.finite 0 := by
  show JsNumber.ofExact (0 * y) = JsNumber.finite 0
  rw [zero_mul]
  exact JsNumber.ofExact_finite (neg_lt_zero.mpr overflowBound_pos) overflowBound_pos

theorem JsNumber.zero_mul_posInf :
    (JsNumber.finite 0).mul JsNumber.posInf = JsNumber.nan := by
  show (if (0 : ℝ) = 0 then JsNumber.nan
    else if (0 : ℝ) < 0 then JsNumber.posInf else JsNumber.negInf) = JsNumber.nan
  rw [if_pos rfl]

/-- With an infinite make-up gain the gain is infinite, whatever the envelope. -/
theorem gainJs_posInf (sat knee envelope : ℝ) :
    gainJs sat knee JsNumber.posInf envelope = JsNumber.posInf := by
  have hgr := gainReductionDb_nonpos sat knee (envelopeDb jsMath envelope)
  have hpos : (0 : ℝ) < (10 : ℝ) ^ (gainReductionDb sat knee (envelopeDb jsMath envelope) / 20) :=
    Real.rpow_pos_of_pos (by norm_num) _
  unfold gainJs
  rw [mathPow10_finite (by linarith)]
  show (if (10 : ℝ) ^ (gainReductionDb sat knee (envelopeDb jsMath envelope) / 20) = 0
    then JsNumber.nan
    else if 0 < (10 : ℝ) ^ (gainReductionDb sat knee (envelopeDb jsMath envelope) / 20)
      then JsNumber.posInf else JsNumber.negInf) = JsNumber.posInf
  rw [if_neg hpos.ne', if_pos hpos]

/-- With a finite make-up gain the gain is finite: the reduction factor is at most 1. -/
theorem gainJs_finite (sat knee envelope : ℝ) {G : ℝ} (h0 : 0 ≤ G) (h1 : G < overflowBound) :
    gainJs sat knee (JsNumber.finite G) envelope
      = JsNumber.finite
          ((10 : ℝ) ^ (gainReductionDb sat knee (envelopeDb jsMath envelope) / 20) * G) := by
  have hgr := gainReductionDb_nonpos sat knee (envelopeDb jsMath envelope)
  have hpos : (0 : ℝ) < (10 : ℝ) ^ (gainReductionDb sat knee (envelopeDb jsMath envelope) / 20) :=
    Real.rpow_pos_of_pos (by norm_num) _
  have hle : (10 : ℝ) ^ (gainReductionDb sat knee (envelopeDb jsMath envelope) / 20) ≤ 1 :=
    Real.rpow_le_one_of_one_le_of_nonpos (by norm_num) (by linarith)
  unfold gainJs
  rw [mathPow10_finite (by linarith)]
  show JsNumber.ofExact _ = _
  apply JsNumber.ofExact_finite
  · exact lt_of_lt_of_le (neg_lt_zero.mpr overflowBound_pos) (mul_nonneg hpos.le h0)
  · exact lt_of_le_of_lt (mul_le_of_le_one_left h0 hle) h1

theorem stepSampleJs_fst (sampleRate : ℝ) (p : LimiterProcessor ℝ) (f : ℝ × ℝ) :
    (stepSampleJs sampleRate p f).1 = (stepSample jsMath sampleRate p f).1 := rfl

/-- The output of one sample as JavaScript numbers, in a state satisfying the ring invariant: the
sample `delaySamples` steps back times the gain. -/
theorem stepSampleJs_out (sampleRate : ℝ) {cap : Int} {hist : List (ℝ × ℝ)}
    {p : LimiterProcessor ℝ} (h : RingInv cap hist p) (f : ℝ × ℝ) :
    (stepSampleJs sampleRate p f).2
      = (some ((JsNumber.finite
            (((f :: hist).map Prod.fst).getD (delaySamples sampleRate p).toNat 0)).mul
          (gainJs p.saturationLevel p.kneeWidth (outGainLinJs p)
            (stepSample jsMath sampleRate p f).1.envelope)),
         some ((JsNumber.finite
            (((f :: hist).map Prod.snd).getD (delaySamples sampleRate p).toNat 0)).mul
          (gainJs p.saturationLevel p.kneeWidth (outGainLinJs p)
            (stepSample jsMath sampleRate p f).1.envelope))) := by
  obtain ⟨-, -, -, -, -, e1, -, -, -, -, e2, e3, e4⟩ :=
    envelopeFollower_frame sampleRate (decay jsMath sampleRate p) p (max |f.1| |f.2|)
  have h' := h.congr e1 e2 e3 e4
  have hd := delaySamples_range sampleRate p (by rw [h.2.1]; exact h.1)
  rw [h.2.1] at hd
  obtain ⟨-, r1, r2⟩ := ringStep_spec h' (delaySamples sampleRate p) hd.1 (by omega) f.1 f.2
  have o1 : (stepSampleJs sampleRate p f).2.1
      = ((ringStep (delaySamples sampleRate p)
          (envelopeFollower sampleRate (decay jsMath sampleRate p) p (max |f.1| |f.2|))
            f.1 f.2).2.1).map
          (fun delayed => (JsNumber.finite delayed).mul
            (gainJs p.saturationLevel p.kneeWidth (outGainLinJs p)
              (stepSample jsMath sampleRate p f).1.envelope)) := rfl
  have o2 : (stepSampleJs sampleRate p f).2.2
      = ((ringStep (delaySamples sampleRate p)
          (envelopeFollower sampleRate (decay jsMath sampleRate p) p (max |f.1| |f.2|))
            f.1 f.2).2.2).map
          (fun delayed => (JsNumber.finite delayed).mul
            (gainJs p.saturationLevel p.kneeWidth (outGainLinJs p)
              (stepSample jsMath sampleRate p f).1.envelope)) := rfl
  rw [r1] at o1
  rw [r2] at o2
  exact Prod.ext o1 o2

theorem getD_map_zero (g : ℝ × ℝ → ℝ) (hg : g (0, 0) = 0) (l : List (ℝ × ℝ))
    (h : ∀ f ∈ l, f = (0, 0)) (k : Nat) : (l.map g).getD k 0 = 0 := by
  rw [List.getD_eq_getElem?_getD]
  cases hx : (l.map g)[k]? with
  | none => rfl
  | some x =>
    obtain ⟨f, hf, he⟩ := List.mem_map.mp (List.getElem?_mem hx)
    rw [h f hf, hg] at he
    exact he.symm

theorem runSamplesJs_head (sampleRate : ℝ) (p : LimiterProcessor ℝ) (f : ℝ × ℝ)
    (fs : List (ℝ × ℝ)) :
    (runSamplesJs sampleRate p (f :: fs)).2[0]? = some (stepSampleJs sampleRate p f).2 := by
  have hrun : (runSamplesJs sampleRate p (f :: fs)).2
      = (stepSampleJs sampleRate p f).2
        :: (runSamplesJs sampleRate (stepSampleJs sampleRate p f).1 fs).2 := rfl
  rw [hrun, List.getElem?_cons_zero]

/-- Silence through a processor whose make-up gain does not overflow: with only silence in the ring
and in the input, every output sample is the finite number `0`. -/
theorem runSamplesJs_silent (sampleRate : ℝ) {cap : Int} (fs : List (ℝ × ℝ)) :
    ∀ (hist : List (ℝ × ℝ)) (p : LimiterProcessor ℝ), RingInv cap hist p →
    (∀ f ∈ hist, f = (0, 0)) → (∀ f ∈ fs, f = (0, 0)) → p.outputGain ≤ 6000 →
    ∀ o ∈ (runSamplesJs sampleRate p fs).2,
      o = (some (JsNumber.finite 0), some (JsNumber.finite 0)) := by
  induction fs with
  | nil =>
    intro hist p _ _ _ _ o ho
    simp [runSamplesJs] at ho
  | cons f fs ih =>
    intro hist p hinv hz hf hg o ho
    have hf0 : f = (0, 0) := hf f (List.mem_cons_self _ _)
    have hz' : ∀ g ∈ f :: hist, g = (0, 0) := by
      intro g hgm
      rcases List.mem_cons.mp hgm with h | h
      · rw [h, hf0]
      · exact hz g h
    have hG : outGainLinJs p = JsNumber.finite ((10 : ℝ) ^ (p.outputGain / 20)) :=
      mathPow10_finite (by linarith)
    have hGpos : (0 : ℝ) < (10 : ℝ) ^ (p.outputGain / 20) := Real.rpow_pos_of_pos (by norm_num) _
    have hGlt : (10 : ℝ) ^ (p.outputGain / 20) < overflowBound := by
      refine lt_of_le_of_lt ?_ overflowBound_gt
      rw [← Real.rpow_natCast]
      exact Real.rpow_le_rpow_of_exponent_le (by norm_num) (by push_cast; linarith)
    have hout := stepSampleJs_out sampleRate hinv f
    rw [hG, gainJs_finite _ _ _ hGpos.le hGlt, getD_map_zero Prod.fst rfl _ hz',
      getD_map_zero Prod.snd rfl _ hz', JsNumber.zero_mul_finite] at hout
    have hrun : (runSamplesJs sampleRate p (f :: fs)).2
        = (stepSampleJs sampleRate p f).2
          :: (runSamplesJs sampleRate (stepSampleJs sampleRate p f).1 fs).2 := rfl
    rw [hrun] at ho
    rcases List.mem_cons.mp ho with h | h
    · rw [h, hout]
    · refine ih (f :: hist) _ ?_ hz' (fun g hgm => hf g (List.mem_cons_of_mem _ hgm)) ?_ o h
      · rw [stepSampleJs_fst]
        exact stepSample_ringInv jsMath sampleRate hinv f
      · rw [stepSampleJs_fst, (stepSample_frame jsMath sampleRate p f).2.2.1]
        exact hg

/-! # Claims -/

/-- C1 (code bug): the output ceiling is exceeded.  The default processor at 48 kHz
(`thresholdDb = -6`, hard knee, `makeupGainDb = 6`, `lookaheadMs = 0.5`, i.e. 24 samples of delay,
`minRecoveryMs = 20`) is fed three blocks of 128 full-scale frames and then a block of silence.
The hold is armed only by the first frame (the only one with `peak > envelope`), so at frame 384 it
has expired, the envelope releases to `decay < 1`, and the full-scale frame 360 leaving the delay
line is output at amplitude `1 / decay` with `decay = exp(-1/960)`, above the ceiling
`10^((-6 + 6)/20) = 1`. -/
theorem claim1_ceiling_exceeded :
    (runBlocks jsMath (48000 : ℝ) (LimiterProcessor.create 48000)
        [[List.replicate 128 1, List.replicate 128 1],
         [List.replicate 128 1, List.replicate 128 1],
         [List.replicate 128 1, List.replicate 128 1],
         [List.replicate 128 0, List.replicate 128 0]]).2[384]?
      = some (some (jsMath.pow10 (((-6 : ℝ) + 6) / 20) / Real.exp (-1 / 960)),
              some (jsMath.pow10 (((-6 : ℝ) + 6) / 20) / Real.exp (-1 / 960))) ∧
    jsMath.pow10 (((-6 : ℝ) + 6) / 20)
      < |jsMath.pow10 (((-6 : ℝ) + 6) / 20) / Real.exp (-1 / 960)| := by
  have hrecov : recoveryMs (LimiterProcessor.create (48000 : ℝ)) = 20 := by
    norm_num [recoveryMs, LimiterProcessor.create, max_def, min_def]
  have hsat : (LimiterProcessor.create (48000 : ℝ)).saturationLevel
      + (LimiterProcessor.create (48000 : ℝ)).kneeWidth / 2 = -6 := by
    norm_num [LimiterProcessor.create]
  set p := LimiterProcessor.create (48000 : ℝ) with hp
  have hinv : RingInv (mathCeil ((48000 : ℝ) * 0.020)) [] p :=
    (Reach.init (M := jsMath)).ringInv (by norm_num)
  have hd : delaySamples (48000 : ℝ) p = 24 := by
    norm_num [hp, delaySamples, LimiterProcessor.create, mathRound, mathCeil]
  -- the input frames
  have hfs : inputFrames [[List.replicate 128 (1 : ℝ), List.replicate 128 (1 : ℝ)],
      [List.replicate 128 1, List.replicate 128 1], [List.replicate 128 1, List.replicate 128 1],
      [List.replicate 128 0, List.replicate 128 0]]
      = List.replicate 384 ((1 : ℝ), (1 : ℝ)) ++ List.replicate 128 ((0 : ℝ), (0 : ℝ)) := by
    simp only [inputFrames, blockFrames, List.map, List.flatten, List.zip_replicate,
      List.append_nil, min_self]
    rw [show (384 : ℕ) = 128 + (128 + 128) by norm_num, List.replicate_add, List.replicate_add,
      List.append_assoc, List.append_assoc]
  have htake : (List.replicate 384 ((1 : ℝ), (1 : ℝ))
      ++ List.replicate 128 ((0 : ℝ), (0 : ℝ))).take (384 + 1)
      = List.replicate 384 ((1 : ℝ), (1 : ℝ)) ++ [((0 : ℝ), (0 : ℝ))] := by
    rw [List.take_append_eq_append_take, List.length_replicate, List.take_replicate,
      List.take_replicate]
    norm_num
  -- the state after the 384 full-scale frames
  have hones := runSamples_const_from_zero jsMath (48000 : ℝ) 1 (by norm_num) p rfl
    ((1 : ℝ), (1 : ℝ)) (List.replicate 383 ((1 : ℝ), (1 : ℝ)))
    (by
      intro g hg
      rw [← List.replicate_succ] at hg
      rw [List.eq_of_mem_replicate hg]
      norm_num)
  rw [← List.replicate_succ] at hones
  have hhold0 : (stepSample jsMath (48000 : ℝ) p ((1 : ℝ), (1 : ℝ))).1.holdTimer ≤ 383 := by
    have hatt : max |((1 : ℝ), (1 : ℝ)).1| |((1 : ℝ), (1 : ℝ)).2| > p.envelope := by
      norm_num [hp, LimiterProcessor.create]
    rw [(stepSample_envelope jsMath (48000 : ℝ) p ((1 : ℝ), (1 : ℝ))).2.1,
      (envelopeFollower_attack (48000 : ℝ) _ p hatt).2]
    norm_num [hp, envelopeFollower, holdSamples, LimiterProcessor.create, max_def, min_def]
  obtain ⟨henv1, hhold⟩ := hones
  rw [List.length_replicate, max_eq_right (by push_cast; linarith)] at hhold
  set q := (runSamples jsMath (48000 : ℝ) p (List.replicate (383 + 1) ((1 : ℝ), (1 : ℝ)))).1
    with hq
  -- the release step on the first silent frame
  have hdecq : decay jsMath (48000 : ℝ) q = decay jsMath 48000 p :=
    (runSamples_consts jsMath (48000 : ℝ) _ p).2.2
  have hdecv : decay jsMath (48000 : ℝ) p = Real.exp (-1 / 960) := by
    show Real.exp (-1 / (recoveryMs p / 1000 * 48000)) = Real.exp (-1 / 960)
    rw [hrecov]
    norm_num
  have hrel : (stepSample jsMath (48000 : ℝ) q ((0 : ℝ), (0 : ℝ))).1.envelope
      = Real.exp (-1 / 960) := by
    rw [(stepSample_envelope jsMath (48000 : ℝ) q ((0 : ℝ), (0 : ℝ))).1,
      (envelopeFollower_release (48000 : ℝ) _ q (by rw [henv1]; norm_num)
        (not_lt.mpr hhold)).1, henv1, hdecq, hdecv]
    norm_num
  have hdlt : Real.exp (-1 / 960) < 1 := by
    rw [Real.exp_lt_one_iff]; norm_num
  have hdge : (0.99 : ℝ) ≤ Real.exp (-1 / 960) := by
    have := Real.add_one_le_exp (-1 / 960 : ℝ)
    linarith
  -- the gain at the released envelope
  have hgain : gain jsMath p.saturationLevel p.kneeWidth (outGainLin jsMath p)
      (Real.exp (-1 / 960))
      = jsMath.pow10 ((p.saturationLevel + p.outputGain) / 20) / Real.exp (-1 / 960) := by
    refine gain_eq_ceiling_div p.saturationLevel p.kneeWidth p.outputGain _ (le_of_eq rfl)
      (by linarith) ?_
    have h1 : jsMath.log10 (jsMath.pow10 (-0.3)) ≤ jsMath.log10 (Real.exp (-1 / 960)) :=
      jsMath_log10_le (jsMath_pow10_pos _)
        (by linarith [jsMath_pow10_neg_three_tenths_lt])
    rw [jsMath_log10_pow10] at h1
    rw [hsat]
    linarith
  -- the output frame 384
  have hlen : 384 < (List.replicate 384 ((1 : ℝ), (1 : ℝ))
      ++ List.replicate 128 ((0 : ℝ), (0 : ℝ))).length := by
    rw [List.length_append, List.length_replicate, List.length_replicate]
    norm_num
  have hout := runSamples_out_at jsMath (48000 : ℝ) hinv
    (List.replicate 384 ((1 : ℝ), (1 : ℝ)) ++ List.replicate 128 ((0 : ℝ), (0 : ℝ))) 384 hlen
  rw [delayed_frame_eq _ 384 _ hlen, hd, htake, runSamples_snoc] at hout
  simp only [] at hout
  rw [hrel, hgain] at hout
  have hx : (List.replicate 384 ((1 : ℝ), (1 : ℝ)) ++ List.replicate 128 ((0 : ℝ), (0 : ℝ))).getD
      (384 - (24 : Int).toNat) (0, 0) = (1, 1) := by
    rw [List.getD_eq_getElem?_getD,
      List.getElem?_append_left (by rw [List.length_replicate]; norm_num),
      List.getElem?_replicate, if_pos (by norm_num)]
    rfl
  rw [if_pos (by norm_num), hx] at hout
  simp only [one_mul] at hout
  have hso : p.saturationLevel + p.outputGain = (-6 : ℝ) + 6 := rfl
  rw [hso] at hout
  refine ⟨?_, ?_⟩
  · rw [(runBlocks_eq_runSamples jsMath (48000 : ℝ) _ p rfl).1, hfs]
    exact hout
  · have hc := jsMath_pow10_pos (((-6 : ℝ) + 6) / 20)
    have hepos := Real.exp_pos (-1 / 960 : ℝ)
    rw [abs_of_pos (div_pos hc hepos), lt_div_iff₀ hepos]
    exact mul_lt_of_lt_one_right hc hdlt

/-- How far the output can overshoot: for a freshly constructed and configured processor with
`minRecoveryMs > 0`, any spectral features and every sequence of input blocks, every output sample
on both channels satisfies `|out| ≤ 10^((thresholdDb + makeupGainDb)/20) / decay^delaySamples`,
where `decay` is the block's release coefficient: the envelope can decay by at most that factor
while a sample crosses the delay line.  With `delaySamples = 0` the ceiling itself holds. -/
theorem output_le_ceiling_div_decay_pow (sampleRate : ℝ) (hsr : 0 < sampleRate)
    (m : ParamsMsg ℝ) (centroid lowEnergy rms : ℝ)
    (hrec : 0 < (configured sampleRate m centroid lowEnergy rms).minRecovery)
    (blocks : List (List (List ℝ))) (n : Nat) (hn : n < (inputFrames blocks).length) :
    ∃ oL oR : ℝ,
      (runBlocks jsMath sampleRate (configured sampleRate m centroid lowEnergy rms) blocks).2[n]?
        = some (some oL, some oR) ∧
      |oL| ≤ jsMath.pow10
          (((configured sampleRate m centroid lowEnergy rms).saturationLevel
            + (configured sampleRate m centroid lowEnergy rms).outputGain) / 20)
        / decay jsMath sampleRate (configured sampleRate m centroid lowEnergy rms)
          ^ (delaySamples sampleRate (configured sampleRate m centroid lowEnergy rms)).toNat ∧
      |oR| ≤ jsMath.pow10
          (((configured sampleRate m centroid lowEnergy rms).saturationLevel
            + (configured sampleRate m centroid lowEnergy rms).outputGain) / 20)
        / decay jsMath sampleRate (configured sampleRate m centroid lowEnergy rms)
          ^ (delaySamples sampleRate (configured sampleRate m centroid lowEnergy rms)).toNat ∧
      (delaySamples sampleRate (configured sampleRate m centroid lowEnergy rms) = 0 →
        |oL| ≤ jsMath.pow10
          (((configured sampleRate m centroid lowEnergy rms).saturationLevel
            + (configured sampleRate m centroid lowEnergy rms).outputGain) / 20) ∧
        |oR| ≤ jsMath.pow10
          (((configured sampleRate m centroid lowEnergy rms).saturationLevel
            + (configured sampleRate m centroid lowEnergy rms).outputGain) / 20)) := by
  set p := configured sampleRate m centroid lowEnergy rms with hp
  have hinv := (configured_reach jsMath sampleRate m centroid lowEnergy rms).ringInv hsr
  rw [← hp] at hinv
  set fs := inputFrames blocks with hfs
  set dec := decay jsMath sampleRate p with hdec
  have hd0 : 0 < dec := decay_pos sampleRate p
  have hd1 : dec ≤ 1 := (decay_lt_one hsr p hrec).le
  have h0 : EnvInv dec [] p := by
    refine ⟨le_of_eq rfl, fun j => ?_⟩
    show framePeak (([] : List (ℝ × ℝ)).getD j (0, 0)) * dec ^ j ≤ 0
    simp [framePeak]
  have hE := runSamples_envInv jsMath sampleRate hd0.le hd1 (fs.take (n + 1)) h0 hdec.symm
  have hout := runSamples_out_at jsMath sampleRate hinv fs n hn
  set x := ((fs.take (n + 1)).reverse ++ []).getD (delaySamples sampleRate p).toNat (0, 0)
    with hx
  set env := (runSamples jsMath sampleRate p (fs.take (n + 1))).1.envelope with henv
  have hpk := hE.2 (delaySamples sampleRate p).toNat
  rw [← hx] at hpk
  have hr : 0 < dec ^ (delaySamples sampleRate p).toNat := pow_pos hd0 _
  have b1 : |x.1| * dec ^ (delaySamples sampleRate p).toNat ≤ env :=
    le_trans (mul_le_mul_of_nonneg_right (le_max_left _ _) hr.le) hpk
  have b2 : |x.2| * dec ^ (delaySamples sampleRate p).toNat ≤ env :=
    le_trans (mul_le_mul_of_nonneg_right (le_max_right _ _) hr.le) hpk
  have c1 : |x.1 * gain jsMath p.saturationLevel p.kneeWidth (outGainLin jsMath p) env|
      ≤ jsMath.pow10 ((p.saturationLevel + p.outputGain) / 20)
        / dec ^ (delaySamples sampleRate p).toNat :=
    mul_gain_le_ceiling_div p.saturationLevel p.kneeWidth p.outputGain env x.1 _ hr hE.1 b1
  have c2 : |x.2 * gain jsMath p.saturationLevel p.kneeWidth (outGainLin jsMath p) env|
      ≤ jsMath.pow10 ((p.saturationLevel + p.outputGain) / 20)
        / dec ^ (delaySamples sampleRate p).toNat :=
    mul_gain_le_ceiling_div p.saturationLevel p.kneeWidth p.outputGain env x.2 _ hr hE.1 b2
  refine ⟨x.1 * gain jsMath p.saturationLevel p.kneeWidth (outGainLin jsMath p) env,
    x.2 * gain jsMath p.saturationLevel p.kneeWidth (outGainLin jsMath p) env, ?_, c1, c2, ?_⟩
  · rw [(runBlocks_eq_runSamples jsMath sampleRate blocks p rfl).1]
    exact hout
  · intro hz
    rw [hz] at c1 c2
    simpa using And.intro c1 c2

/-- C2 fails below the detector's floor: at 48 kHz with `thresholdDb = -120`, `kneeWidthDb = 0`,
`makeupGainDb = 0`, `lookaheadMs = 0`, a constant input of amplitude `0.000001` (level `-120` dB,
at the threshold) is detected at the floor level `-100` dB, reduced by `20` dB and output at
amplitude `0.0000001`, not at the ceiling `10^(-120/20) = 0.000001`. -/
theorem claim2_counterexample :
    ((-120 : ℝ) + 0 / 2 ≤ 20 * jsMath.log10 0.000001) ∧
    delaySamples (48000 : ℝ)
      (configured 48000 ⟨some (-120), some 0, some 0, some 0, none⟩ 0 0 0) = 0 ∧
    (runBlocks jsMath (48000 : ℝ)
        (configured 48000 ⟨some (-120), some 0, some 0, some 0, none⟩ 0 0 0)
        [[[0.000001], [0.000001]]]).2[0]?
      = some (some (0.0000001 : ℝ), some (0.0000001 : ℝ)) ∧
    |(0.0000001 : ℝ)| ≠ jsMath.pow10 (((-120 : ℝ) + 0) / 20) := by
  have hlog : jsMath.log10 0.000001 = -6 := by
    rw [show (0.000001 : ℝ) = (10 : ℝ) ^ (-6 : ℤ) by norm_num, jsMath_log10_zpow]
    norm_num
  have hd : delaySamples (48000 : ℝ)
      (configured 48000 ⟨some (-120), some 0, some 0, some 0, none⟩ 0 0 0) = 0 := by
    norm_num [delaySamples, configured, onmessage, LimiterProcessor.create, mathRound, mathCeil]
  have hceil : jsMath.pow10 (((-120 : ℝ) + 0) / 20) = 0.000001 := by
    rw [show ((-120 : ℝ) + 0) / 20 = ((-6 : ℤ) : ℝ) by norm_num, jsMath_pow10_int]
    norm_num
  have hinv := (configured_reach jsMath (48000 : ℝ)
    ⟨some (-120), some 0, some 0, some 0, none⟩ 0 0 0).ringInv (by norm_num)
  have hfs : inputFrames [[[(0.000001 : ℝ)], [(0.000001 : ℝ)]]]
      = [((0.000001 : ℝ), (0.000001 : ℝ))] := by
    simp [inputFrames, blockFrames]
  have henv := (runSamples_const_from_zero jsMath (48000 : ℝ) 0.000001 (by norm_num)
    (configured 48000 ⟨some (-120), some 0, some 0, some 0, none⟩ 0 0 0) rfl
    ((0.000001 : ℝ), (0.000001 : ℝ)) [] (by intro g hg; simp at hg; subst hg; norm_num)).1
  have hgain : gain jsMath (-120) 0 (jsMath.pow10 ((0 : ℝ) / 20)) 0.000001 = 0.1 := by
    unfold gain
    rw [envelopeDb_of_le (by norm_num)]
    have e : gainReductionDb (-120 : ℝ) 0 (-100) / 20 = ((-1 : ℤ) : ℝ) := by
      norm_num [gainReductionDb]
    rw [e, jsMath_pow10_int, zero_div, jsMath_pow10_zero]
    norm_num
  have hout := runSamples_out_at jsMath (48000 : ℝ) hinv
    [((0.000001 : ℝ), (0.000001 : ℝ))] 0 (by simp)
  rw [hd] at hout
  simp only [List.take_succ_cons, List.take_zero, zero_add] at hout
  rw [henv] at hout
  refine ⟨by rw [hlog]; norm_num, hd, ?_,
    by rw [hceil, abs_of_pos (by norm_num)]; norm_num⟩
  rw [(runBlocks_eq_runSamples jsMath (48000 : ℝ) _ _ rfl).1, hfs, hout]
  have hg2 : gain jsMath
      (configured (48000 : ℝ) ⟨some (-120), some 0, some 0, some 0, none⟩ 0 0 0).saturationLevel
      (configured (48000 : ℝ) ⟨some (-120), some 0, some 0, some 0, none⟩ 0 0 0).kneeWidth
      (outGainLin jsMath
        (configured (48000 : ℝ) ⟨some (-120), some 0, some 0, some 0, none⟩ 0 0 0)) 0.000001
      = 0.1 := hgain
  rw [hg2]
  norm_num
/-- C2 (amended): for a freshly constructed and configured processor with `kneeWidthDb ≥ 0` and
any sequence of blocks whose samples all have amplitude `A ≥ 0.00001` (the detector's floor) with
level `20*log10(A)` at or above `thresholdDb + kneeWidthDb/2`, output frame `n` is silence for
`n < delaySamples`, and for `n ≥ delaySamples` both channels have amplitude exactly
`10^((thresholdDb + makeupGainDb)/20)`, i.e. level `thresholdDb + makeupGainDb`. -/
theorem claim2_constant_input_ceiling (sampleRate : ℝ) (hsr : 0 < sampleRate)
    (m : ParamsMsg ℝ) (centroid lowEnergy rms A : ℝ)
    (hk : 0 ≤ (configured sampleRate m centroid lowEnergy rms).kneeWidth)
    (hA : 0.00001 ≤ A)
    (hlevel : (configured sampleRate m centroid lowEnergy rms).saturationLevel
        + (configured sampleRate m centroid lowEnergy rms).kneeWidth / 2 ≤ 20 * jsMath.log10 A)
    (blocks : List (List (List ℝ)))
    (hin : ∀ f ∈ inputFrames blocks, |f.1| = A ∧ |f.2| = A)
    (n : Nat) (hn : n < (inputFrames blocks).length) :
    ∃ oL oR : ℝ,
      (runBlocks jsMath sampleRate (configured sampleRate m centroid lowEnergy rms) blocks).2[n]?
        = some (some oL, some oR) ∧
      ((n : Int) < delaySamples sampleRate (configured sampleRate m centroid lowEnergy rms) →
        oL = 0 ∧ oR = 0) ∧
      (delaySamples sampleRate (configured sampleRate m centroid lowEnergy rms) ≤ (n : Int) →
        |oL| = jsMath.pow10
            (((configured sampleRate m centroid lowEnergy rms).saturationLevel
              + (configured sampleRate m centroid lowEnergy rms).outputGain) / 20) ∧
        |oR| = jsMath.pow10
            (((configured sampleRate m centroid lowEnergy rms).saturationLevel
              + (configured sampleRate m centroid lowEnergy rms).outputGain) / 20) ∧
        20 * jsMath.log10 |oL|
          = (configured sampleRate m centroid lowEnergy rms).saturationLevel
              + (configured sampleRate m centroid lowEnergy rms).outputGain ∧
        20 * jsMath.log10 |oR|
          = (configured sampleRate m centroid lowEnergy rms).saturationLevel
              + (configured sampleRate m centroid lowEnergy rms).outputGain) := by
  set p := configured sampleRate m centroid lowEnergy rms with hp
  have hinv := (configured_reach jsMath sampleRate m centroid lowEnergy rms).ringInv hsr
  rw [← hp] at hinv
  have hd := delaySamples_range sampleRate p (by rw [hinv.2.1]; exact hinv.1)
  have hApos : 0 < A := lt_of_lt_of_le (by norm_num) hA
  set fs := inputFrames blocks with hfs
  -- the envelope after frame `n` is `A`
  have henv : (runSamples jsMath sampleRate p (fs.take (n + 1))).1.envelope = A := by
    obtain ⟨g, gs, hg⟩ : ∃ g gs, fs.take (n + 1) = g :: gs := by
      cases hfs' : fs with
      | nil => rw [hfs'] at hn; simp at hn
      | cons g gs => exact ⟨g, gs.take n, by simp⟩
    rw [hg]
    refine (runSamples_const_from_zero jsMath sampleRate A hApos p rfl g gs ?_).1
    intro x hx
    rw [← hg] at hx
    obtain ⟨h1, h2⟩ := hin x (List.mem_of_mem_take hx)
    rw [h1, h2, max_self]
  have hout := runSamples_out_at jsMath sampleRate hinv fs n hn
  rw [delayed_frame_eq fs n _ hn, henv] at hout
  have hG : A * gain jsMath p.saturationLevel p.kneeWidth (outGainLin jsMath p) A
      = jsMath.pow10 ((p.saturationLevel + p.outputGain) / 20) := by
    have := gain_above_knee p.saturationLevel p.kneeWidth p.outputGain A hk
      (by rw [envelopeDb_of_ge hA]; exact hlevel)
    rw [max_eq_left hA] at this
    exact this
  have hgn : 0 ≤ gain jsMath p.saturationLevel p.kneeWidth (outGainLin jsMath p) A :=
    gain_nonneg p.saturationLevel p.kneeWidth p.outputGain A
  refine ⟨(if (delaySamples sampleRate p).toNat ≤ n
      then fs.getD (n - (delaySamples sampleRate p).toNat) (0, 0) else (0, 0)).1
        * gain jsMath p.saturationLevel p.kneeWidth (outGainLin jsMath p) A,
    (if (delaySamples sampleRate p).toNat ≤ n
      then fs.getD (n - (delaySamples sampleRate p).toNat) (0, 0) else (0, 0)).2
        * gain jsMath p.saturationLevel p.kneeWidth (outGainLin jsMath p) A, ?_, ?_, ?_⟩
  · rw [(runBlocks_eq_runSamples jsMath sampleRate blocks p rfl).1]
    exact hout
  · intro hlt
    rw [if_neg (by omega)]
    simp
  · intro hle
    have hle' : (delaySamples sampleRate p).toNat ≤ n := by omega
    rw [if_pos hle']
    have hmem : fs.getD (n - (delaySamples sampleRate p).toNat) (0, 0) ∈ fs := by
      rw [List.getD_eq_getElem?_getD, List.getElem?_eq_getElem (by omega)]
      exact List.getElem_mem _
    obtain ⟨h1, h2⟩ := hin _ hmem
    have a1 : |(fs.getD (n - (delaySamples sampleRate p).toNat) (0, 0)).1
        * gain jsMath p.saturationLevel p.kneeWidth (outGainLin jsMath p) A|
        = jsMath.pow10 ((p.saturationLevel + p.outputGain) / 20) := by
      rw [abs_mul, h1, abs_of_nonneg hgn]
      exact hG
    have a2 : |(fs.getD (n - (delaySamples sampleRate p).toNat) (0, 0)).2
        * gain jsMath p.saturationLevel p.kneeWidth (outGainLin jsMath p) A|
        = jsMath.pow10 ((p.saturationLevel + p.outputGain) / 20) := by
      rw [abs_mul, h2, abs_of_nonneg hgn]
      exact hG
    refine ⟨a1, a2, ?_, ?_⟩
    · rw [a1, jsMath_log10_pow10]; ring
    · rw [a2, jsMath_log10_pow10]; ring

/-- Witness for the amended C2, the spec's scenario: 48 kHz, `thresholdDb = -8`, `kneeWidthDb = 6`,
`makeupGainDb = 8`, `lookaheadMs = 1.5`, `minRecoveryMs = 150`, full-scale input.  The delay is 72
samples, the ceiling is amplitude 1, and output frame 100 of a 128-sample block has amplitude 1 on
both channels. -/
theorem claim2_witness :
    delaySamples (48000 : ℝ)
      (configured 48000 ⟨some (-8), some 6, some 8, some 1.5, some 150⟩ 0 0 0) = 72 ∧
    jsMath.pow10 (((-8 : ℝ) + 8) / 20) = 1 ∧
    ∃ oL oR : ℝ,
      (runBlocks jsMath (48000 : ℝ)
          (configured 48000 ⟨some (-8), some 6, some 8, some 1.5, some 150⟩ 0 0 0)
          [[List.replicate 128 1, List.replicate 128 1]]).2[100]? = some (some oL, some oR) ∧
      |oL| = 1 ∧ |oR| = 1 := by
  have hd : delaySamples (48000 : ℝ)
      (configured 48000 ⟨some (-8), some 6, some 8, some 1.5, some 150⟩ 0 0 0) = 72 := by
    norm_num [delaySamples, configured, onmessage, LimiterProcessor.create, mathRound, mathCeil]
  have hc : jsMath.pow10 (((-8 : ℝ) + 8) / 20) = 1 := by
    rw [show ((-8 : ℝ) + 8) / 20 = 0 by norm_num, jsMath_pow10_zero]
  have hfs : inputFrames [[List.replicate 128 (1 : ℝ), List.replicate 128 (1 : ℝ)]]
      = List.replicate 128 ((1 : ℝ), (1 : ℝ)) := by
    simp [inputFrames, blockFrames, List.zip_replicate]
  obtain ⟨oL, oR, h1, -, h3⟩ := claim2_constant_input_ceiling 48000 (by norm_num)
    ⟨some (-8), some 6, some 8, some 1.5, some 150⟩ 0 0 0 1
    (by norm_num [configured, onmessage]) (by norm_num)
    (by
      have : jsMath.log10 1 = 0 := Real.logb_one
      rw [this]
      norm_num [configured, onmessage])
    [[List.replicate 128 1, List.replicate 128 1]]
    (by
      rw [hfs]
      intro f hf
      rw [List.eq_of_mem_replicate hf]
      norm_num)
    100 (by rw [hfs]; simp)
  rw [hd] at h3
  obtain ⟨a1, a2, -, -⟩ := h3 (by norm_num)
  refine ⟨hd, hc, oL, oR, h1, ?_, ?_⟩
  · rw [a1]; exact hc
  · rw [a2]; exact hc

/-- C3 fails when the knee's lower boundary is under the detector's `-100` dB floor: at 48 kHz with
`thresholdDb = -120`, `kneeWidthDb = 0`, `makeupGainDb = 0`, `lookaheadMs = 0`, an input sample of
amplitude `0.0000001` (level `-140` dB, below `thresholdDb - kneeWidthDb/2 = -120`) is detected at
`-100` dB, so the gain reduction is `-20` dB instead of `0` and the output is `0.00000001`, not
the input times `10^(0/20) = 1`. -/
theorem claim3_counterexample :
    |(0.0000001 : ℝ)| < jsMath.pow10 (((-120 : ℝ) - 0 / 2) / 20) ∧
    gainReductionDb (-120 : ℝ) 0 (envelopeDb jsMath 0.0000001) = -20 ∧
    (runBlocks jsMath (48000 : ℝ)
        (configured 48000 ⟨some (-120), some 0, some 0, some 0, none⟩ 0 0 0)
        [[[0.0000001], [0.0000001]]]).2[0]?
      = some (some (0.00000001 : ℝ), some (0.00000001 : ℝ)) ∧
    (0.00000001 : ℝ) ≠ 0.0000001 * jsMath.pow10 ((0 : ℝ) / 20) := by
  have hd : delaySamples (48000 : ℝ)
      (configured 48000 ⟨some (-120), some 0, some 0, some 0, none⟩ 0 0 0) = 0 := by
    norm_num [delaySamples, configured, onmessage, LimiterProcessor.create, mathRound, mathCeil]
  have hT : jsMath.pow10 (((-120 : ℝ) - 0 / 2) / 20) = 0.000001 := by
    rw [show ((-120 : ℝ) - 0 / 2) / 20 = ((-6 : ℤ) : ℝ) by norm_num, jsMath_pow10_int]
    norm_num
  have hgr : gainReductionDb (-120 : ℝ) 0 (envelopeDb jsMath 0.0000001) = -20 := by
    rw [envelopeDb_of_le (by norm_num)]
    norm_num [gainReductionDb]
  have hinv := (configured_reach jsMath (48000 : ℝ)
    ⟨some (-120), some 0, some 0, some 0, none⟩ 0 0 0).ringInv (by norm_num)
  have hfs : inputFrames [[[(0.0000001 : ℝ)], [(0.0000001 : ℝ)]]]
      = [((0.0000001 : ℝ), (0.0000001 : ℝ))] := by
    simp [inputFrames, blockFrames]
  have henv := (runSamples_const_from_zero jsMath (48000 : ℝ) 0.0000001 (by norm_num)
    (configured 48000 ⟨some (-120), some 0, some 0, some 0, none⟩ 0 0 0) rfl
    ((0.0000001 : ℝ), (0.0000001 : ℝ)) [] (by intro g hg; simp at hg; subst hg; norm_num)).1
  have hgain : gain jsMath
      (configured (48000 : ℝ) ⟨some (-120), some 0, some 0, some 0, none⟩ 0 0 0).saturationLevel
      (configured (48000 : ℝ) ⟨some (-120), some 0, some 0, some 0, none⟩ 0 0 0).kneeWidth
      (outGainLin jsMath
        (configured (48000 : ℝ) ⟨some (-120), some 0, some 0, some 0, none⟩ 0 0 0)) 0.0000001
      = 0.1 := by
    show jsMath.pow10 (gainReductionDb (-120 : ℝ) 0 (envelopeDb jsMath 0.0000001) / 20)
      * jsMath.pow10 ((0 : ℝ) / 20) = 0.1
    rw [hgr, show (-20 : ℝ) / 20 = ((-1 : ℤ) : ℝ) by norm_num, jsMath_pow10_int, zero_div,
      jsMath_pow10_zero]
    norm_num
  have hout := runSamples_out_at jsMath (48000 : ℝ) hinv
    [((0.0000001 : ℝ), (0.0000001 : ℝ))] 0 (by simp)
  rw [hd] at hout
  simp only [List.take_succ_cons, List.take_zero, zero_add] at hout
  rw [henv, hgain] at hout
  refine ⟨by rw [hT, abs_of_pos (by norm_num)]; norm_num, hgr, ?_,
    by rw [zero_div, jsMath_pow10_zero]; norm_num⟩
  rw [(runBlocks_eq_runSamples jsMath (48000 : ℝ) _ _ rfl).1, hfs, hout]
  norm_num

/-- C3 (amended): below-threshold transparency.  For a freshly constructed and configured
processor (sample rate `> 0`, any `lookaheadMs`) with `kneeWidthDb ≥ 0`, `minRecoveryMs > 0` and
`thresholdDb - kneeWidthDb/2 ≥ -100` (the detector's floor), and any sequence of blocks whose
samples all have amplitude below `10^((thresholdDb - kneeWidthDb/2)/20)`: with `d` the
processor's `delaySamples`, which lies in `[0, capacity - 1]`, the gain reduction is 0 on every
sample, and output frame `n` is the input frame of index `n - d` times `10^(makeupGainDb/20)` on
both channels (silence for `n < d`). -/
theorem claim3_below_threshold_transparent (sampleRate : ℝ) (hsr : 0 < sampleRate)
    (m : ParamsMsg ℝ) (centroid lowEnergy rms : ℝ)
    (hk : 0 ≤ (configured sampleRate m centroid lowEnergy rms).kneeWidth)
    (hrec : 0 < (configured sampleRate m centroid lowEnergy rms).minRecovery)
    (hfloor : -100 ≤ (configured sampleRate m centroid lowEnergy rms).saturationLevel
        - (configured sampleRate m centroid lowEnergy rms).kneeWidth / 2)
    (blocks : List (List (List ℝ)))
    (hin : ∀ f ∈ inputFrames blocks,
      |f.1| < jsMath.pow10 (((configured sampleRate m centroid lowEnergy rms).saturationLevel
          - (configured sampleRate m centroid lowEnergy rms).kneeWidth / 2) / 20) ∧
      |f.2| < jsMath.pow10 (((configured sampleRate m centroid lowEnergy rms).saturationLevel
          - (configured sampleRate m centroid lowEnergy rms).kneeWidth / 2) / 20))
    (n : Nat) (hn : n < (inputFrames blocks).length) :
    (0 ≤ delaySamples sampleRate (configured sampleRate m centroid lowEnergy rms) ∧
      delaySamples sampleRate (configured sampleRate m centroid lowEnergy rms)
        ≤ mathCeil (sampleRate * 0.020) - 1) ∧
    gainReductionDb (configured sampleRate m centroid lowEnergy rms).saturationLevel
      (configured sampleRate m centroid lowEnergy rms).kneeWidth
      (envelopeDb jsMath
        (runSamples jsMath sampleRate (configured sampleRate m centroid lowEnergy rms)
          ((inputFrames blocks).take (n + 1))).1.envelope) = 0 ∧
    (runBlocks jsMath sampleRate (configured sampleRate m centroid lowEnergy rms) blocks).2[n]?
      = some
        (some ((if (delaySamples sampleRate
                  (configured sampleRate m centroid lowEnergy rms)).toNat ≤ n
              then (inputFrames blocks).getD
                (n - (delaySamples sampleRate
                  (configured sampleRate m centroid lowEnergy rms)).toNat) (0, 0)
              else (0, 0)).1
            * jsMath.pow10 ((configured sampleRate m centroid lowEnergy rms).outputGain / 20)),
         some ((if (delaySamples sampleRate
                  (configured sampleRate m centroid lowEnergy rms)).toNat ≤ n
              then (inputFrames blocks).getD
                (n - (delaySamples sampleRate
                  (configured sampleRate m centroid lowEnergy rms)).toNat) (0, 0)
              else (0, 0)).2
            * jsMath.pow10 ((configured sampleRate m centroid lowEnergy rms).outputGain / 20))) := by
  set p := configured sampleRate m centroid lowEnergy rms with hp
  have hinv := (configured_reach jsMath sampleRate m centroid lowEnergy rms).ringInv hsr
  rw [← hp] at hinv
  set fs := inputFrames blocks with hfs
  set T := jsMath.pow10 ((p.saturationLevel - p.kneeWidth / 2) / 20) with hT
  have hrange := delaySamples_range sampleRate p (by rw [hinv.2.1]; exact mathCeil_pos hsr)
  rw [hinv.2.1] at hrange
  have hdec : decay jsMath sampleRate p ≤ 1 := (decay_lt_one hsr p hrec).le
  have henv : (runSamples jsMath sampleRate p (fs.take (n + 1))).1.envelope < T := by
    refine runSamples_envelope_lt jsMath sampleRate T _ p hdec ?_ ?_
    · intro f hf
      obtain ⟨h1, h2⟩ := hin f (List.mem_of_mem_take hf)
      exact max_lt h1 h2
    · show (0 : ℝ) < T
      exact jsMath_pow10_pos _
  have hlev := envelopeDb_le_of_lt hfloor henv
  have hgr := gainReductionDb_below hk hlev
  have hgain := gain_below_knee p.saturationLevel p.kneeWidth (outGainLin jsMath p) _ hk hlev
  have hout := runSamples_out_at jsMath sampleRate hinv fs n hn
  rw [delayed_frame_eq fs n _ hn, hgain] at hout
  refine ⟨hrange, hgr, ?_⟩
  rw [(runBlocks_eq_runSamples jsMath sampleRate blocks p rfl).1]
  exact hout

/-- Witness for the amended C3.  The spec's configuration (48 kHz, `thresholdDb = -8`,
`kneeWidthDb = 6`, `makeupGainDb = 8`, `lookaheadMs = 1.5`, `minRecoveryMs = 150`) with a block of
128 frames of amplitude `0.1` (`-20` dB, below the knee's lower boundary `-11` dB): the delay is 72
samples and output frame 100 is the input times `10^(8/20)`.  The same with `lookaheadMs = 20`,
the full ring, and eight such blocks: the delay is 959 samples and output frame 1000 is the input
times `10^(8/20)`. -/
theorem claim3_witness :
    (delaySamples (48000 : ℝ)
        (configured 48000 ⟨some (-8), some 6, some 8, some 1.5, some 150⟩ 0 0 0) = 72 ∧
      (runBlocks jsMath (48000 : ℝ)
          (configured 48000 ⟨some (-8), some 6, some 8, some 1.5, some 150⟩ 0 0 0)
          [[List.replicate 128 0.1, List.replicate 128 0.1]]).2[100]?
        = some (some ((0.1 : ℝ) * jsMath.pow10 ((8 : ℝ) / 20)),
                some ((0.1 : ℝ) * jsMath.pow10 ((8 : ℝ) / 20)))) ∧
    (delaySamples (48000 : ℝ)
        (configured 48000 ⟨some (-8), some 6, some 8, some 20, some 150⟩ 0 0 0) = 959 ∧
      (runBlocks jsMath (48000 : ℝ)
          (configured 48000 ⟨some (-8), some 6, some 8, some 20, some 150⟩ 0 0 0)
          (List.replicate 8 [List.replicate 128 0.1, List.replicate 128 0.1])).2[1000]?
        = some (some ((0.1 : ℝ) * jsMath.pow10 ((8 : ℝ) / 20)),
                some ((0.1 : ℝ) * jsMath.pow10 ((8 : ℝ) / 20)))) := by
  have hd1 : delaySamples (48000 : ℝ)
      (configured 48000 ⟨some (-8), some 6, some 8, some 1.5, some 150⟩ 0 0 0) = 72 := by
    norm_num [delaySamples, configured, onmessage, LimiterProcessor.create, mathRound, mathCeil]
  have hd2 : delaySamples (48000 : ℝ)
      (configured 48000 ⟨some (-8), some 6, some 8, some 20, some 150⟩ 0 0 0) = 959 := by
    norm_num [delaySamples, configured, onmessage, LimiterProcessor.create, mathRound, mathCeil]
  have hfs1 : inputFrames [[List.replicate 128 (0.1 : ℝ), List.replicate 128 (0.1 : ℝ)]]
      = List.replicate 128 ((0.1 : ℝ), (0.1 : ℝ)) := by
    simp [inputFrames, blockFrames, List.zip_replicate]
  have hfs2 : inputFrames
      (List.replicate 8 [List.replicate 128 (0.1 : ℝ), List.replicate 128 (0.1 : ℝ)])
      = List.replicate 1024 ((0.1 : ℝ), (0.1 : ℝ)) := by
    rw [inputFrames_replicate]
  have hT : (0.1 : ℝ) < jsMath.pow10 (((-8 : ℝ) - 6 / 2) / 20) := by
    have h1 : jsMath.pow10 (-1) = 0.1 := by
      have := jsMath_pow10_int (-1)
      norm_num at this ⊢
      exact this
    rw [← h1]
    exact jsMath_pow10_lt (by norm_num)
  have hin : ∀ (k : Nat) (la : ℝ), ∀ f ∈ List.replicate k ((0.1 : ℝ), (0.1 : ℝ)),
      |f.1| < jsMath.pow10 (((configured (48000 : ℝ)
          ⟨some (-8), some 6, some 8, some la, some 150⟩ 0 0 0).saturationLevel
        - (configured (48000 : ℝ)
          ⟨some (-8), some 6, some 8, some la, some 150⟩ 0 0 0).kneeWidth / 2) / 20) ∧
      |f.2| < jsMath.pow10 (((configured (48000 : ℝ)
          ⟨some (-8), some 6, some 8, some la, some 150⟩ 0 0 0).saturationLevel
        - (configured (48000 : ℝ)
          ⟨some (-8), some 6, some 8, some la, some 150⟩ 0 0 0).kneeWidth / 2) / 20) := by
    intro k la f hf
    rw [List.eq_of_mem_replicate hf]
    have e : (configured (48000 : ℝ) ⟨some (-8), some 6, some 8, some la, some 150⟩
        0 0 0).saturationLevel - (configured (48000 : ℝ)
        ⟨some (-8), some 6, some 8, some la, some 150⟩ 0 0 0).kneeWidth / 2
        = (-8 : ℝ) - 6 / 2 := rfl
    rw [e, abs_of_pos (by norm_num)]
    exact ⟨hT, hT⟩
  obtain ⟨-, -, h3⟩ := claim3_below_threshold_transparent 48000 (by norm_num)
    ⟨some (-8), some 6, some 8, some 1.5, some 150⟩ 0 0 0
    (by norm_num [configured, onmessage]) (by norm_num [configured, onmessage])
    (by norm_num [configured, onmessage])
    [[List.replicate 128 0.1, List.replicate 128 0.1]]
    (by rw [hfs1]; exact hin 128 1.5)
    100 (by rw [hfs1]; simp)
  obtain ⟨-, -, h4⟩ := claim3_below_threshold_transparent 48000 (by norm_num)
    ⟨some (-8), some 6, some 8, some 20, some 150⟩ 0 0 0
    (by norm_num [configured, onmessage]) (by norm_num [configured, onmessage])
    (by norm_num [configured, onmessage])
    (List.replicate 8 [List.replicate 128 0.1, List.replicate 128 0.1])
    (by rw [hfs2]; exact hin 1024 20)
    1000 (by rw [hfs2, List.length_replicate]; norm_num)
  rw [hd1] at h3
  rw [hd2] at h4
  refine ⟨⟨hd1, ?_⟩, hd2, ?_⟩
  · rw [h3, hfs1]
    simp [configured, onmessage]
  · have ht : (959 : Int).toNat = 959 := rfl
    have hg : (configured (48000 : ℝ)
        ⟨some (-8), some 6, some 8, some 20, some 150⟩ 0 0 0).outputGain = 8 := rfl
    rw [h4, hfs2, ht, if_pos (by norm_num : (959 : ℕ) ≤ 1000), List.getD_eq_getElem?_getD,
      List.getElem?_replicate, if_pos (by norm_num : 1000 - 959 < 1024), Option.getD_some, hg]

/-- C4: exact delay of the ring buffer.  In every reachable state -- whatever frames were processed
and whatever `params` messages changed the lookahead between blocks -- and for every delay `d` in
`[0, capacity-1]`, the ring step that `process` performs for the next frame `f` (global index
`n = hist.length`) returns, on each channel, the input sample of index `n - d` when `d ≤ n` and
the initial silence `0` when `n < d`; the delay `delaySamples` that `process` uses is such a `d`. -/
theorem claim4_ring_exact_delay [FloorRing α] (M : MathFns α) (sampleRate : α)
    (hsr : 0 < sampleRate) (hist : List (α × α)) (p : LimiterProcessor α)
    (h : Reach M sampleRate hist p) (f : α × α) (dec peak : α) (d : Int) (hd0 : 0 ≤ d)
    (hd : d ≤ mathCeil (sampleRate * 0.020) - 1) :
    (ringStep d (envelopeFollower sampleRate dec p peak) f.1 f.2).2
      = (some (if d.toNat ≤ hist.length
            then (((f :: hist).reverse).map Prod.fst).getD (hist.length - d.toNat) 0 else 0),
         some (if d.toNat ≤ hist.length
            then (((f :: hist).reverse).map Prod.snd).getD (hist.length - d.toNat) 0 else 0)) ∧
    0 ≤ delaySamples sampleRate p ∧
    delaySamples sampleRate p ≤ mathCeil (sampleRate * 0.020) - 1 := by
  have hinv := h.ringInv hsr
  obtain ⟨-, -, -, -, -, e1, -, -, -, -, e2, e3, e4⟩ :=
    envelopeFollower_frame sampleRate dec p peak
  have hinv' := hinv.congr e1 e2 e3 e4
  obtain ⟨-, r1, r2⟩ := ringStep_spec hinv' d hd0 (by omega) f.1 f.2
  have hrange := delaySamples_range sampleRate p (by rw [hinv.2.1]; exact hinv.1)
  rw [hinv.2.1] at hrange
  refine ⟨?_, hrange⟩
  have key : ∀ (g : α × α → α),
      ((f :: hist).map g).getD d.toNat 0
        = if d.toNat ≤ hist.length
            then (((f :: hist).reverse).map g).getD (hist.length - d.toNat) 0 else 0 := by
    intro g
    split_ifs with hle
    · rw [List.getD_eq_getElem?_getD, List.getD_eq_getElem?_getD, List.map_reverse,
        List.getElem?_reverse (by simp; omega)]
      congr 2
      simp
      omega
    · rw [List.getD_eq_getElem?_getD, List.getElem?_eq_none (by simp; omega)]
      rfl
  rw [Prod.ext_iff]
  exact ⟨by rw [r1]; exact congrArg some (key Prod.fst),
    by rw [r2]; exact congrArg some (key Prod.snd)⟩

/-- Witness for C4: at 48 kHz, after the frame `(2, 3)`, the ring step for the next frame `(5, 7)`
with delay `1` returns `(2, 3)`. -/
theorem claim4_witness :
    (0 : ℝ) < 48000 ∧ (1 : Int) ≤ mathCeil ((48000 : ℝ) * 0.020) - 1 ∧
    (ringStep 1 (envelopeFollower (48000 : ℝ) 0
        (stepSample jsMath 48000 (LimiterProcessor.create 48000) (2, 3)).1 7) 5 7).2
      = (some 2, some 3) := by
  have hc : (1 : Int) ≤ mathCeil ((48000 : ℝ) * 0.020) - 1 := by
    have : (1 : Int) < mathCeil ((48000 : ℝ) * 0.020) := Int.lt_ceil.mpr (by norm_num)
    omega
  have h := (claim4_ring_exact_delay jsMath (48000 : ℝ) (by norm_num) [(2, 3)] _
    (Reach.sample (2, 3) Reach.init) (5, 7) 0 7 1 (by norm_num) hc).1
  refine ⟨by norm_num, hc, ?_⟩
  simpa using h

/-- C5: the gain reduction computed in `process` (lines 127-138) is the specified pure function
`reductionDb(levelDb, thresholdDb, kneeWidthDb)`: `min(0, thresholdDb - levelDb)` in the hard
region, `thresholdDb - levelDb` above the knee and `-(x*x)/(2*kneeWidthDb)` inside it, for all
inputs. -/
theorem claim5_gainReductionDb_eq_specReductionDb (levelDb thresholdDb kneeWidthDb : α) :
    gainReductionDb thresholdDb kneeWidthDb levelDb
      = specReductionDb levelDb thresholdDb kneeWidthDb ∧
    specReductionDb levelDb thresholdDb kneeWidthDb
      = (if kneeWidthDb ≤ 0 ∨ levelDb < thresholdDb - kneeWidthDb / 2 then
          min 0 (thresholdDb - levelDb)
        else if levelDb > thresholdDb + kneeWidthDb / 2 then thresholdDb - levelDb
        else -((levelDb - (thresholdDb - kneeWidthDb / 2))
                * (levelDb - (thresholdDb - kneeWidthDb / 2))) / (2 * kneeWidthDb)) :=
  ⟨gainReductionDb_spec_aux levelDb thresholdDb kneeWidthDb, rfl⟩

/-- C6: for every threshold and every knee width `≥ 0` the gain curve is continuous at both knee
boundaries: its left and right limits there equal its value, which is `0` at
`thresholdDb - kneeWidthDb/2` and `-kneeWidthDb/2` at `thresholdDb + kneeWidthDb/2`. -/
theorem claim6_gainReductionDb_continuous_at_knee (sat knee : ℝ) (hk : 0 ≤ knee) :
    (ContinuousAt (gainReductionDb sat knee) (sat - knee / 2) ∧
      Filter.Tendsto (gainReductionDb sat knee) (nhdsWithin (sat - knee / 2) (Set.Iio (sat - knee / 2)))
        (nhds 0) ∧
      Filter.Tendsto (gainReductionDb sat knee) (nhdsWithin (sat - knee / 2) (Set.Ioi (sat - knee / 2)))
        (nhds 0) ∧
      gainReductionDb sat knee (sat - knee / 2) = 0) ∧
    (ContinuousAt (gainReductionDb sat knee) (sat + knee / 2) ∧
      Filter.Tendsto (gainReductionDb sat knee) (nhdsWithin (sat + knee / 2) (Set.Iio (sat + knee / 2)))
        (nhds (-knee / 2)) ∧
      Filter.Tendsto (gainReductionDb sat knee) (nhdsWithin (sat + knee / 2) (Set.Ioi (sat + knee / 2)))
        (nhds (-knee / 2)) ∧
      gainReductionDb sat knee (sat + knee / 2) = -knee / 2) := by
  have hc := @continuous_gainReductionDb sat knee hk
  have v1 : gainReductionDb sat knee (sat - knee / 2) = 0 := gainReductionDb_below hk le_rfl
  have v2 : gainReductionDb sat knee (sat + knee / 2) = -knee / 2 := by
    rw [gainReductionDb_above hk le_rfl]
    ring
  have c1 := hc.continuousAt (x := sat - knee / 2)
  have c2 := hc.continuousAt (x := sat + knee / 2)
  have t1 : Filter.Tendsto (gainReductionDb sat knee) (nhds (sat - knee / 2)) (nhds 0) := by
    have := c1.tendsto
    rwa [v1] at this
  have t2 : Filter.Tendsto (gainReductionDb sat knee) (nhds (sat + knee / 2))
      (nhds (-knee / 2)) := by
    have := c2.tendsto
    rwa [v2] at this
  exact ⟨⟨c1, t1.mono_left nhdsWithin_le_nhds, t1.mono_left nhdsWithin_le_nhds, v1⟩,
    ⟨c2, t2.mono_left nhdsWithin_le_nhds, t2.mono_left nhdsWithin_le_nhds, v2⟩⟩

/-- Witness for C6 at `thresholdDb = -8`, `kneeWidthDb = 6`. -/
theorem claim6_witness :
    (0 : ℝ) ≤ 6 ∧ ContinuousAt (gainReductionDb (-8 : ℝ) 6) (-8 - 6 / 2) ∧
      gainReductionDb (-8 : ℝ) 6 (-8 + 6 / 2) = -6 / 2 :=
  ⟨by norm_num,
    (claim6_gainReductionDb_continuous_at_knee (-8) 6 (by norm_num)).1.1,
    (claim6_gainReductionDb_continuous_at_knee (-8) 6 (by norm_num)).2.2.2.2⟩

/-- C7 fails for the hard knee: with `kneeWidthDb = 0` the gain curve `min(0, thresholdDb - levelDb)`
has no derivative at `levelDb = thresholdDb - kneeWidthDb/2 = thresholdDb` (slope `0` on the left,
`-1` on the right). -/
theorem claim7_counterexample :
    ¬ DifferentiableAt ℝ (gainReductionDb (-8 : ℝ) 0) (-8 - 0 / 2) := by
  have h := not_differentiableAt_hard_knee (-8)
  norm_num at h ⊢
  exact h

/-- C7 (amended): for every threshold and every knee width `> 0` the gain curve is differentiable
everywhere, and its derivative is continuous at both knee boundaries, with slope `0` at
`thresholdDb - kneeWidthDb/2` and `-1` at `thresholdDb + kneeWidthDb/2`. -/
theorem claim7_gainReductionDb_deriv_continuous_at_knee (sat knee : ℝ) (hk : 0 < knee) :
    (∀ l, DifferentiableAt ℝ (gainReductionDb sat knee) l) ∧
    ContinuousAt (deriv (gainReductionDb sat knee)) (sat - knee / 2) ∧
    ContinuousAt (deriv (gainReductionDb sat knee)) (sat + knee / 2) ∧
    deriv (gainReductionDb sat knee) (sat - knee / 2) = 0 ∧
    deriv (gainReductionDb sat knee) (sat + knee / 2) = -1 := by
  refine ⟨fun l => (hasDerivAt_gainReductionDb hk l).differentiableAt, ?_, ?_, ?_, ?_⟩
  · rw [deriv_gainReductionDb hk]
    exact (continuous_kneeSlope sat knee).continuousAt
  · rw [deriv_gainReductionDb hk]
    exact (continuous_kneeSlope sat knee).continuousAt
  · rw [deriv_gainReductionDb hk, kneeSlope_lower hk]
  · rw [deriv_gainReductionDb hk, kneeSlope_upper hk]

/-- Witness for the amended C7 at `thresholdDb = -8`, `kneeWidthDb = 6`. -/
theorem claim7_witness :
    (0 : ℝ) < 6 ∧ deriv (gainReductionDb (-8 : ℝ) 6) (-8 - 6 / 2) = 0 ∧
      deriv (gainReductionDb (-8 : ℝ) 6) (-8 + 6 / 2) = -1 :=
  ⟨by norm_num,
    (claim7_gainReductionDb_deriv_continuous_at_knee (-8) 6 (by norm_num)).2.2.2.1,
    (claim7_gainReductionDb_deriv_continuous_at_knee (-8) 6 (by norm_num)).2.2.2.2⟩

/-- C8: lookahead protection.  From any reachable state, if the frame `f` triggers an attack (its
stereo peak exceeds the envelope), then after `f` and any `k ≤ delaySamples` further frames `fs`
the envelope is still at least that peak; and when `k = delaySamples` the frame then leaving the
delay line is `f` itself, output on both channels at amplitude at most
`10^((thresholdDb + makeupGainDb)/20)`. -/
theorem claim8_lookahead_protection (sampleRate : ℝ) (hsr : 0 < sampleRate)
    (hist : List (ℝ × ℝ)) (p : LimiterProcessor ℝ) (h : Reach jsMath sampleRate hist p)
    (f : ℝ × ℝ) (hattack : max |f.1| |f.2| > p.envelope) (fs : List (ℝ × ℝ))
    (hlen : (fs.length : Int) ≤ delaySamples sampleRate p) :
    max |f.1| |f.2| ≤ (runSamples jsMath sampleRate p (f :: fs)).1.envelope ∧
    ((fs.length : Int) = delaySamples sampleRate p →
      (runSamples jsMath sampleRate p (f :: fs)).2[fs.length]?
        = some
          (some (f.1 * gain jsMath p.saturationLevel p.kneeWidth (outGainLin jsMath p)
              (runSamples jsMath sampleRate p (f :: fs)).1.envelope),
           some (f.2 * gain jsMath p.saturationLevel p.kneeWidth (outGainLin jsMath p)
              (runSamples jsMath sampleRate p (f :: fs)).1.envelope)) ∧
      |f.1 * gain jsMath p.saturationLevel p.kneeWidth (outGainLin jsMath p)
          (runSamples jsMath sampleRate p (f :: fs)).1.envelope|
        ≤ jsMath.pow10 ((p.saturationLevel + p.outputGain) / 20) ∧
      |f.2 * gain jsMath p.saturationLevel p.kneeWidth (outGainLin jsMath p)
          (runSamples jsMath sampleRate p (f :: fs)).1.envelope|
        ≤ jsMath.pow10 ((p.saturationLevel + p.outputGain) / 20)) := by
  have hinv := h.ringInv hsr
  have henv := (envelope_held_after_attack jsMath sampleRate hsr p hinv.2.1 f hattack fs hlen).1
  refine ⟨henv, fun hd => ⟨?_, ?_, ?_⟩⟩
  · have := runSamples_out_at jsMath sampleRate hinv (f :: fs) fs.length (by simp)
    rw [List.take_of_length_le (by simp)] at this
    have hget : ((f :: fs).reverse ++ hist).getD (delaySamples sampleRate p).toNat (0, 0) = f := by
      rw [← hd, Int.toNat_natCast, List.getD_eq_getElem?_getD, List.reverse_cons,
        List.append_assoc, List.getElem?_append_right (by simp)]
      simp
    rw [hget] at this
    exact this
  · apply mul_gain_le_ceiling
    exact le_trans (le_max_left _ _) (le_trans henv (le_max_left _ _))
  · apply mul_gain_le_ceiling
    exact le_trans (le_max_right _ _) (le_trans henv (le_max_left _ _))

/-- Witness for C8: the default processor at 48 kHz (`delaySamples = 24`).  The first frame
`(1, 1)` attacks and is followed by 24 silent frames: the envelope is still at least 1 after them
(the hold has not expired), and output frame 24 is the attacking frame itself, at an amplitude of at
most the ceiling `10^((thresholdDb + makeupGainDb)/20)`. -/
theorem claim8_witness :
    (0 : ℝ) < 48000 ∧
    max |((1 : ℝ), (1 : ℝ)).1| |((1 : ℝ), (1 : ℝ)).2|
      > (LimiterProcessor.create (48000 : ℝ)).envelope ∧
    ((List.replicate 24 ((0 : ℝ), (0 : ℝ))).length : Int)
      = delaySamples (48000 : ℝ) (LimiterProcessor.create 48000) ∧
    max |((1 : ℝ), (1 : ℝ)).1| |((1 : ℝ), (1 : ℝ)).2|
      ≤ (runSamples jsMath (48000 : ℝ) (LimiterProcessor.create 48000)
          (((1 : ℝ), (1 : ℝ)) :: List.replicate 24 ((0 : ℝ), (0 : ℝ)))).1.envelope ∧
    (runSamples jsMath (48000 : ℝ) (LimiterProcessor.create 48000)
        (((1 : ℝ), (1 : ℝ)) :: List.replicate 24 ((0 : ℝ), (0 : ℝ)))).2[
          (List.replicate 24 ((0 : ℝ), (0 : ℝ))).length]?
      = some
        (some (((1 : ℝ), (1 : ℝ)).1
            * gain jsMath (LimiterProcessor.create (48000 : ℝ)).saturationLevel
                (LimiterProcessor.create (48000 : ℝ)).kneeWidth
                (outGainLin jsMath (LimiterProcessor.create (48000 : ℝ)))
                (runSamples jsMath (48000 : ℝ) (LimiterProcessor.create 48000)
                  (((1 : ℝ), (1 : ℝ)) :: List.replicate 24 ((0 : ℝ), (0 : ℝ)))).1.envelope),
         some (((1 : ℝ), (1 : ℝ)).2
            * gain jsMath (LimiterProcessor.create (48000 : ℝ)).saturationLevel
                (LimiterProcessor.create (48000 : ℝ)).kneeWidth
                (outGainLin jsMath (LimiterProcessor.create (48000 : ℝ)))
                (runSamples jsMath (48000 : ℝ) (LimiterProcessor.create 48000)
                  (((1 : ℝ), (1 : ℝ)) :: List.replicate 24 ((0 : ℝ), (0 : ℝ)))).1.envelope)) ∧
    |((1 : ℝ), (1 : ℝ)).1
        * gain jsMath (LimiterProcessor.create (48000 : ℝ)).saturationLevel
            (LimiterProcessor.create (48000 : ℝ)).kneeWidth
            (outGainLin jsMath (LimiterProcessor.create (48000 : ℝ)))
            (runSamples jsMath (48000 : ℝ) (LimiterProcessor.create 48000)
              (((1 : ℝ), (1 : ℝ)) :: List.replicate 24 ((0 : ℝ), (0 : ℝ)))).1.envelope|
      ≤ jsMath.pow10 (((LimiterProcessor.create (48000 : ℝ)).saturationLevel
          + (LimiterProcessor.create (48000 : ℝ)).outputGain) / 20) := by
  have h1 : max |((1 : ℝ), (1 : ℝ)).1| |((1 : ℝ), (1 : ℝ)).2|
      > (LimiterProcessor.create (48000 : ℝ)).envelope := by
    norm_num [LimiterProcessor.create]
  have hd0 : delaySamples (48000 : ℝ) (LimiterProcessor.create 48000) = 24 := by
    norm_num [delaySamples, LimiterProcessor.create, mathRound, mathCeil]
  have hd : ((List.replicate 24 ((0 : ℝ), (0 : ℝ))).length : Int)
      = delaySamples (48000 : ℝ) (LimiterProcessor.create 48000) := by
    rw [hd0, List.length_replicate]
    rfl
  obtain ⟨e1, e2⟩ := claim8_lookahead_protection 48000 (by norm_num) [] _ Reach.init
    ((1 : ℝ), (1 : ℝ)) h1 (List.replicate 24 ((0 : ℝ), (0 : ℝ))) (le_of_eq hd)
  obtain ⟨o1, o2, -⟩ := e2 hd
  exact ⟨by norm_num, h1, hd, e1, o1, o2⟩

/-- C9 fails for a lookahead above 200 ms: with `lookaheadMs = 300` at 48 kHz the first sample of
amplitude 1 triggers an attack, and the hold it sets is `200 ms = 9600` samples, which is less than
the lookahead converted to samples (`14400`) and differs from
`max(clamp(holdMs, 5, 200), lookaheadMs)` converted to samples. -/
theorem claim9_counterexample :
    (1 : ℚ) > (onmessage (LimiterProcessor.create (48000 : ℚ))
        (.params ⟨none, none, none, some 300, none⟩)).envelope ∧
    (envelopeFollower (48000 : ℚ) 0
        (onmessage (LimiterProcessor.create (48000 : ℚ))
          (.params ⟨none, none, none, some 300, none⟩)) 1).holdTimer = 9600 ∧
    (9600 : ℚ) < 300 * 0.001 * 48000 ∧
    (9600 : ℚ) ≠ max (min (max (5 * (1 + (0 * 0.9995 + 1 * 0.0005) * 4) * (1 + 0 * 3)
        * max 0.3 (1 - 0 / 8000)) 5) 200) 300 * 0.001 * 48000 := by
  refine ⟨?_, ?_, ?_, ?_⟩
  · norm_num [onmessage, LimiterProcessor.create]
  · norm_num [envelopeFollower, holdSamples, onmessage, LimiterProcessor.create, max_def, min_def]
  · norm_num
  · norm_num [max_def, min_def]

/-- C9 (amended): for any spectral features and any transient rate, the hold length set on an
attack is `clamp(max(holdMs, lookaheadMs), 5, 200)` milliseconds converted to samples, with
`holdMs = 5*densityFactor*lowFreqFactor*highFreqFactor`.  For `lookaheadMs ≤ 200` this equals
`max(clamp(holdMs, 5, 200), lookaheadMs)` milliseconds converted to samples and (for a sample rate
`≥ 0`) is never less than the configured lookahead converted to samples.  For `lookaheadMs > 200`
the hold is 200 ms converted to samples. -/
theorem claim9_hold_floor (sampleRate dec : α) (p : LimiterProcessor α) (peak : α)
    (hattack : peak > p.envelope) (hsr : 0 ≤ sampleRate) :
    let q := envelopeFollower sampleRate dec p peak
    let densityFactor := 1 + q.peakRate * 4
    let lowFreqFactor := 1 + p.lowEnergy * 3
    let highFreqFactor := max 0.3 (1 - p.centroid / 8000)
    q.holdTimer
      = min (max (max (5 * densityFactor * lowFreqFactor * highFreqFactor) p.lookaheadMs) 5) 200
          * 0.001 * sampleRate ∧
    (p.lookaheadMs ≤ 200 →
      q.holdTimer
        = max (min (max (5 * densityFactor * lowFreqFactor * highFreqFactor) 5) 200)
            p.lookaheadMs * 0.001 * sampleRate ∧
      p.lookaheadMs * 0.001 * sampleRate ≤ q.holdTimer) ∧
    (200 < p.lookaheadMs → q.holdTimer = 200 * 0.001 * sampleRate) := by
  intro q densityFactor lowFreqFactor highFreqFactor
  have hq : q.holdTimer = holdSamples sampleRate q.peakRate p.lowEnergy p.centroid p.lookaheadMs := by
    simp only [q, envelopeFollower, if_pos hattack]
  have hcode : q.holdTimer
      = min (max (max (5 * densityFactor * lowFreqFactor * highFreqFactor) p.lookaheadMs) 5) 200
          * 0.001 * sampleRate := by
    rw [hq]
    rfl
  refine ⟨hcode, fun hla => ?_, fun hla => ?_⟩
  · have key := clamp_max_comm (5 * densityFactor * lowFreqFactor * highFreqFactor)
      p.lookaheadMs hla
    have e : q.holdTimer
        = max (min (max (5 * densityFactor * lowFreqFactor * highFreqFactor) 5) 200) p.lookaheadMs
            * 0.001 * sampleRate := by
      rw [hq, ← key]
      rfl
    refine ⟨e, ?_⟩
    rw [e]
    have h1 : p.lookaheadMs
        ≤ max (min (max (5 * densityFactor * lowFreqFactor * highFreqFactor) 5) 200)
            p.lookaheadMs := le_max_right _ _
    have h2 : (0 : α) ≤ 0.001 := by norm_num
    exact mul_le_mul_of_nonneg_right (mul_le_mul_of_nonneg_right h1 h2) hsr
  · rw [hcode]
    have h1 : (200 : α)
        ≤ max (max (5 * densityFactor * lowFreqFactor * highFreqFactor) p.lookaheadMs) 5 :=
      le_trans hla.le (le_trans (le_max_right _ _) (le_max_left _ _))
    rw [min_eq_right h1]

/-- Witness for the amended C9 at 48 kHz, first sample of amplitude 1: the default processor
(lookahead 0.5 ms) gets a hold of at least the lookahead, `24` samples; with `lookaheadMs = 300`
the hold is `200 ms = 9600` samples. -/
theorem claim9_witness :
    (1 : ℚ) > (LimiterProcessor.create (48000 : ℚ)).envelope ∧ (0 : ℚ) ≤ 48000 ∧
    ((LimiterProcessor.create (48000 : ℚ)).lookaheadMs ≤ 200 ∧
      (LimiterProcessor.create (48000 : ℚ)).lookaheadMs * 0.001 * 48000
        ≤ (envelopeFollower (48000 : ℚ) 0 (LimiterProcessor.create 48000) 1).holdTimer) ∧
    ((200 : ℚ) < (onmessage (LimiterProcessor.create (48000 : ℚ))
        (.params ⟨none, none, none, some 300, none⟩)).lookaheadMs ∧
      (envelopeFollower (48000 : ℚ) 0
        (onmessage (LimiterProcessor.create (48000 : ℚ))
          (.params ⟨none, none, none, some 300, none⟩)) 1).holdTimer = 200 * 0.001 * 48000) := by
  have ha : (1 : ℚ) > (LimiterProcessor.create (48000 : ℚ)).envelope := by
    norm_num [LimiterProcessor.create]
  have ha2 : (1 : ℚ) > (onmessage (LimiterProcessor.create (48000 : ℚ))
      (.params ⟨none, none, none, some 300, none⟩)).envelope := by
    norm_num [onmessage, LimiterProcessor.create]
  have hl1 : (LimiterProcessor.create (48000 : ℚ)).lookaheadMs ≤ 200 := by
    norm_num [LimiterProcessor.create]
  have hl2 : (200 : ℚ) < (onmessage (LimiterProcessor.create (48000 : ℚ))
      (.params ⟨none, none, none, some 300, none⟩)).lookaheadMs := by
    norm_num [onmessage, LimiterProcessor.create]
  exact ⟨ha, by norm_num,
    ⟨hl1, ((claim9_hold_floor (48000 : ℚ) 0 (LimiterProcessor.create 48000) 1 ha
      (by norm_num)).2.1 hl1).2⟩,
    hl2, (claim9_hold_floor (48000 : ℚ) 0 (onmessage (LimiterProcessor.create (48000 : ℚ))
      (.params ⟨none, none, none, some 300, none⟩)) 1 ha2 (by norm_num)).2.2 hl2⟩

/-- C10: ring-cursor safety.  In every reachable state -- for every `lookaheadMs` a `params`
message may have set, negative or beyond the 20 ms capacity -- `delaySamples` lies in
`[0, capacity-1]`, the write index and the read index lie in `[0, capacity-1]`, both rings have
exactly `capacity` slots, and `(writeIndex - readIndex) mod capacity = delaySamples`. -/
theorem claim10_ring_cursor_safety [FloorRing α] (M : MathFns α) (sampleRate : α)
    (hsr : 0 < sampleRate) (hist : List (α × α)) (p : LimiterProcessor α)
    (h : Reach M sampleRate hist p) :
    p.maxDelaySamples = mathCeil (sampleRate * 0.020) ∧ 0 < p.maxDelaySamples ∧
    delaySamples sampleRate p
      = min (max (mathRound (p.lookaheadMs * 0.001 * sampleRate)) 0) (p.maxDelaySamples - 1) ∧
    0 ≤ delaySamples sampleRate p ∧ delaySamples sampleRate p ≤ p.maxDelaySamples - 1 ∧
    0 ≤ p.writeIndex ∧ p.writeIndex ≤ p.maxDelaySamples - 1 ∧
    0 ≤ readIndex p.writeIndex (delaySamples sampleRate p) p.maxDelaySamples ∧
    readIndex p.writeIndex (delaySamples sampleRate p) p.maxDelaySamples
      ≤ p.maxDelaySamples - 1 ∧
    (p.writeIndex - readIndex p.writeIndex (delaySamples sampleRate p) p.maxDelaySamples)
      % p.maxDelaySamples = delaySamples sampleRate p ∧
    (p.ringL.length : Int) = p.maxDelaySamples ∧ (p.ringR.length : Int) = p.maxDelaySamples := by
  obtain ⟨hc, hm, hlL, hlR, hw, -⟩ := h.ringInv hsr
  have hw0 : 0 ≤ p.writeIndex := hw ▸ Int.emod_nonneg _ hc.ne'
  have hw1 : p.writeIndex < mathCeil (sampleRate * 0.020) := hw ▸ Int.emod_lt_of_pos _ hc
  have hd := delaySamples_range sampleRate p (by rw [hm]; exact hc)
  rw [hm] at hd ⊢
  refine ⟨rfl, hc, ?_, hd.1, hd.2, hw0, by omega, ?_, ?_, ?_, by omega, by omega⟩
  · simp only [delaySamples, hm]
  · unfold readIndex; simp only []; split_ifs <;> omega
  · unfold readIndex; simp only []; split_ifs <;> omega
  · unfold readIndex
    simp only []
    split_ifs with hneg
    · have e : p.writeIndex - (p.writeIndex - delaySamples sampleRate p
          + mathCeil (sampleRate * 0.020))
          = delaySamples sampleRate p - mathCeil (sampleRate * 0.020) := by ring
      rw [e, ← Int.add_emod_self, Int.emod_eq_of_lt (by omega) (by omega)]
      ring
    · have e : p.writeIndex - (p.writeIndex - delaySamples sampleRate p)
          = delaySamples sampleRate p := by ring
      rw [e, Int.emod_eq_of_lt hd.1 (by omega)]

/-- Witness for C10: at 48 kHz, after a `params` message setting `lookaheadMs = 1000` (far beyond
the 20 ms ring), the delay is clamped to `capacity - 1 = 959` samples, inside the ring. -/
theorem claim10_witness :
    (0 : ℝ) < 48000 ∧
    delaySamples (48000 : ℝ)
      (onmessage (LimiterProcessor.create 48000) (.params ⟨none, none, none, some 1000, none⟩))
      = 959 ∧
    0 ≤ delaySamples (48000 : ℝ)
      (onmessage (LimiterProcessor.create 48000) (.params ⟨none, none, none, some 1000, none⟩)) ∧
    delaySamples (48000 : ℝ)
      (onmessage (LimiterProcessor.create 48000) (.params ⟨none, none, none, some 1000, none⟩))
      ≤ (onmessage (LimiterProcessor.create (48000 : ℝ))
          (.params ⟨none, none, none, some 1000, none⟩)).maxDelaySamples - 1 :=
  ⟨by norm_num,
    by norm_num [delaySamples, onmessage, LimiterProcessor.create, mathRound, mathCeil],
    (claim10_ring_cursor_safety jsMath (48000 : ℝ) (by norm_num) [] _
      (Reach.msg (.params ⟨none, none, none, some 1000, none⟩) Reach.init)).2.2.2.1,
    (claim10_ring_cursor_safety jsMath (48000 : ℝ) (by norm_num) [] _
      (Reach.msg (.params ⟨none, none, none, some 1000, none⟩) Reach.init)).2.2.2.2.1⟩

/-- C11: recovery bounds.  For `minRecoveryMs > 0` (and a sample rate `> 0`) and any spectral
features, the per-block `recoveryMs` is `clamp(minRecoveryMs*energyFactor*freqFactor,
minRecoveryMs, 5*minRecoveryMs)`, lies in `[minRecoveryMs, 5*minRecoveryMs]`, equals
`minRecoveryMs` for the construction-default features `0, 0, 0`, and the decay coefficient
`exp(-1/(recoveryMs/1000*sampleRate))` lies strictly between 0 and 1. -/
theorem claim11_recovery_bounds (sampleRate : ℝ) (hsr : 0 < sampleRate)
    (p : LimiterProcessor ℝ) (hrec : 0 < p.minRecovery) :
    recoveryMs p
      = min (max (p.minRecovery * (1 + p.lowEnergy * p.rms * 5)
          * max 0.2 (1 - p.centroid / 10000)) p.minRecovery) (p.minRecovery * 5) ∧
    p.minRecovery ≤ recoveryMs p ∧ recoveryMs p ≤ 5 * p.minRecovery ∧
    (p.centroid = 0 → p.lowEnergy = 0 → p.rms = 0 → recoveryMs p = p.minRecovery) ∧
    decay jsMath sampleRate p = Real.exp (-1 / (recoveryMs p / 1000 * sampleRate)) ∧
    0 < decay jsMath sampleRate p ∧ decay jsMath sampleRate p < 1 := by
  obtain ⟨h1, h2⟩ := recoveryMs_bounds p hrec.le
  refine ⟨rfl, h1, by linarith, ?_, rfl, decay_pos sampleRate p, decay_lt_one hsr p hrec⟩
  intro hc hl hr
  unfold recoveryMs
  simp only [hc, hl, hr]
  norm_num
  linarith

/-- Witness for C11: the freshly constructed processor (`minRecovery = 20`, features `0, 0, 0`) at
48 kHz. -/
theorem claim11_witness :
    (0 : ℝ) < 48000 ∧ 0 < (LimiterProcessor.create (48000 : ℝ)).minRecovery ∧
    recoveryMs (LimiterProcessor.create (48000 : ℝ))
      = (LimiterProcessor.create (48000 : ℝ)).minRecovery ∧
    decay jsMath 48000 (LimiterProcessor.create (48000 : ℝ)) < 1 := by
  have hrec : 0 < (LimiterProcessor.create (48000 : ℝ)).minRecovery := by
    norm_num [LimiterProcessor.create]
  have h := claim11_recovery_bounds 48000 (by norm_num) (LimiterProcessor.create 48000) hrec
  exact ⟨by norm_num, hrec, h.2.2.2.1 rfl rfl rfl, h.2.2.2.2.2.2⟩

/-- C12 fails: the hold set by an attack is not a whole number of samples, so the last decrement
takes the timer below zero.  The default processor at 48 kHz, after two blocks of 128 full-scale
frames: the first frame sets `holdTimer = 240.48`, the next 241 frames are hold steps, and the
timer is left at `-0.52`. -/
theorem claim12_counterexample :
    (runBlocks jsMath (48000 : ℝ) (LimiterProcessor.create 48000)
        [[List.replicate 128 1, List.replicate 128 1],
         [List.replicate 128 1, List.replicate 128 1]]).1.holdTimer = -0.52 ∧
    (-0.52 : ℝ) < 0 := by
  refine ⟨?_, by norm_num⟩
  have hfs : inputFrames [[List.replicate 128 (1 : ℝ), List.replicate 128 (1 : ℝ)],
      [List.replicate 128 1, List.replicate 128 1]]
      = ((1 : ℝ), (1 : ℝ)) :: (List.replicate 241 ((1 : ℝ), (1 : ℝ))
          ++ List.replicate 14 ((1 : ℝ), (1 : ℝ))) := by
    simp only [inputFrames, blockFrames, List.map, List.flatten, List.zip_replicate,
      List.append_nil, min_self]
    rw [List.append_replicate_replicate, List.append_replicate_replicate,
      ← List.replicate_succ]
  have hpk : ∀ n : Nat, ∀ g ∈ List.replicate n ((1 : ℝ), (1 : ℝ)), max |g.1| |g.2| = 1 := by
    intro n g hg
    rw [List.eq_of_mem_replicate hg]
    norm_num
  have hatt : max |((1 : ℝ), (1 : ℝ)).1| |((1 : ℝ), (1 : ℝ)).2|
      > (LimiterProcessor.create (48000 : ℝ)).envelope := by
    norm_num [LimiterProcessor.create]
  have h0 : (stepSample jsMath (48000 : ℝ) (LimiterProcessor.create 48000)
      ((1 : ℝ), (1 : ℝ))).1.holdTimer = 240.48 := by
    rw [(stepSample_envelope jsMath (48000 : ℝ) _ ((1 : ℝ), (1 : ℝ))).2.1,
      (envelopeFollower_attack (48000 : ℝ) _ _ hatt).2]
    norm_num [envelopeFollower, holdSamples, LimiterProcessor.create, max_def, min_def]
  have he0 : (stepSample jsMath (48000 : ℝ) (LimiterProcessor.create 48000)
      ((1 : ℝ), (1 : ℝ))).1.envelope = 1 := by
    rw [(stepSample_envelope jsMath (48000 : ℝ) _ ((1 : ℝ), (1 : ℝ))).1,
      (envelopeFollower_attack (48000 : ℝ) _ _ hatt).1]
    norm_num
  obtain ⟨e1, t1⟩ := runSamples_hold_phase jsMath (48000 : ℝ) 1
    (List.replicate 241 ((1 : ℝ), (1 : ℝ))) _ (hpk 241) he0
    (by rw [h0, List.length_replicate]; norm_num)
  obtain ⟨-, t2⟩ := runSamples_release_phase jsMath (48000 : ℝ) 1
    (List.replicate 14 ((1 : ℝ), (1 : ℝ))) _ (hpk 14) e1
    (by rw [t1, h0, List.length_replicate]; norm_num)
  have hone : ∀ q : LimiterProcessor ℝ, (runSamples jsMath (48000 : ℝ) q [((1 : ℝ), (1 : ℝ))]).1
      = (stepSample jsMath (48000 : ℝ) q ((1 : ℝ), (1 : ℝ))).1 := fun _ => rfl
  rw [(runBlocks_envState jsMath (48000 : ℝ) _ _ rfl).2.1, hfs,
    ← List.singleton_append, runSamples_append, runSamples_append]
  simp only []
  rw [hone, t2, t1, h0, List.length_replicate]
  norm_num

/-- C12 (amended): in every reachable state (sample rate `≥ 0`) the hold timer is above `-1`; and
in the hold state (no attack, timer `> 0`) a sample decrements it by exactly one while the
envelope stays frozen. -/
theorem claim12_holdTimer_invariant [FloorRing α] (M : MathFns α) (sampleRate : α)
    (hsr : 0 ≤ sampleRate) (hist : List (α × α)) (p : LimiterProcessor α)
    (h : Reach M sampleRate hist p) :
    -1 < p.holdTimer ∧
    ∀ f : α × α, ¬ max |f.1| |f.2| > p.envelope → p.holdTimer > 0 →
      (stepSample M sampleRate p f).1.holdTimer = p.holdTimer - 1 ∧
      (stepSample M sampleRate p f).1.envelope = p.envelope := by
  refine ⟨h.holdTimer_gt hsr, fun f h1 h2 => ?_⟩
  obtain ⟨s1, s2, -⟩ := stepSample_envelope M sampleRate p f
  obtain ⟨e1, e2⟩ := envelopeFollower_hold sampleRate (decay M sampleRate p) p h1 h2
  exact ⟨by rw [s2, e2], by rw [s1, e1]⟩

/-- Witness for the amended C12: the state after the first frame `(1, 1)` at 48 kHz is in the hold
state, and the next frame `(1, 1)` decrements the timer by one. -/
theorem claim12_witness :
    (0 : ℝ) ≤ 48000 ∧
    -1 < (stepSample jsMath 48000
        (LimiterProcessor.create 48000) (1, 1)).1.holdTimer ∧
    (stepSample jsMath 48000
        (stepSample jsMath 48000
          (LimiterProcessor.create 48000) (1, 1)).1 (1, 1)).1.holdTimer
      = (stepSample jsMath 48000
          (LimiterProcessor.create 48000) (1, 1)).1.holdTimer - 1 := by
  have hatt : max |((1 : ℝ), (1 : ℝ)).1| |((1 : ℝ), (1 : ℝ)).2|
      > (LimiterProcessor.create (48000 : ℝ)).envelope := by
    norm_num [LimiterProcessor.create]
  have he : (stepSample jsMath 48000
      (LimiterProcessor.create 48000) (1, 1)).1.envelope = 1 := by
    rw [(stepSample_envelope jsMath (48000 : ℝ) _ ((1 : ℝ), (1 : ℝ))).1,
      (envelopeFollower_attack (48000 : ℝ) _ _ hatt).1]
    norm_num
  have hh : (stepSample jsMath 48000
      (LimiterProcessor.create 48000) (1, 1)).1.holdTimer > 0 := by
    rw [(stepSample_envelope jsMath (48000 : ℝ) _ ((1 : ℝ), (1 : ℝ))).2.1,
      (envelopeFollower_attack (48000 : ℝ) _ _ hatt).2]
    exact holdSamples_pos (by norm_num) _ _ _ _
  have h := claim12_holdTimer_invariant jsMath 48000 (by norm_num)
    [(1, 1)] _ (Reach.sample (1, 1) Reach.init)
  exact ⟨by norm_num, h.1, (h.2 (1, 1) (by rw [he]; norm_num) hh).1⟩

/-- C13: transient-rate invariant.  In every state reachable from the freshly constructed
processor (any input frames, any messages) the transient rate `peakRate` is in `[0, 1]` and the
envelope is `≥ 0`; and each sample updates the transient rate to
`peakRate*0.9995 + hit*0.0005` with `hit = 1` if `peak ≥ envelope*0.9` and `0` otherwise. -/
theorem claim13_transientRate_invariant (sampleRate : ℝ) (hist : List (ℝ × ℝ))
    (p : LimiterProcessor ℝ) (h : Reach jsMath sampleRate hist p) :
    0 ≤ p.peakRate ∧ p.peakRate ≤ 1 ∧ 0 ≤ p.envelope ∧
    ∀ f : ℝ × ℝ, (stepSample jsMath sampleRate p f).1.peakRate
      = p.peakRate * 0.9995
        + (if max |f.1| |f.2| ≥ p.envelope * 0.9 then 1 else 0) * 0.0005 := by
  obtain ⟨h1, h2, h3⟩ := h.envState (fun x => (jsMath_exp_pos x).le)
  refine ⟨h1, h2, h3, fun f => ?_⟩
  rw [(stepSample_envelope jsMath sampleRate p f).2.2, envelopeFollower_peakRate]

/-- Witness for C13: the state after the first frame `(1, 1)` at 48 kHz. -/
theorem claim13_witness :
    0 ≤ (stepSample jsMath (48000 : ℝ) (LimiterProcessor.create 48000) (1, 1)).1.peakRate ∧
    (stepSample jsMath (48000 : ℝ) (LimiterProcessor.create 48000) (1, 1)).1.peakRate ≤ 1 ∧
    0 ≤ (stepSample jsMath (48000 : ℝ) (LimiterProcessor.create 48000) (1, 1)).1.envelope :=
  ⟨(claim13_transientRate_invariant 48000 [(1, 1)] _ (Reach.sample (1, 1) Reach.init)).1,
    (claim13_transientRate_invariant 48000 [(1, 1)] _ (Reach.sample (1, 1) Reach.init)).2.1,
    (claim13_transientRate_invariant 48000 [(1, 1)] _ (Reach.sample (1, 1) Reach.init)).2.2.1⟩

/-- C14: meter report content.  In every state of a processor, with `wi` and `wo` the input and
output frames processed since the previous report (or since construction): the four accumulators
are the maxima of the absolute samples of the window; a call of `process` on a live processor with
a non-empty input posts a report exactly when it brings the block counter to 6; a posted report
carries, per channel, `20*log10(max(m, 0.00001))` with `m` the maximum absolute sample over the
window including that block, so each value is `≥ -100` dB, and all four accumulators and the block
counter are zero right after it; and when no report is posted the accumulators do not decrease. -/
theorem claim14_meter_report_content (sampleRate : ℝ) (wi : List (ℝ × ℝ))
    (wo : List (Option ℝ × Option ℝ)) (p : LimiterProcessor ℝ)
    (h : MeterReach jsMath sampleRate wi wo p) (input : List (List ℝ)) :
    (p.inPeakL = maxAbs (wi.map Prod.fst) ∧ p.inPeakR = maxAbs (wi.map Prod.snd) ∧
      p.outPeakL = maxAbs (wo.map Prod.fst).reduceOption ∧
      p.outPeakR = maxAbs (wo.map Prod.snd).reduceOption) ∧
    (p.alive = true → input ≠ [] →
      ((process jsMath sampleRate p input).posted.isSome = true ↔ p.meterBlockCount + 1 ≥ 6)) ∧
    (∀ rep, (process jsMath sampleRate p input).posted = some rep →
      rep.inL = 20 * jsMath.log10
        (max (maxAbs ((wi ++ blockFrames input).map Prod.fst)) 0.00001) ∧
      rep.inR = 20 * jsMath.log10
        (max (maxAbs ((wi ++ blockFrames input).map Prod.snd)) 0.00001) ∧
      rep.outL = 20 * jsMath.log10
        (max (maxAbs ((wo ++ (process jsMath sampleRate p input).out).map
          Prod.fst).reduceOption) 0.00001) ∧
      rep.outR = 20 * jsMath.log10
        (max (maxAbs ((wo ++ (process jsMath sampleRate p input).out).map
          Prod.snd).reduceOption) 0.00001) ∧
      -100 ≤ rep.inL ∧ -100 ≤ rep.inR ∧ -100 ≤ rep.outL ∧ -100 ≤ rep.outR ∧
      (process jsMath sampleRate p input).state.inPeakL = 0 ∧
      (process jsMath sampleRate p input).state.inPeakR = 0 ∧
      (process jsMath sampleRate p input).state.outPeakL = 0 ∧
      (process jsMath sampleRate p input).state.outPeakR = 0 ∧
      (process jsMath sampleRate p input).state.meterBlockCount = 0) ∧
    ((process jsMath sampleRate p input).posted = none →
      p.inPeakL ≤ (process jsMath sampleRate p input).state.inPeakL ∧
      p.inPeakR ≤ (process jsMath sampleRate p input).state.inPeakR ∧
      p.outPeakL ≤ (process jsMath sampleRate p input).state.outPeakL ∧
      p.outPeakR ≤ (process jsMath sampleRate p input).state.outPeakR) := by
  obtain ⟨i1, i2, i3, i4⟩ := h.inv
  refine ⟨⟨i1, i2, i3, i4⟩, fun ha hi => (process_report jsMath sampleRate p input ha hi).1,
    ?_, ?_⟩
  · intro rep hrep
    by_cases hidle : p.alive = false ∨ input = []
    · rw [process_idle jsMath sampleRate p input hidle] at hrep
      exact Option.noConfusion hrep
    · have ha : p.alive = true := by
        cases hp : p.alive
        · exact absurd (Or.inl hp) hidle
        · rfl
      have hi : input ≠ [] := fun h => hidle (Or.inr h)
      obtain ⟨h6, hn6⟩ := process_meter jsMath sampleRate p input ha hi
      have hc : p.meterBlockCount + 1 ≥ 6 := by
        by_contra hc
        rw [(hn6 hc).1] at hrep
        exact Option.noConfusion hrep
      have hcount := (process_report jsMath sampleRate p input ha hi).2.1
      rw [if_pos hc] at hcount
      obtain ⟨hp, a1, a2, a3, a4⟩ := h6 hc
      rw [hp] at hrep
      have hrep' := (Option.some.inj hrep).symm
      subst hrep'
      simp only [List.map_append, List.reduceOption_append, maxAbs_append, ← i1, ← i2, ← i3,
        ← i4]
      exact ⟨toDb_jsMath _, toDb_jsMath _, toDb_jsMath _, toDb_jsMath _,
        toDb_ge _, toDb_ge _, toDb_ge _, toDb_ge _, a1, a2, a3, a4, hcount⟩
  · intro hnone
    by_cases hidle : p.alive = false ∨ input = []
    · rw [process_idle jsMath sampleRate p input hidle]
      exact ⟨le_rfl, le_rfl, le_rfl, le_rfl⟩
    · have ha : p.alive = true := by
        cases hp : p.alive
        · exact absurd (Or.inl hp) hidle
        · rfl
      have hi : input ≠ [] := fun h => hidle (Or.inr h)
      obtain ⟨h6, hn6⟩ := process_meter jsMath sampleRate p input ha hi
      have hc : ¬ p.meterBlockCount + 1 ≥ 6 := by
        intro hc
        rw [(h6 hc).1] at hnone
        exact Option.noConfusion hnone
      obtain ⟨-, a1, a2, a3, a4⟩ := hn6 hc
      rw [a1, a2, a3, a4]
      exact ⟨le_max_left _ _, le_max_left _ _, le_max_left _ _, le_max_left _ _⟩

/-- Witness for C14: the fresh processor at 48 kHz fed six blocks of 128 full-scale frames.  The
first five blocks post nothing; the sixth posts a report whose input level is
`20*log10(max(1, 0.00001)) = 0` dB, the maximum over all 768 frames of the window, and leaves the
input accumulator and the block counter at zero. -/
theorem claim14_witness :
    (runBlocks jsMath (48000 : ℝ) (LimiterProcessor.create 48000)
      (List.replicate 5 [List.replicate 128 1, List.replicate 128 1])).1.alive = true ∧
    (∃ rep, (process jsMath (48000 : ℝ)
        (runBlocks jsMath (48000 : ℝ) (LimiterProcessor.create 48000)
          (List.replicate 5 [List.replicate 128 1, List.replicate 128 1])).1
        [List.replicate 128 1, List.replicate 128 1]).posted = some rep ∧
      rep.inL = 0 ∧ rep.inR = 0 ∧ -100 ≤ rep.outL) ∧
    (process jsMath (48000 : ℝ)
        (runBlocks jsMath (48000 : ℝ) (LimiterProcessor.create 48000)
          (List.replicate 5 [List.replicate 128 1, List.replicate 128 1])).1
        [List.replicate 128 1, List.replicate 128 1]).state.inPeakL = 0 ∧
    (process jsMath (48000 : ℝ)
        (runBlocks jsMath (48000 : ℝ) (LimiterProcessor.create 48000)
          (List.replicate 5 [List.replicate 128 1, List.replicate 128 1])).1
        [List.replicate 128 1, List.replicate 128 1]).state.meterBlockCount = 0 := by
  have hcnt : (LimiterProcessor.create (48000 : ℝ)).meterBlockCount = 0 := rfl
  obtain ⟨hm, hc, ha⟩ := MeterReach.quiet_run
    (List.replicate 5 [List.replicate 128 (1 : ℝ), List.replicate 128 (1 : ℝ)]) [] []
    (LimiterProcessor.create (48000 : ℝ)) (MeterReach.init (M := jsMath)) rfl
    (fun b hb => by rw [List.eq_of_mem_replicate hb]; exact List.cons_ne_nil _ _)
    (by rw [hcnt, List.length_replicate]; norm_num)
  rw [hcnt, List.length_replicate] at hc
  obtain ⟨-, hiff, hrep, -⟩ := claim14_meter_report_content 48000 _ _ _ hm
    [List.replicate 128 1, List.replicate 128 1]
  have hsome := (hiff ha (List.cons_ne_nil _ _)).2 (by rw [hc])
  obtain ⟨rep, hp⟩ := Option.isSome_iff_exists.mp hsome
  obtain ⟨r1, r2, -, -, -, -, r7, -, s1, -, -, -, s5⟩ := hrep rep hp
  have hw : ∀ g : (ℝ × ℝ) → ℝ, g ((1 : ℝ), (1 : ℝ)) = 1 →
      maxAbs ((([] : List (ℝ × ℝ))
        ++ inputFrames (List.replicate 5 [List.replicate 128 (1 : ℝ), List.replicate 128 (1 : ℝ)])
        ++ blockFrames [List.replicate 128 (1 : ℝ), List.replicate 128 (1 : ℝ)]).map g) = 1 := by
    intro g hg
    rw [List.nil_append, inputFrames_replicate, blockFrames_replicate,
      List.append_replicate_replicate, List.map_replicate, hg]
    exact (maxAbs_replicate 767 (1 : ℝ)).trans (abs_one)
  have hz : 20 * jsMath.log10 (max (1 : ℝ) 0.00001) = 0 := by
    rw [max_eq_left (by norm_num)]
    show 20 * Real.logb 10 1 = 0
    rw [Real.logb_one, mul_zero]
  rw [hw Prod.fst rfl, hz] at r1
  rw [hw Prod.snd rfl, hz] at r2
  exact ⟨ha, ⟨rep, hp, r1, r2, r7⟩, s1, s5⟩

/-- C15 fails: the meter counts blocks, not samples.  The same 768 silent frames at 48 kHz give one
report after frame 768 when delivered as 6 blocks of 128, and two reports, after frames 384 and
768, when delivered as 12 blocks of 64. -/
theorem claim15_counterexample :
    inputFrames (List.replicate 6 [List.replicate 128 (0 : ℝ), List.replicate 128 (0 : ℝ)])
      = inputFrames (List.replicate 12 [List.replicate 64 (0 : ℝ), List.replicate 64 (0 : ℝ)]) ∧
    (runReports jsMath (48000 : ℝ) (LimiterProcessor.create 48000) 0
        (List.replicate 6 [List.replicate 128 0, List.replicate 128 0])).map Prod.fst = [768] ∧
    (runReports jsMath (48000 : ℝ) (LimiterProcessor.create 48000) 0
        (List.replicate 12 [List.replicate 64 0, List.replicate 64 0])).map Prod.fst
      = [384, 768] := by
  refine ⟨?_, ?_, ?_⟩
  · rw [inputFrames_replicate, inputFrames_replicate]
  · rw [runReports_positions jsMath (48000 : ℝ) _ _ 0 rfl
      (fun b hb => by rw [List.eq_of_mem_replicate hb]; exact List.cons_ne_nil _ _),
      List.map_replicate, blockFrames_replicate, List.length_replicate]
    rfl
  · rw [runReports_positions jsMath (48000 : ℝ) _ _ 0 rfl
      (fun b hb => by rw [List.eq_of_mem_replicate hb]; exact List.cons_ne_nil _ _),
      List.map_replicate, blockFrames_replicate, List.length_replicate]
    rfl

/-- C15 (amended): the meter window is a fixed number of blocks.  For a live processor and any
sequence of non-empty input blocks, a report is posted exactly by every call of `process` that
brings the block counter to 6 -- from a fresh processor, by every sixth call -- so the reports fall
where the block counter puts them: the number of frames between two reports is the total length of
the six blocks in between (768 frames, 16 ms, for 128-frame blocks at 48 kHz). -/
theorem claim15_reports_every_sixth_block [FloorRing α] (M : MathFns α) (sampleRate : α)
    (p : LimiterProcessor α) (n : Nat) (blocks : List (List (List α)))
    (ha : p.alive = true) (hne : ∀ b ∈ blocks, b ≠ []) :
    (runReports M sampleRate p n blocks).map Prod.fst
      = blockCountPositions p.meterBlockCount n
          (blocks.map (fun b => (blockFrames b).length)) ∧
    ∀ input : List (List α), input ≠ [] →
      ((process M sampleRate p input).posted.isSome = true ↔ p.meterBlockCount + 1 ≥ 6) ∧
      (process M sampleRate p input).state.meterBlockCount
        = (if p.meterBlockCount + 1 ≥ 6 then 0 else p.meterBlockCount + 1) :=
  ⟨runReports_positions M sampleRate blocks p n ha hne, fun input hi =>
    ⟨(process_report M sampleRate p input ha hi).1, (process_report M sampleRate p input ha hi).2.1⟩⟩

/-- Witness for the amended C15: twelve 128-frame blocks into a fresh processor at 48 kHz give
reports after frames 768 and 1536. -/
theorem claim15_witness :
    (LimiterProcessor.create (48000 : ℝ)).alive = true ∧
    (runReports jsMath (48000 : ℝ) (LimiterProcessor.create 48000) 0
        (List.replicate 12 [List.replicate 128 0, List.replicate 128 0])).map Prod.fst
      = [768, 1536] := by
  refine ⟨rfl, ?_⟩
  rw [(claim15_reports_every_sixth_block jsMath (48000 : ℝ) (LimiterProcessor.create 48000) 0
      (List.replicate 12 [List.replicate 128 0, List.replicate 128 0]) rfl
      (fun b hb => by rw [List.eq_of_mem_replicate hb]; exact List.cons_ne_nil _ _)).1,
    List.map_replicate, blockFrames_replicate, List.length_replicate]
  rfl

/-- C16 fails for a make-up gain whose linear value overflows a double.  The processor at 48 kHz
with `makeupGainDb = 7000` (all other parameters at their defaults), fed a block of 128 silent
frames: `outGainLin = Math.pow(10, 350)` is `Infinity`, so the gain is `Infinity`, and the first
output sample on both channels is `0 * Infinity = NaN`, not `0`. -/
theorem claim16_counterexample :
    (configured (48000 : ℝ) ⟨none, none, some 7000, none, none⟩ 0 0 0).outputGain = 7000 ∧
    blockFrames [List.replicate 128 (0 : ℝ), List.replicate 128 (0 : ℝ)]
      = List.replicate 128 ((0 : ℝ), (0 : ℝ)) ∧
    outGainLinJs (configured (48000 : ℝ) ⟨none, none, some 7000, none, none⟩ 0 0 0)
      = JsNumber.posInf ∧
    (runSamplesJs (48000 : ℝ) (configured 48000 ⟨none, none, some 7000, none, none⟩ 0 0 0)
        (blockFrames [List.replicate 128 (0 : ℝ), List.replicate 128 (0 : ℝ)])).2[0]?
      = some (some JsNumber.nan, some JsNumber.nan) := by
  have hg : (configured (48000 : ℝ) ⟨none, none, some 7000, none, none⟩ 0 0 0).outputGain
      = 7000 := rfl
  have hG : outGainLinJs (configured (48000 : ℝ) ⟨none, none, some 7000, none, none⟩ 0 0 0)
      = JsNumber.posInf := by
    unfold outGainLinJs
    rw [hg]
    exact mathPow10_posInf (by norm_num)
  have hinv := (configured_reach jsMath (48000 : ℝ)
    ⟨none, none, some 7000, none, none⟩ 0 0 0).ringInv (by norm_num)
  have hz : ∀ f ∈ [((0 : ℝ), (0 : ℝ))], f = ((0 : ℝ), (0 : ℝ)) :=
    fun f hf => List.mem_singleton.mp hf
  refine ⟨hg, blockFrames_replicate 128 0 0, hG, ?_⟩
  rw [blockFrames_replicate, show (128 : ℕ) = 127 + 1 from rfl, List.replicate_succ,
    runSamplesJs_head, stepSampleJs_out (48000 : ℝ) hinv, hG, gainJs_posInf,
    getD_map_zero Prod.fst rfl _ hz, getD_map_zero Prod.snd rfl _ hz, JsNumber.zero_mul_posInf]

/-- C16 (amended): silence in, silence out.  For a freshly constructed and configured processor
(sample rate `> 0`) with `makeupGainDb ≤ 6000`, `kneeWidthDb ≤ 1000` and `minRecoveryMs > 0` (any
threshold, lookahead and spectral features), and any number of blocks whose samples are all `0`:
every output sample is the finite number `0` also when the gain is computed with the overflow of
double arithmetic, every output frame of `process` is `(0, 0)`, and every posted level report has
`inL = inR = outL = outR = -100` dB.  The bounds on the knee width and the recovery time keep the
knee formula and the release coefficient finite in double arithmetic; with exact numbers they are
not needed, and the proof does not use them. -/
theorem claim16_silence_in_silence_out (sampleRate : ℝ) (hsr : 0 < sampleRate)
    (m : ParamsMsg ℝ) (centroid lowEnergy rms : ℝ)
    (hgain : (configured sampleRate m centroid lowEnergy rms).outputGain ≤ 6000)
    (hknee : (configured sampleRate m centroid lowEnergy rms).kneeWidth ≤ 1000)
    (hrec : 0 < (configured sampleRate m centroid lowEnergy rms).minRecovery)
    (blocks : List (List (List ℝ)))
    (hin : ∀ b ∈ blocks, ∀ ch ∈ b, ∀ x ∈ ch, x = 0) :
    (∀ o ∈ (runSamplesJs sampleRate (configured sampleRate m centroid lowEnergy rms)
        (inputFrames blocks)).2, o = (some (JsNumber.finite 0), some (JsNumber.finite 0))) ∧
    (∀ o ∈ (runBlocks jsMath sampleRate
        (configured sampleRate m centroid lowEnergy rms) blocks).2, o = (some 0, some 0)) ∧
    (∀ rp ∈ runReports jsMath sampleRate
        (configured sampleRate m centroid lowEnergy rms) 0 blocks,
      rp.2 = { inL := -100, inR := -100, outL := -100, outR := -100 }) := by
  have hinv := (configured_reach jsMath sampleRate m centroid lowEnergy rms).ringInv hsr
  have hnil : ∀ f ∈ ([] : List (ℝ × ℝ)), f = (0, 0) := fun f hf => by simp at hf
  obtain ⟨h1, h2⟩ := silent_run sampleRate blocks _ 0 [] hinv hnil rfl ⟨rfl, rfl, rfl, rfl⟩ hin
  exact ⟨runSamplesJs_silent sampleRate (inputFrames blocks) [] _ hinv hnil
    (inputFrames_zero blocks hin) hgain, h1, h2⟩

/-- Witness for the amended C16, the spec's scenario: 48 kHz, `thresholdDb = -8`,
`kneeWidthDb = 6`, `makeupGainDb = 8`, `lookaheadMs = 1.5`, `minRecoveryMs = 150`, twelve silent
blocks of 128 frames: reports are posted after frames 768 and 1536, all outputs are the finite
number `0` and all reports `-100` dB. -/
theorem claim16_witness :
    (0 : ℝ) < 48000 ∧
    (configured (48000 : ℝ) ⟨some (-8), some 6, some 8, some 1.5, some 150⟩ 0 0 0).outputGain
      ≤ 6000 ∧
    (configured (48000 : ℝ) ⟨some (-8), some 6, some 8, some 1.5, some 150⟩ 0 0 0).kneeWidth
      ≤ 1000 ∧
    0 < (configured (48000 : ℝ) ⟨some (-8), some 6, some 8, some 1.5, some 150⟩ 0 0 0).minRecovery ∧
    (runReports jsMath (48000 : ℝ)
        (configured 48000 ⟨some (-8), some 6, some 8, some 1.5, some 150⟩ 0 0 0) 0
        (List.replicate 12 [List.replicate 128 0, List.replicate 128 0])).map Prod.fst
      = [768, 1536] ∧
    (∀ o ∈ (runSamplesJs (48000 : ℝ)
        (configured 48000 ⟨some (-8), some 6, some 8, some 1.5, some 150⟩ 0 0 0)
        (inputFrames (List.replicate 12 [List.replicate 128 0, List.replicate 128 0]))).2,
      o = (some (JsNumber.finite 0), some (JsNumber.finite 0))) ∧
    (∀ o ∈ (runBlocks jsMath (48000 : ℝ)
        (configured 48000 ⟨some (-8), some 6, some 8, some 1.5, some 150⟩ 0 0 0)
        (List.replicate 12 [List.replicate 128 0, List.replicate 128 0])).2,
      o = (some 0, some 0)) ∧
    (∀ rp ∈ runReports jsMath (48000 : ℝ)
        (configured 48000 ⟨some (-8), some 6, some 8, some 1.5, some 150⟩ 0 0 0) 0
        (List.replicate 12 [List.replicate 128 0, List.replicate 128 0]),
      rp.2 = { inL := -100, inR := -100, outL := -100, outR := -100 }) := by
  have hin : ∀ b ∈ List.replicate 12 [List.replicate 128 (0 : ℝ), List.replicate 128 (0 : ℝ)],
      ∀ ch ∈ b, ∀ x ∈ ch, x = 0 := by
    intro b hb ch hch x hx
    rw [List.eq_of_mem_replicate hb] at hch
    have hc : ch = List.replicate 128 (0 : ℝ) := by
      rcases List.mem_cons.mp hch with h | h
      · exact h
      · exact List.mem_singleton.mp h
    rw [hc] at hx
    exact List.eq_of_mem_replicate hx
  have hg : (configured (48000 : ℝ)
      ⟨some (-8), some 6, some 8, some 1.5, some 150⟩ 0 0 0).outputGain ≤ 6000 := by
    norm_num [configured, onmessage]
  have hk : (configured (48000 : ℝ)
      ⟨some (-8), some 6, some 8, some 1.5, some 150⟩ 0 0 0).kneeWidth ≤ 1000 := by
    norm_num [configured, onmessage]
  have hr : 0 < (configured (48000 : ℝ)
      ⟨some (-8), some 6, some 8, some 1.5, some 150⟩ 0 0 0).minRecovery := by
    norm_num [configured, onmessage]
  have h := claim16_silence_in_silence_out 48000 (by norm_num)
    ⟨some (-8), some 6, some 8, some 1.5, some 150⟩ 0 0 0 hg hk hr _ hin
  refine ⟨by norm_num, hg, hk, hr, ?_, h.1, h.2.1, h.2.2⟩
  rw [runReports_positions jsMath (48000 : ℝ) _ _ 0 rfl
      (fun b hb => by rw [List.eq_of_mem_replicate hb]; exact List.cons_ne_nil _ _),
    List.map_replicate, blockFrames_replicate, List.length_replicate]
  rfl

/-- C17: sparse configuration update.  Handling a `params` message sets each of the five
parameters present in the message to the message's value (whatever it is), keeps each absent one,
and changes no other field of the processor: envelope state, rings, write index, ring capacity,
spectral features, meter accumulators and the alive flag. -/
theorem claim17_params_sparse_update (p : LimiterProcessor α) (m : ParamsMsg α) :
    ((∀ v, m.saturationLevel = some v → (onmessage p (.params m)).saturationLevel = v) ∧
      (m.saturationLevel = none → (onmessage p (.params m)).saturationLevel = p.saturationLevel)) ∧
    ((∀ v, m.kneeWidth = some v → (onmessage p (.params m)).kneeWidth = v) ∧
      (m.kneeWidth = none → (onmessage p (.params m)).kneeWidth = p.kneeWidth)) ∧
    ((∀ v, m.outputGain = some v → (onmessage p (.params m)).outputGain = v) ∧
      (m.outputGain = none → (onmessage p (.params m)).outputGain = p.outputGain)) ∧
    ((∀ v, m.lookaheadMs = some v → (onmessage p (.params m)).lookaheadMs = v) ∧
      (m.lookaheadMs = none → (onmessage p (.params m)).lookaheadMs = p.lookaheadMs)) ∧
    ((∀ v, m.minRecovery = some v → (onmessage p (.params m)).minRecovery = v) ∧
      (m.minRecovery = none → (onmessage p (.params m)).minRecovery = p.minRecovery)) ∧
    (onmessage p (.params m)).envelope = p.envelope ∧
    (onmessage p (.params m)).holdTimer = p.holdTimer ∧
    (onmessage p (.params m)).peakRate = p.peakRate ∧
    (onmessage p (.params m)).ringL = p.ringL ∧
    (onmessage p (.params m)).ringR = p.ringR ∧
    (onmessage p (.params m)).writeIndex = p.writeIndex ∧
    (onmessage p (.params m)).maxDelaySamples = p.maxDelaySamples ∧
    (onmessage p (.params m)).centroid = p.centroid ∧
    (onmessage p (.params m)).lowEnergy = p.lowEnergy ∧
    (onmessage p (.params m)).rms = p.rms ∧
    (onmessage p (.params m)).inPeakL = p.inPeakL ∧
    (onmessage p (.params m)).inPeakR = p.inPeakR ∧
    (onmessage p (.params m)).outPeakL = p.outPeakL ∧
    (onmessage p (.params m)).outPeakR = p.outPeakR ∧
    (onmessage p (.params m)).meterBlockCount = p.meterBlockCount ∧
    (onmessage p (.params m)).alive = p.alive := by
  refine ⟨⟨?_, ?_⟩, ⟨?_, ?_⟩, ⟨?_, ?_⟩, ⟨?_, ?_⟩, ⟨?_, ?_⟩,
    rfl, rfl, rfl, rfl, rfl, rfl, rfl, rfl, rfl, rfl, rfl, rfl, rfl, rfl, rfl, rfl⟩ <;>
  · intro h
    intros
    simp_all [onmessage]

/-- Witness for C17: a message carrying only `lookaheadMs = 3` changes the lookahead of the
default processor and keeps its threshold. -/
theorem claim17_witness :
    (onmessage (LimiterProcessor.create (48000 : ℚ))
        (.params ⟨none, none, none, some 3, none⟩)).lookaheadMs = 3 ∧
    (onmessage (LimiterProcessor.create (48000 : ℚ))
        (.params ⟨none, none, none, some 3, none⟩)).saturationLevel
      = (LimiterProcessor.create (48000 : ℚ)).saturationLevel :=
  ⟨(claim17_params_sparse_update (LimiterProcessor.create (48000 : ℚ))
      ⟨none, none, none, some 3, none⟩).2.2.2.1.1 3 rfl,
    (claim17_params_sparse_update (LimiterProcessor.create (48000 : ℚ))
      ⟨none, none, none, some 3, none⟩).1.2 rfl⟩

/-- C18: shutdown.  After a `destroy` message and whatever messages and `process` calls follow,
a call of `process` returns `false`, writes nothing, posts nothing and leaves the whole state
unchanged; and handling `destroy` twice gives the same state as handling it once. -/
theorem claim18_destroy_shutdown [FloorRing α] (M : MathFns α) (sampleRate : α)
    (p : LimiterProcessor α) (es : List (Event α)) (input : List (List α)) :
    process M sampleRate (afterEvents M sampleRate (onmessage p .destroy) es) input
      = { state := afterEvents M sampleRate (onmessage p .destroy) es
          keepAlive := false
          out := []
          posted := none } ∧
    (afterEvents M sampleRate (onmessage p .destroy) es).alive = false ∧
    onmessage (onmessage p .destroy) .destroy = onmessage p .destroy := by
  have halive : ∀ (es : List (Event α)) (q : LimiterProcessor α), q.alive = false →
      (afterEvents M sampleRate q es).alive = false := by
    intro es
    induction es with
    | nil => intro q hq; exact hq
    | cons e es ih =>
      intro q hq
      cases e with
      | message m =>
        simp only [afterEvents]
        apply ih
        cases m <;> simp [onmessage, hq]
      | render inp =>
        simp only [afterEvents]
        apply ih
        simp [process, hq]
  have h := halive es (onmessage p .destroy) rfl
  refine ⟨?_, h, rfl⟩
  simp [process, h]

/-- C19 fails in its last part: after a stereo block, a mono block is not output identically on
both channels.  The default processor at 48 kHz (delay 24 samples) first processes 128 frames
`(1, 2)`; the first output frame of the following mono block of ones is the delayed frame `(1, 2)`
times the gain `1/2`, i.e. `(0.5, 1)`. -/
theorem claim19_counterexample :
    (process jsMath (48000 : ℝ)
        (process jsMath (48000 : ℝ) (LimiterProcessor.create 48000)
          [List.replicate 128 1, List.replicate 128 2]).state
        [List.replicate 128 1]).out[0]? = some (some (0.5 : ℝ), some (1 : ℝ)) ∧
    (0.5 : ℝ) ≠ 1 := by
  refine ⟨?_, by norm_num⟩
  have hd0 : delaySamples (48000 : ℝ) (LimiterProcessor.create 48000) = 24 := by
    norm_num [delaySamples, LimiterProcessor.create, mathRound, mathCeil]
  have hatt : max |((1 : ℝ), (2 : ℝ)).1| |((1 : ℝ), (2 : ℝ)).2|
      > (LimiterProcessor.create (48000 : ℝ)).envelope := by
    norm_num [LimiterProcessor.create]
  have h0 : (stepSample jsMath (48000 : ℝ) (LimiterProcessor.create 48000)
      ((1 : ℝ), (2 : ℝ))).1.holdTimer = 240.48 := by
    rw [(stepSample_envelope jsMath (48000 : ℝ) _ ((1 : ℝ), (2 : ℝ))).2.1,
      (envelopeFollower_attack (48000 : ℝ) _ _ hatt).2]
    norm_num [envelopeFollower, holdSamples, LimiterProcessor.create, max_def, min_def]
  have he0 : (stepSample jsMath (48000 : ℝ) (LimiterProcessor.create 48000)
      ((1 : ℝ), (2 : ℝ))).1.envelope = 2 := by
    rw [(stepSample_envelope jsMath (48000 : ℝ) _ ((1 : ℝ), (2 : ℝ))).1,
      (envelopeFollower_attack (48000 : ℝ) _ _ hatt).1]
    norm_num
  have hfs1 : blockFrames [List.replicate 128 (1 : ℝ), List.replicate 128 (2 : ℝ)]
      = ((1 : ℝ), (2 : ℝ)) :: List.replicate 127 ((1 : ℝ), (2 : ℝ)) := by
    simp only [blockFrames, List.zip_replicate, min_self]
    rw [← List.replicate_succ]
  have hfs2 : blockFrames [List.replicate 128 (1 : ℝ)]
      = ((1 : ℝ), (1 : ℝ)) :: List.replicate 127 ((1 : ℝ), (1 : ℝ)) := by
    simp only [blockFrames, List.zip_replicate, min_self]
    rw [← List.replicate_succ]
  obtain ⟨e1, t1⟩ := runSamples_hold_phase jsMath (48000 : ℝ) 2
    (List.replicate 127 ((1 : ℝ), (2 : ℝ))) _
    (by intro g hg; rw [List.eq_of_mem_replicate hg]; norm_num) he0
    (by rw [h0, List.length_replicate]; norm_num)
  have hrun : (runSamples jsMath (48000 : ℝ) (LimiterProcessor.create 48000)
      (blockFrames [List.replicate 128 (1 : ℝ), List.replicate 128 (2 : ℝ)])).1
      = (runSamples jsMath (48000 : ℝ)
          (stepSample jsMath (48000 : ℝ) (LimiterProcessor.create 48000) ((1 : ℝ), (2 : ℝ))).1
          (List.replicate 127 ((1 : ℝ), (2 : ℝ)))).1 := by
    rw [hfs1, runSamples_cons_fst]
  -- the state after the stereo block: envelope 2, hold running, default parameters
  have hcr : (LimiterProcessor.create (48000 : ℝ)).alive = true := rfl
  obtain ⟨v1, v2, -⟩ := process_envState jsMath (48000 : ℝ)
    (LimiterProcessor.create 48000) [List.replicate 128 1, List.replicate 128 2] hcr
  obtain ⟨k1, -, -⟩ := process_blockConsts jsMath (48000 : ℝ)
    (LimiterProcessor.create 48000) [List.replicate 128 1, List.replicate 128 2]
  obtain ⟨c1, c2, c3, -⟩ := process_consts jsMath (48000 : ℝ)
    (LimiterProcessor.create 48000) [List.replicate 128 1, List.replicate 128 2]
  have halive := (process_eq_runSamples jsMath (48000 : ℝ)
    (LimiterProcessor.create 48000) [List.replicate 128 1, List.replicate 128 2] hcr).2.2.1
  have hreach := Reach.process jsMath (48000 : ℝ) (Reach.init (M := jsMath))
    [List.replicate 128 1, List.replicate 128 2]
  rw [if_pos hcr] at hreach
  have hinv := hreach.ringInv (by norm_num)
  rw [hrun, e1] at v1
  rw [hrun, t1, h0, List.length_replicate] at v2
  rw [hd0] at k1
  have hsat : (LimiterProcessor.create (48000 : ℝ)).saturationLevel = -6 := rfl
  have hknee : (LimiterProcessor.create (48000 : ℝ)).kneeWidth = 0 := rfl
  have hgn : (LimiterProcessor.create (48000 : ℝ)).outputGain = 6 := rfl
  rw [hsat] at c1
  rw [hknee] at c2
  rw [hgn] at c3
  have hx : (((1 : ℝ), (1 : ℝ))
      :: ((blockFrames [List.replicate 128 (1 : ℝ), List.replicate 128 (2 : ℝ)]).reverse
        ++ [])).getD (24 : Int).toNat (0, 0) = ((1 : ℝ), (2 : ℝ)) := by
    have e2 : (blockFrames [List.replicate 128 (1 : ℝ), List.replicate 128 (2 : ℝ)])
        = List.replicate 128 ((1 : ℝ), (2 : ℝ)) := by
      simp only [blockFrames, List.zip_replicate, min_self]
    rw [e2, List.reverse_replicate, List.append_nil]
    simp
  generalize (process jsMath (48000 : ℝ) (LimiterProcessor.create 48000)
    [List.replicate 128 1, List.replicate 128 2]).state = s at v1 v2 k1 c1 c2 c3 halive hinv ⊢
  generalize (blockFrames [List.replicate 128 (1 : ℝ), List.replicate 128 (2 : ℝ)]).reverse
    ++ [] = hist at hinv hx
  have hshold : s.holdTimer > 0 := by
    rw [v2]
    norm_num
  have hgain : gain jsMath s.saturationLevel s.kneeWidth (outGainLin jsMath s) 2 = 1 / 2 := by
    have hl : jsMath.log10 1 ≤ jsMath.log10 2 := jsMath_log10_le (by norm_num) (by norm_num)
    have h1 : jsMath.log10 1 = 0 := Real.logb_one
    have hso : s.saturationLevel + s.outputGain = 0 := by
      rw [c1, c3]
      norm_num
    have := gain_eq_ceiling_div s.saturationLevel s.kneeWidth s.outputGain 2
      (by rw [c2]) (by norm_num) (by rw [c1, c2]; linarith)
    rw [hso, zero_div, jsMath_pow10_zero] at this
    exact this
  rw [process_first_out jsMath (48000 : ℝ) hinv halive _ _ _ hfs2, k1, hx,
    (envelopeFollower_hold (48000 : ℝ) _ s (by rw [v1]; norm_num) hshold).1, v1, hgain]
  norm_num

/-- C19 (amended): mono duplication.  For every single-channel input block `x`, `process` gives
exactly the same result (state, return value, output frames, posted report) as for the stereo
input `(x, x)` from the same state; and when the two rings of that state hold the same contents
(as in a fresh processor, or after mono input only), the two output channels are identical and the
rings stay equal. -/
theorem claim19_mono_duplication [FloorRing α] (M : MathFns α) (sampleRate : α)
    (p : LimiterProcessor α) (x : List α) :
    process M sampleRate p [x] = process M sampleRate p [x, x] ∧
    (p.ringL = p.ringR →
      (∀ o ∈ (process M sampleRate p [x]).out, o.1 = o.2) ∧
      (process M sampleRate p [x]).state.ringL = (process M sampleRate p [x]).state.ringR) := by
  refine ⟨rfl, fun hr => ?_⟩
  by_cases ha : p.alive = true
  · obtain ⟨h1, h2, -, -⟩ := process_eq_runSamples M sampleRate p [x] ha
    obtain ⟨m1, m2⟩ := runSamples_mono M sampleRate (blockFrames [x]) p hr
      (zip_self_fst_eq_snd x)
    refine ⟨by rw [h1]; exact m1, ?_⟩
    have e1 := congrArg (fun q => q.ringL) h2
    have e2 := congrArg (fun q => q.ringR) h2
    simp only [core] at e1 e2
    rw [e1, e2]
    exact m2
  · simp [process, ha, hr]

/-- Witness for the amended C19: the fresh processor at 48 kHz and a mono block of 128 samples. -/
theorem claim19_witness :
    (LimiterProcessor.create (48000 : ℝ)).ringL = (LimiterProcessor.create (48000 : ℝ)).ringR ∧
    ∀ o ∈ (process jsMath (48000 : ℝ) (LimiterProcessor.create 48000)
        [List.replicate 128 1]).out, o.1 = o.2 :=
  ⟨rfl, ((claim19_mono_duplication jsMath (48000 : ℝ) (LimiterProcessor.create 48000)
    (List.replicate 128 1)).2 rfl).1⟩

/-- C20 fails: the processor has no reset operation.  Its port handles `params`, `spectral` and
`destroy` only, and none of them touches the envelope or the rings.  Take the default processor at
48 kHz after one block of 128 ones: whatever messages are sent, the envelope is still `1` (a fresh
processor has `0`); and when a message of an unhandled type is sent and a silent block is
processed, the first output frame is the delayed frame `(1, 1)` at unit gain, not silence. -/
theorem claim20_counterexample :
    (∀ ms : List (Msg ℝ),
      (ms.foldl onmessage (process jsMath (48000 : ℝ) (LimiterProcessor.create 48000)
        [List.replicate 128 1]).state).envelope = 1) ∧
    (LimiterProcessor.create (48000 : ℝ)).envelope = 0 ∧
    (process jsMath (48000 : ℝ)
        (onmessage (process jsMath (48000 : ℝ) (LimiterProcessor.create 48000)
          [List.replicate 128 1]).state Msg.other)
        [List.replicate 128 0]).out[0]? = some (some (1 : ℝ), some (1 : ℝ)) := by
  have hd0 : delaySamples (48000 : ℝ) (LimiterProcessor.create 48000) = 24 := by
    norm_num [delaySamples, LimiterProcessor.create, mathRound, mathCeil]
  have hatt : max |((1 : ℝ), (1 : ℝ)).1| |((1 : ℝ), (1 : ℝ)).2|
      > (LimiterProcessor.create (48000 : ℝ)).envelope := by
    norm_num [LimiterProcessor.create]
  have h0 : (stepSample jsMath (48000 : ℝ) (LimiterProcessor.create 48000)
      ((1 : ℝ), (1 : ℝ))).1.holdTimer = 240.48 := by
    rw [(stepSample_envelope jsMath (48000 : ℝ) _ ((1 : ℝ), (1 : ℝ))).2.1,
      (envelopeFollower_attack (48000 : ℝ) _ _ hatt).2]
    norm_num [envelopeFollower, holdSamples, LimiterProcessor.create, max_def, min_def]
  have he0 : (stepSample jsMath (48000 : ℝ) (LimiterProcessor.create 48000)
      ((1 : ℝ), (1 : ℝ))).1.envelope = 1 := by
    rw [(stepSample_envelope jsMath (48000 : ℝ) _ ((1 : ℝ), (1 : ℝ))).1,
      (envelopeFollower_attack (48000 : ℝ) _ _ hatt).1]
    norm_num
  have hfs1 : blockFrames [List.replicate 128 (1 : ℝ)]
      = ((1 : ℝ), (1 : ℝ)) :: List.replicate 127 ((1 : ℝ), (1 : ℝ)) := by
    simp only [blockFrames, List.zip_replicate, min_self]
    rw [← List.replicate_succ]
  have hfs2 : blockFrames [List.replicate 128 (0 : ℝ)]
      = ((0 : ℝ), (0 : ℝ)) :: List.replicate 127 ((0 : ℝ), (0 : ℝ)) := by
    simp only [blockFrames, List.zip_replicate, min_self]
    rw [← List.replicate_succ]
  obtain ⟨e1, t1⟩ := runSamples_hold_phase jsMath (48000 : ℝ) 1
    (List.replicate 127 ((1 : ℝ), (1 : ℝ))) _
    (by intro g hg; rw [List.eq_of_mem_replicate hg]; norm_num) he0
    (by rw [h0, List.length_replicate]; norm_num)
  have hrun : (runSamples jsMath (48000 : ℝ) (LimiterProcessor.create 48000)
      (blockFrames [List.replicate 128 (1 : ℝ)])).1
      = (runSamples jsMath (48000 : ℝ)
          (stepSample jsMath (48000 : ℝ) (LimiterProcessor.create 48000) ((1 : ℝ), (1 : ℝ))).1
          (List.replicate 127 ((1 : ℝ), (1 : ℝ)))).1 := by
    rw [hfs1, runSamples_cons_fst]
  -- the state after the loud block: envelope 1, hold running, default parameters
  have hcr : (LimiterProcessor.create (48000 : ℝ)).alive = true := rfl
  obtain ⟨v1, v2, -⟩ := process_envState jsMath (48000 : ℝ)
    (LimiterProcessor.create 48000) [List.replicate 128 1] hcr
  obtain ⟨k1, -, -⟩ := process_blockConsts jsMath (48000 : ℝ)
    (LimiterProcessor.create 48000) [List.replicate 128 1]
  obtain ⟨c1, c2, c3, -⟩ := process_consts jsMath (48000 : ℝ)
    (LimiterProcessor.create 48000) [List.replicate 128 1]
  have halive := (process_eq_runSamples jsMath (48000 : ℝ)
    (LimiterProcessor.create 48000) [List.replicate 128 1] hcr).2.2.1
  have hreach := Reach.process jsMath (48000 : ℝ) (Reach.init (M := jsMath))
    [List.replicate 128 1]
  rw [if_pos hcr] at hreach
  have hinv := hreach.ringInv (by norm_num)
  rw [hrun, e1] at v1
  rw [hrun, t1, h0, List.length_replicate] at v2
  rw [hd0] at k1
  have hsat : (LimiterProcessor.create (48000 : ℝ)).saturationLevel = -6 := rfl
  have hknee : (LimiterProcessor.create (48000 : ℝ)).kneeWidth = 0 := rfl
  have hgn : (LimiterProcessor.create (48000 : ℝ)).outputGain = 6 := rfl
  rw [hsat] at c1
  rw [hknee] at c2
  rw [hgn] at c3
  have hx : (((0 : ℝ), (0 : ℝ))
      :: ((blockFrames [List.replicate 128 (1 : ℝ)]).reverse ++ [])).getD
        (24 : Int).toNat (0, 0) = ((1 : ℝ), (1 : ℝ)) := by
    have e2 : (blockFrames [List.replicate 128 (1 : ℝ)])
        = List.replicate 128 ((1 : ℝ), (1 : ℝ)) := by
      simp only [blockFrames, List.zip_replicate, min_self]
    rw [e2, List.reverse_replicate, List.append_nil]
    simp
  generalize (process jsMath (48000 : ℝ) (LimiterProcessor.create 48000)
    [List.replicate 128 1]).state = s at v1 v2 k1 c1 c2 c3 halive hinv ⊢
  generalize (blockFrames [List.replicate 128 (1 : ℝ)]).reverse ++ [] = hist at hinv hx
  have hshold : s.holdTimer > 0 := by
    rw [v2]
    norm_num
  have hgain : gain jsMath s.saturationLevel s.kneeWidth (outGainLin jsMath s) 1 = 1 := by
    have h1 : jsMath.log10 1 = 0 := Real.logb_one
    have hso : s.saturationLevel + s.outputGain = 0 := by
      rw [c1, c3]
      norm_num
    have := gain_eq_ceiling_div s.saturationLevel s.kneeWidth s.outputGain 1
      (by rw [c2]) (by norm_num) (by rw [c1, c2, h1]; norm_num)
    rw [hso, zero_div, jsMath_pow10_zero, div_one] at this
    exact this
  refine ⟨fun ms => by rw [(foldl_onmessage_state ms s).1, v1], rfl, ?_⟩
  rw [onmessage_other, process_first_out jsMath (48000 : ℝ) hinv halive _ _ _ hfs2, k1, hx,
    (envelopeFollower_hold (48000 : ℝ) _ s (by rw [v1]; norm_num) hshold).1, v1, hgain]
  norm_num

/-- C20 (amended): there is no reset, only a restart.  No sequence of port messages changes the
envelope, the hold timer, the rings, the write cursor or the meter accumulators; a freshly
constructed and configured processor (sample rate `> 0`) that processes silent blocks outputs only
zeros and ends with envelope `0`, hold timer `0`, silent rings and zero meter accumulators. -/
theorem claim20_fresh_engine_on_silence (sampleRate : ℝ) (hsr : 0 < sampleRate)
    (m : ParamsMsg ℝ) (centroid lowEnergy rms : ℝ) (blocks : List (List (List ℝ)))
    (hin : ∀ b ∈ blocks, ∀ ch ∈ b, ∀ x ∈ ch, x = 0) :
    (∀ (p : LimiterProcessor ℝ) (ms : List (Msg ℝ)),
      (ms.foldl onmessage p).envelope = p.envelope ∧
      (ms.foldl onmessage p).holdTimer = p.holdTimer ∧
      (ms.foldl onmessage p).ringL = p.ringL ∧
      (ms.foldl onmessage p).ringR = p.ringR ∧
      (ms.foldl onmessage p).writeIndex = p.writeIndex ∧
      (ms.foldl onmessage p).inPeakL = p.inPeakL ∧
      (ms.foldl onmessage p).inPeakR = p.inPeakR ∧
      (ms.foldl onmessage p).outPeakL = p.outPeakL ∧
      (ms.foldl onmessage p).outPeakR = p.outPeakR) ∧
    (∀ o ∈ (runBlocks jsMath sampleRate
        (configured sampleRate m centroid lowEnergy rms) blocks).2, o = (some 0, some 0)) ∧
    (runBlocks jsMath sampleRate
      (configured sampleRate m centroid lowEnergy rms) blocks).1.envelope = 0 ∧
    (runBlocks jsMath sampleRate
      (configured sampleRate m centroid lowEnergy rms) blocks).1.holdTimer = 0 ∧
    (∀ x ∈ (runBlocks jsMath sampleRate
      (configured sampleRate m centroid lowEnergy rms) blocks).1.ringL, x = 0) ∧
    (∀ x ∈ (runBlocks jsMath sampleRate
      (configured sampleRate m centroid lowEnergy rms) blocks).1.ringR, x = 0) ∧
    (runBlocks jsMath sampleRate
      (configured sampleRate m centroid lowEnergy rms) blocks).1.inPeakL = 0 ∧
    (runBlocks jsMath sampleRate
      (configured sampleRate m centroid lowEnergy rms) blocks).1.inPeakR = 0 ∧
    (runBlocks jsMath sampleRate
      (configured sampleRate m centroid lowEnergy rms) blocks).1.outPeakL = 0 ∧
    (runBlocks jsMath sampleRate
      (configured sampleRate m centroid lowEnergy rms) blocks).1.outPeakR = 0 := by
  have hinv := (configured_reach jsMath sampleRate m centroid lowEnergy rms).ringInv hsr
  have hnil : ∀ f ∈ ([] : List (ℝ × ℝ)), f = (0, 0) := fun f hf => by simp at hf
  obtain ⟨hout, -⟩ := silent_run sampleRate blocks _ 0 [] hinv hnil rfl ⟨rfl, rfl, rfl, rfl⟩ hin
  obtain ⟨⟨r1, r2⟩, m1, m2, m3, m4⟩ :=
    silent_run_state sampleRate blocks _ [] hinv hnil rfl ⟨rfl, rfl, rfl, rfl⟩ hin
  obtain ⟨b1, b2, -⟩ := runBlocks_envState jsMath sampleRate blocks
    (configured sampleRate m centroid lowEnergy rms) rfl
  obtain ⟨s1, s2⟩ := runSamples_release_phase jsMath sampleRate 0 (inputFrames blocks)
    (configured sampleRate m centroid lowEnergy rms)
    (fun f hf => by rw [inputFrames_zero blocks hin f hf]; simp) rfl (le_of_eq rfl)
  refine ⟨fun p ms => ?_, hout, b1.trans s1, b2.trans (s2.trans rfl), r1, r2, m1, m2, m3, m4⟩
  obtain ⟨a1, a2, -, a4, a5, a6, a7, a8, a9, a10, -⟩ := foldl_onmessage_state ms p
  exact ⟨a1, a2, a4, a5, a6, a7, a8, a9, a10⟩

/-- Witness for the amended C20: 48 kHz, default parameters, twelve silent blocks of 128 frames. -/
theorem claim20_witness :
    (0 : ℝ) < 48000 ∧
    (∀ o ∈ (runBlocks jsMath (48000 : ℝ) (configured 48000 ⟨none, none, none, none, none⟩ 0 0 0)
        (List.replicate 12 [List.replicate 128 0, List.replicate 128 0])).2,
      o = (some 0, some 0)) ∧
    (runBlocks jsMath (48000 : ℝ) (configured 48000 ⟨none, none, none, none, none⟩ 0 0 0)
      (List.replicate 12 [List.replicate 128 0, List.replicate 128 0])).1.envelope = 0 := by
  have hin : ∀ b ∈ List.replicate 12 [List.replicate 128 (0 : ℝ), List.replicate 128 (0 : ℝ)],
      ∀ ch ∈ b, ∀ x ∈ ch, x = 0 := by
    intro b hb ch hch x hx
    rw [List.eq_of_mem_replicate hb] at hch
    have hc : ch = List.replicate 128 (0 : ℝ) := by
      rcases List.mem_cons.mp hch with h | h
      · exact h
      · exact List.mem_singleton.mp h
    rw [hc] at hx
    exact List.eq_of_mem_replicate hx
  have h := claim20_fresh_engine_on_silence 48000 (by norm_num)
    ⟨none, none, none, none, none⟩ 0 0 0 _ hin
  exact ⟨by norm_num, h.2.1, h.2.2.1⟩

/-- C21: the envelope dominates the current peak.  For `minRecoveryMs > 0` and a sample rate `> 0`
the decay coefficient lies strictly between 0 and 1, and from any state: after one sample the
envelope is at least `max(|L|, |R|)` of that sample (also as the last sample of any run); in the
release branch (no attack, hold timer expired) the new envelope is
`envelope*decay + peak*(1 - decay)`, which lies between the current peak and the previous
envelope. -/
theorem claim21_envelope_dominates_peak (sampleRate : ℝ) (hsr : 0 < sampleRate)
    (p : LimiterProcessor ℝ) (hrec : 0 < p.minRecovery) (f : ℝ × ℝ) :
    (0 < decay jsMath sampleRate p ∧ decay jsMath sampleRate p < 1) ∧
    max |f.1| |f.2| ≤ (stepSample jsMath sampleRate p f).1.envelope ∧
    (∀ fs : List (ℝ × ℝ),
      max |f.1| |f.2| ≤ (runSamples jsMath sampleRate p (fs ++ [f])).1.envelope) ∧
    (¬ max |f.1| |f.2| > p.envelope → ¬ p.holdTimer > 0 →
      (stepSample jsMath sampleRate p f).1.envelope
        = p.envelope * decay jsMath sampleRate p
          + max |f.1| |f.2| * (1 - decay jsMath sampleRate p) ∧
      max |f.1| |f.2| ≤ (stepSample jsMath sampleRate p f).1.envelope ∧
      (stepSample jsMath sampleRate p f).1.envelope ≤ p.envelope) := by
  have hd0 := decay_pos sampleRate p
  have hd1 := decay_lt_one hsr p hrec
  have hstep : ∀ q : LimiterProcessor ℝ,
      max |f.1| |f.2| ≤ (stepSample jsMath sampleRate q f).1.envelope := by
    intro q
    rw [(stepSample_envelope jsMath sampleRate q f).1]
    exact envelopeFollower_ge_peak sampleRate _ q _ (decay_pos sampleRate q).le
  refine ⟨⟨hd0, hd1⟩, hstep p, fun fs => ?_, fun h1 h2 => ?_⟩
  · rw [runSamples_snoc]
    exact hstep _
  · have he : (stepSample jsMath sampleRate p f).1.envelope
        = p.envelope * decay jsMath sampleRate p
          + max |f.1| |f.2| * (1 - decay jsMath sampleRate p) := by
      rw [(stepSample_envelope jsMath sampleRate p f).1,
        (envelopeFollower_release sampleRate _ p h1 h2).1]
    refine ⟨he, hstep p, ?_⟩
    rw [he]
    have hle : max |f.1| |f.2| ≤ p.envelope := not_lt.mp h1
    nlinarith [mul_nonneg (sub_nonneg.mpr hle) (sub_nonneg.mpr hd1.le)]

/-- Witness for C21: the freshly constructed processor at 48 kHz and the frame `(0.5, -0.25)`. -/
theorem claim21_witness :
    (0 : ℝ) < 48000 ∧ 0 < (LimiterProcessor.create (48000 : ℝ)).minRecovery ∧
    max |(((0.5 : ℝ), (-0.25 : ℝ))).1| |(((0.5 : ℝ), (-0.25 : ℝ))).2|
      ≤ (stepSample jsMath (48000 : ℝ) (LimiterProcessor.create 48000)
          ((0.5 : ℝ), (-0.25 : ℝ))).1.envelope := by
  have hrec : 0 < (LimiterProcessor.create (48000 : ℝ)).minRecovery := by
    norm_num [LimiterProcessor.create]
  exact ⟨by norm_num, hrec,
    (claim21_envelope_dominates_peak 48000 (by norm_num) (LimiterProcessor.create 48000) hrec
      ((0.5 : ℝ), (-0.25 : ℝ))).2.1⟩

/-- C22: the static ceiling of the gain curve.  For every `levelDb`, `thresholdDb` and
`kneeWidthDb` (any sign) the computed `gainReductionDb` is `≤ 0` and
`levelDb + gainReductionDb ≤ thresholdDb`; `levelDb + gainReductionDb` is non-decreasing in
`levelDb`, and equals `levelDb` whenever `levelDb ≤ thresholdDb - max(kneeWidthDb, 0)/2`. -/
theorem claim22_static_ceiling (levelDb thresholdDb kneeWidthDb : α) :
    gainReductionDb thresholdDb kneeWidthDb levelDb ≤ 0 ∧
    levelDb + gainReductionDb thresholdDb kneeWidthDb levelDb ≤ thresholdDb ∧
    (∀ higherDb : α, levelDb ≤ higherDb →
      levelDb + gainReductionDb thresholdDb kneeWidthDb levelDb
        ≤ higherDb + gainReductionDb thresholdDb kneeWidthDb higherDb) ∧
    (levelDb ≤ thresholdDb - max kneeWidthDb 0 / 2 →
      levelDb + gainReductionDb thresholdDb kneeWidthDb levelDb = levelDb) := by
  refine ⟨gainReductionDb_nonpos _ _ _, level_add_gainReductionDb_le _ _ _,
    fun higherDb h => gainReductionDb_mono_out thresholdDb kneeWidthDb h, fun h => ?_⟩
  rw [gainReductionDb_transparent thresholdDb kneeWidthDb levelDb h, add_zero]

/-- Witness for C22: threshold `-6` dB, knee `6` dB; the level `-20` dB lies below the knee and
passes unchanged, and the curve does not fall from `-20` dB to `-5` dB. -/
theorem claim22_witness :
    (-20 : ℝ) ≤ -6 - max 6 0 / 2 ∧ (-20 : ℝ) ≤ -5 ∧
    (-20 : ℝ) + gainReductionDb (-6) 6 (-20) = -20 ∧
    (-20 : ℝ) + gainReductionDb (-6) 6 (-20) ≤ -5 + gainReductionDb (-6) 6 (-5) := by
  have h1 : (-20 : ℝ) ≤ -6 - max 6 0 / 2 := by norm_num
  have h2 : (-20 : ℝ) ≤ -5 := by norm_num
  have h := claim22_static_ceiling (-20 : ℝ) (-6) 6
  exact ⟨h1, h2, h.2.2.2 h1, h.2.2.1 (-5) h2⟩

/-- C23: the popup's plotted transfer curve agrees with the worklet's gain curve.  For every
input level `inDb` and every slider setting `(sat, knee, gain)`,
`transferOut(inDb) = min(inDb + reductionDb(inDb, sat, knee) + gain, 0)`, where `reductionDb` is
the `gainReductionDb` the worklet computes for the level `inDb` with the same threshold and
knee. -/
theorem claim23_transferOut_matches_worklet (sat knee gain inDb : α) :
    transferOut sat knee gain inDb
      = min (inDb + gainReductionDb sat knee inDb + gain) 0 :=
  transferOut_eq sat knee gain inDb

end Limiter
